import Mathlib

/-!
# console_input: registry, line reader and asynchronous engine

A shallow embedding of `src/src/console_input.c` (with `src/include/console_input.h`).

Conventions of the embedding.

* A byte is a `Nat`; a `const char *` that may be `NULL` is an `Option (List Nat)`.
  The list holds the bytes found at the address; a NUL terminator is implied after the
  last byte, and a `0` inside the list ends the C string early, exactly as it does for
  `strlen` and `strcmp`.
* Function pointers and `void *` are addresses (`Nat`), `0` being `NULL`.
* The file-scope variables of the C file, the standard streams and the stack buffer of
  the worker thread are the fields of `State`.  `calls` is a ghost field: the log of the
  callback invocations made so far.
* A callback is a program over the part of the API a callback may use while it runs on
  the worker thread (`Prog`): register, unregister, request-stop and is-running. What a
  function pointer does is given by a `Handlers` map. A callback that reads the standard
  input itself, or calls start or stop from the worker thread, is outside the embedding.
* In the state semantics every API function is one atomic step. The mutex appears in
  the event traces (`Ev`): the steps of each function in program order, on which the
  locking discipline is checked.
* The end-of-file indicator of a stream is represented and is sticky (ISO C, glibc 2.28
  and later): once set, `fgets` and `fgetc` fail without reading.
* Read errors of the device (`ferror`) are outside the embedding: a `fgets` with a
  positive count either stores characters or fails at the end of the input, with the
  end-of-file indicator set. The answer `CI_INVALID` of the line reader is therefore
  reached through its argument checks and through a count `(int)size` that is not
  positive; every statement about a read is a statement about a stream that delivers its
  bytes.
-/

namespace ConsoleInput

/-! ## Constants and status codes (console_input.h) -/

/-- Status codes of `ci_status`. -/
inductive ci_status where
  | CI_OK
  | CI_EOF
  | CI_OVERFLOW
  | CI_INVALID
  deriving DecidableEq, Repr

open ci_status

/-- Size of the name buffer of a command entry (`#define CI_COMMAND_MAX_LEN 64`). -/
def CI_COMMAND_MAX_LEN : Nat := 64

/-- Capacity of the command table (`#define CI_MAX_COMMANDS 32`). -/
def CI_MAX_COMMANDS : Nat := 32

/-- Size of the line buffer of the worker (`#define CI_ASYNC_BUFFER 256`). -/
def CI_ASYNC_BUFFER : Nat := 256

/-! ## The C library functions the code relies on -/

/-- The C string held by a byte sequence: the bytes before the first NUL. -/
def cstr (s : List Nat) : List Nat := s.takeWhile (fun c => c != 0)

/-- Model of `strlen`: number of bytes before the first NUL. -/
def strlen : List Nat → Nat
  | [] => 0
  | c :: cs => if c = 0 then 0 else strlen cs + 1

/-- Model of `strcmp`: difference of the first pair of bytes that differ, `0` when both
strings end together. -/
def strcmp : List Nat → List Nat → Int
  | [], [] => 0
  | [], b :: _ => 0 - (b : Int)
  | a :: _, [] => (a : Int) - 0
  | a :: as, b :: bs =>
    if a ≠ b then (a : Int) - (b : Int) else if a = 0 then 0 else strcmp as bs

/-- Model of `strncpy(dst, src, n)`: the `n` bytes written to `dst`, the bytes of `src`
up to its terminator, padded with NULs. -/
def strncpy : List Nat → Nat → List Nat
  | _, 0 => []
  | [], n + 1 => 0 :: strncpy [] n
  | c :: cs, n + 1 => if c = 0 then 0 :: strncpy [] n else c :: strncpy cs n

/-- A `FILE *` input stream: the bytes not yet read and the end-of-file indicator. -/
structure FILE where
  data : List Nat
  eof : Bool
  deriving DecidableEq, Repr

/-- The newline character. -/
def NL : Nat := 10

/-- The characters `fgets` stores when it may store at most `k` of them: it stops after a
newline or at end of input. Returns the stored bytes and the unread rest. -/
def fgets_scan : Nat → List Nat → List Nat × List Nat
  | 0, s => ([], s)
  | _ + 1, [] => ([], [])
  | k + 1, c :: s =>
    if c = NL then ([c], s) else ((fgets_scan k s).1.cons c, (fgets_scan k s).2)

/-- Model of `fgets(buffer, n, stream)`: `none` is the `NULL` result (the buffer is then
left as it was), `some raw` the bytes stored in front of the terminating NUL. The
end-of-file indicator is sticky: while it is set the call fails without reading, also
when bytes have arrived behind the end seen before. -/
def fgets (n : Int) (stream : FILE) : Option (List Nat) × FILE :=
  if n ≤ 0 then (none, stream)
  else if n = 1 then (some [], stream)
  else if stream.eof then (none, stream)
  else
    match stream.data with
    | [] => (none, { stream with eof := true })
    | c :: cs =>
      let r := fgets_scan (n.toNat - 1) (c :: cs)
      (some r.1,
        { data := r.2,
          eof := stream.eof || (decide (r.1.length < n.toNat - 1) && r.1.getLast? != some NL) })

/-- The loop `while ((c = fgetc(stream)) != '\n' && c != EOF) {}` on the unread bytes
of a stream whose end-of-file indicator is clear: the unread rest after it, and whether
it ran into the end of input. -/
def discard_line : List Nat → List Nat × Bool
  | [] => ([], true)
  | c :: cs => if c = NL then (cs, false) else discard_line cs

/-- The loop `while ((c = fgetc(stream)) != '\n' && c != EOF) {}` on a stream: with the
end-of-file indicator set the first `fgetc` fails and nothing is consumed; else the
characters up to and including the next newline are consumed, and the indicator is set
when the end of the input comes first. -/
def drain_line (stream : FILE) : FILE :=
  if stream.eof then stream
  else { data := (discard_line stream.data).1, eof := (discard_line stream.data).2 }

/-- The conversion `(int)size` of a `size_t` (32-bit `int`, two's complement). -/
def int_of_size (size : Nat) : Int :=
  if size % 2 ^ 32 < 2 ^ 31 then (size % 2 ^ 32 : Nat) else ((size % 2 ^ 32 : Nat) : Int) - 2 ^ 32

/-! ## The line reader -/

/-- Result of `ci_read_line_internal`: status, stream, buffer contents and standard
output after the call. -/
structure ReadResult where
  status : ci_status
  stream : FILE
  buffer : List Nat
  stdout : List Nat
  deriving DecidableEq, Repr

/-- Embedding of `ci_read_line_internal(stream, prompt, buffer, size)`.
`buffer` is `none` for a `NULL` pointer, else the current contents; `out` is what has
been written to standard output so far. -/
def ci_read_line_internal (stream : FILE) (prompt : Option (List Nat))
    (buffer : Option (List Nat)) (size : Nat) (out : List Nat) : ReadResult :=
  match buffer with
  | none => ⟨CI_INVALID, stream, [], out⟩
  | some buf =>
    if size = 0 then ⟨CI_INVALID, stream, buf, out⟩
    else
      let out1 := match prompt with
        | some p => out ++ cstr p
        | none => out
      match fgets (int_of_size size) stream with
      | (none, stream1) =>
        ⟨if stream1.eof then CI_EOF else CI_INVALID, stream1, buf, out1⟩
      | (some raw, stream1) =>
        let len := strlen raw
        if len > 0 ∧ raw.getD (len - 1) 0 = NL then
          ⟨CI_OK, stream1, raw.set (len - 1) 0, out1⟩
        else if len + 1 = size then ⟨CI_OVERFLOW, drain_line stream1, raw, out1⟩
        else ⟨CI_OK, stream1, raw, out1⟩

/-- Embedding of `ci_read_line(stream, buffer, size)`. -/
def ci_read_line (stream : FILE) (buffer : Option (List Nat)) (size : Nat)
    (out : List Nat) : ReadResult :=
  ci_read_line_internal stream none buffer size out

/-! ## The command registry and the session state -/

/-- The struct `ci_command_entry`: name buffer, callback and user pointer. -/
structure ci_command_entry where
  command : List Nat
  cb : Nat
  user_data : Nat
  deriving DecidableEq, Repr

/-- A zero-initialised entry (static storage). -/
def zero_entry : ci_command_entry := ⟨List.replicate CI_COMMAND_MAX_LEN 0, 0, 0⟩

/-- The array `ci_commands[CI_MAX_COMMANDS]`. -/
abbrev Table := Fin CI_MAX_COMMANDS → ci_command_entry

/-- Read of `ci_commands[i]` (a zero entry outside the array). -/
def Table.read (t : Table) (i : Nat) : ci_command_entry :=
  if h : i < CI_MAX_COMMANDS then t ⟨i, h⟩ else zero_entry

/-- Write of `ci_commands[i] = e`. -/
def Table.write (t : Table) (i : Nat) (e : ci_command_entry) : Table :=
  fun j => if j.val = i then e else t j

/-- One recorded callback invocation: the function called and its two arguments. -/
structure Call where
  cb : Nat
  line : List Nat
  user_data : Nat
  deriving DecidableEq, Repr

/-- The file-scope variables of console_input.c, the standard streams, the line buffer
of the worker and the log of callback invocations. -/
structure State where
  ci_cb : Nat
  ci_cb_data : Nat
  ci_prompt : Option (List Nat)
  ci_running : Bool
  ci_stop_requested : Bool
  ci_commands : Table
  ci_command_count : Nat
  stdin : FILE
  stdout : List Nat
  buffer : List Nat
  calls : List Call

/-- The state at program start: the static initialisers of console_input.c. -/
def init_state (input : List Nat) : State :=
  { ci_cb := 0, ci_cb_data := 0, ci_prompt := none, ci_running := false,
    ci_stop_requested := false, ci_commands := fun _ => zero_entry, ci_command_count := 0,
    stdin := ⟨input, false⟩, stdout := [], buffer := [], calls := [] }

/-- The scan `for (i = ...; i < ci_command_count; i++) if (strcmp(name,
ci_commands[i].command) == 0)` shared by lookup, register and unregister: `n` slots are
left to visit starting at slot `i`; the result is the first matching slot. -/
def scan_from (name : List Nat) (t : Table) : Nat → Nat → Option Nat
  | 0, _ => none
  | n + 1, i =>
    if strcmp name (t.read i).command = 0 then some i else scan_from name t n (i + 1)

/-- The scan over the live part of the table, slots `0 .. ci_command_count - 1`. -/
def scan (name : List Nat) (s : State) : Option Nat :=
  scan_from name s.ci_commands s.ci_command_count 0

/-- Embedding of `ci_lookup_command(line, out_entry)`: `some e` when it returns true
with `*out_entry = e`, `none` when it returns false. -/
def ci_lookup_command (line : Option (List Nat)) (s : State) : Option ci_command_entry :=
  match line with
  | none => none
  | some l =>
    match scan l s with
    | some i => some (s.ci_commands.read i)
    | none => none

/-- Embedding of `ci_register_command(command, callback, user_data)`. -/
def ci_register_command (command : Option (List Nat)) (callback user_data : Nat)
    (s : State) : ci_status × State :=
  match command with
  | none => (CI_INVALID, s)
  | some name =>
    if callback = 0 then (CI_INVALID, s)
    else if strlen name ≥ CI_COMMAND_MAX_LEN then (CI_OVERFLOW, s)
    else
      match scan name s with
      | some i =>
        let old := s.ci_commands.read i
        let upd : ci_command_entry := { old with cb := callback, user_data := user_data }
        (CI_OK, { s with ci_commands := s.ci_commands.write i upd })
      | none =>
        if s.ci_command_count ≥ CI_MAX_COMMANDS then (CI_OVERFLOW, s)
        else
          let slot : ci_command_entry :=
            { command := (strncpy name CI_COMMAND_MAX_LEN).set (CI_COMMAND_MAX_LEN - 1) 0,
              cb := callback, user_data := user_data }
          (CI_OK, { s with
            ci_commands := s.ci_commands.write s.ci_command_count slot,
            ci_command_count := s.ci_command_count + 1 })

/-- Embedding of `ci_unregister_command(command)`. -/
def ci_unregister_command (command : Option (List Nat)) (s : State) : ci_status × State :=
  match command with
  | none => (CI_INVALID, s)
  | some name =>
    match scan name s with
    | some i =>
      let count := s.ci_command_count - 1
      (CI_OK, { s with
        ci_command_count := count,
        ci_commands :=
          if i ≠ count then s.ci_commands.write i (s.ci_commands.read count)
          else s.ci_commands })
    | none => (CI_INVALID, s)

/-- Embedding of `ci_request_stop_async_input()`. -/
def ci_request_stop_async_input (s : State) : State :=
  { s with ci_stop_requested := true }

/-- Embedding of `ci_async_is_running()`. -/
def ci_async_is_running (s : State) : Bool := s.ci_running

/-! ## Callbacks -/

/-- What a callback does, as far as the library can tell: a program over the API
functions that may be called from the worker thread. Each call hands its result to the
rest of the program. -/
inductive Prog where
  | done : Prog
  | register (command : Option (List Nat)) (callback user_data : Nat)
      (k : ci_status → Prog) : Prog
  | unregister (command : Option (List Nat)) (k : ci_status → Prog) : Prog
  | request_stop (k : Prog) : Prog
  | is_running (k : Bool → Prog) : Prog

/-- Execution of a callback body on the state. -/
def Prog.run : Prog → State → State
  | .done, s => s
  | .register c cb ud k, s =>
    (k (ci_register_command c cb ud s).1).run (ci_register_command c cb ud s).2
  | .unregister c k, s =>
    (k (ci_unregister_command c s).1).run (ci_unregister_command c s).2
  | .request_stop k, s => k.run (ci_request_stop_async_input s)
  | .is_running k, s => (k (ci_async_is_running s)).run s

/-- Whether the execution of a callback body from the given state calls
`ci_request_stop_async_input`. -/
def Prog.stops : Prog → State → Bool
  | .done, _ => false
  | .register c cb ud k, s =>
    (k (ci_register_command c cb ud s).1).stops (ci_register_command c cb ud s).2
  | .unregister c k, s =>
    (k (ci_unregister_command c s).1).stops (ci_unregister_command c s).2
  | .request_stop _, _ => true
  | .is_running k, s => (k (ci_async_is_running s)).stops s

/-- The behaviour of the function pointers: the body run by the callback at an address,
given its two arguments and the invocations made before (a callback may keep private
state). -/
abbrev Handlers := Nat → List Nat → Nat → List Call → Prog

/-- The state with one more invocation in the log. -/
def logged (s : State) (c : Call) : State :=
  { s with calls := s.calls ++ [c] }

/-- The call `cb(line, user_data)`: the invocation is logged, then the body runs. -/
def invoke (h : Handlers) (cb : Nat) (line : List Nat) (user_data : Nat) (s : State) : State :=
  (h cb line user_data s.calls).run (logged s ⟨cb, line, user_data⟩)

/-! ## The asynchronous engine -/

/-- The text printed for a line that does not fit the buffer. -/
def too_long_notice : List Nat := "Input too long, try again.\n".toList.map Char.toNat

/-- How an iteration of the worker loop ends: `break`, or on to the loop test. -/
inductive Ctl where
  | brk
  | cont
  deriving DecidableEq, Repr

/-- The dispatch of a line read with status `CI_OK`:
`if (ci_lookup_command(buffer, &entry) && entry.cb) entry.cb(buffer, entry.user_data);
else if (ci_cb) ci_cb(buffer, ci_cb_data);`. -/
def dispatch (h : Handlers) (s : State) : State :=
  match ci_lookup_command (some s.buffer) s with
  | some entry =>
    if entry.cb ≠ 0 then invoke h entry.cb s.buffer entry.user_data s
    else if s.ci_cb ≠ 0 then invoke h s.ci_cb s.buffer s.ci_cb_data s
    else s
  | none =>
    if s.ci_cb ≠ 0 then invoke h s.ci_cb s.buffer s.ci_cb_data s
    else s

/-- The callback that `dispatch` calls and the context it passes, `none` when it calls
nothing: the conditions of the `if` / `else if` of the dispatch. -/
def dispatch_target (s : State) : Option (Nat × Nat) :=
  match ci_lookup_command (some s.buffer) s with
  | some entry =>
    if entry.cb ≠ 0 then some (entry.cb, entry.user_data)
    else if s.ci_cb ≠ 0 then some (s.ci_cb, s.ci_cb_data)
    else none
  | none =>
    if s.ci_cb ≠ 0 then some (s.ci_cb, s.ci_cb_data)
    else none

/-- The state after the read of one line by the worker. -/
def after_read (s : State) (r : ReadResult) : State :=
  { s with stdin := r.stream, stdout := r.stdout, buffer := r.buffer }

/-- The read at the top of the body of the worker loop. -/
def worker_read (s : State) : ReadResult :=
  ci_read_line_internal s.stdin s.ci_prompt (some s.buffer) CI_ASYNC_BUFFER s.stdout

/-- One execution of the body of the `while` loop of `ci_async_thread`. -/
def worker_iter (h : Handlers) (s : State) : Ctl × State :=
  let r := worker_read s
  let s1 := after_read s r
  if r.status = CI_EOF then (Ctl.brk, s1)
  else if r.status = CI_OVERFLOW then
    (Ctl.cont, { s1 with stdout := s1.stdout ++ too_long_notice })
  else if r.status ≠ CI_OK then (Ctl.cont, s1)
  else
    let s2 := dispatch h s1
    if s2.ci_stop_requested then (Ctl.brk, s2) else (Ctl.cont, s2)

/-- The `while (ci_running && !ci_stop_requested)` loop of `ci_async_thread`, bounded by
a number of iterations; `none` when the bound is reached. -/
def worker_loop (h : Handlers) : Nat → State → Option State
  | 0, _ => none
  | fuel + 1, s =>
    if s.ci_running && !s.ci_stop_requested then
      match worker_iter h s with
      | (Ctl.brk, s1) => some s1
      | (Ctl.cont, s1) => worker_loop h fuel s1
    else some s

/-- The state at the loop test after `k` complete executions of the loop body, none of
which left the loop; `none` when the loop ends earlier. -/
def loop_head_after (h : Handlers) : Nat → State → Option State
  | 0, s => some s
  | k + 1, s =>
    if s.ci_running && !s.ci_stop_requested then
      match worker_iter h s with
      | (Ctl.brk, _) => none
      | (Ctl.cont, s1) => loop_head_after h k s1
    else none

/-- The end of `ci_async_thread`, after the loop: `ci_running = false;
ci_stop_requested = false;`. -/
def thread_exit (s : State) : State :=
  { s with ci_running := false, ci_stop_requested := false }

/-- Embedding of `ci_async_thread`: the loop, then the two assignments. -/
def ci_async_thread (h : Handlers) (fuel : Nat) (s : State) : Option State :=
  match worker_loop h fuel s with
  | some s1 => some (thread_exit s1)
  | none => none

/-- Embedding of `ci_start_async_input(prompt, callback, user_data)`; `rc` is the value
returned by `pthread_create`. The worker it creates is run by `ci_async_thread`. -/
def ci_start_async_input (prompt : Option (List Nat)) (callback user_data : Nat) (rc : Int)
    (s : State) : ci_status × State :=
  if callback = 0 then (CI_INVALID, s)
  else if s.ci_running then (CI_INVALID, s)
  else
    let s1 : State :=
      { s with ci_cb := callback, ci_cb_data := user_data, ci_prompt := prompt,
               ci_command_count := 0, ci_stop_requested := false, ci_running := true }
    if rc ≠ 0 then (CI_INVALID, { s1 with ci_running := false })
    else (CI_OK, s1)

/-- Embedding of `ci_stop_async_input()`. `join` is everything the worker thread does
between the assignment `ci_stop_requested = true` and the return of `pthread_join`. -/
def ci_stop_async_input (join : State → State) (s : State) : State :=
  if !s.ci_running then s
  else
    let s1 := join { s with ci_stop_requested := true }
    { s1 with ci_running := false, ci_cb := 0, ci_cb_data := 0, ci_prompt := none,
              ci_command_count := 0, ci_stop_requested := false }

/-- A step of a session: a call of one of the public functions, one execution of the
body of the worker loop, or the exit of the worker thread. -/
inductive Step where
  | register (command : Option (List Nat)) (callback user_data : Nat)
  | unregister (command : Option (List Nat))
  | start (prompt : Option (List Nat)) (callback user_data : Nat) (rc : Int)
  | stop (join : State → State)
  | request_stop
  | worker (h : Handlers)
  | worker_exit

/-- The state after a step. -/
def Step.apply : Step → State → State
  | .register c cb ud, s => (ci_register_command c cb ud s).2
  | .unregister c, s => (ci_unregister_command c s).2
  | .start p cb ud rc, s => (ci_start_async_input p cb ud rc s).2
  | .stop join, s => ci_stop_async_input join s
  | .request_stop, s => ci_request_stop_async_input s
  | .worker h, s => (worker_iter h s).2
  | .worker_exit, s => thread_exit s

/-- The state after a sequence of steps. -/
def run_steps : List Step → State → State
  | [], s => s
  | c :: cs, s => run_steps cs (c.apply s)

/-- Successive registrations: the statuses returned, in order, and the final state. -/
def register_all : List (List Nat × Nat × Nat) → State → List ci_status × State
  | [], s => ([], s)
  | (name, cb, ud) :: rest, s =>
    let r := ci_register_command (some name) cb ud s
    ((register_all rest r.2).1.cons r.1, (register_all rest r.2).2)

/-! ## Predicates on states -/

/-- The name is present: some live slot holds it. -/
def present (name : List Nat) (s : State) : Prop :=
  ∃ i, i < s.ci_command_count ∧ strcmp name (s.ci_commands.read i).command = 0

/-- The registry invariant: at most `CI_MAX_COMMANDS` live entries, no two with the same
name. -/
def registry_inv (s : State) : Prop :=
  s.ci_command_count ≤ CI_MAX_COMMANDS ∧
  ∀ i, i < s.ci_command_count → ∀ j, j < s.ci_command_count →
    strcmp (s.ci_commands.read i).command (s.ci_commands.read j).command = 0 → i = j

/-- The state keeps well-formed name buffers: at most `CI_MAX_COMMANDS` live entries, each
holding a terminated string in its `CI_COMMAND_MAX_LEN` bytes. -/
def well_formed (s : State) : Prop :=
  s.ci_command_count ≤ CI_MAX_COMMANDS ∧
  ∀ i, i < s.ci_command_count → strlen (s.ci_commands.read i).command < CI_COMMAND_MAX_LEN

/-- Every live entry has a callback. -/
def callbacks_set (s : State) : Prop :=
  ∀ i, i < s.ci_command_count → (s.ci_commands.read i).cb ≠ 0

/-- What holds of every session state: the registry invariant, well-formed name buffers,
a callback in every live entry, and a default callback while the engine runs. -/
def session_ok (s : State) : Prop :=
  registry_inv s ∧ well_formed s ∧ callbacks_set s ∧ (s.ci_running = true → s.ci_cb ≠ 0)

/-- The session is cleared: flags down, no default callback, context or prompt, empty
registry. -/
def session_cleared (s : State) : Prop :=
  s.ci_running = false ∧ s.ci_stop_requested = false ∧ s.ci_cb = 0 ∧ s.ci_cb_data = 0 ∧
    s.ci_prompt = none ∧ s.ci_command_count = 0

/-- The standard output after the optional prompt has been written. -/
def after_prompt (prompt : Option (List Nat)) (out : List Nat) : List Nat :=
  match prompt with
  | some p => out ++ cstr p
  | none => out

/-! ## The numeric helpers -/

/-- The largest `long` (LP64: 64 bits). -/
def LONG_MAX : Int := 2 ^ 63 - 1

/-- The smallest `long`. -/
def LONG_MIN : Int := -(2 ^ 63)

/-- The largest `int` (32 bits). -/
def INT_MAX : Int := 2 ^ 31 - 1

/-- The smallest `int`. -/
def INT_MIN : Int := -(2 ^ 31)

/-- Model of `isspace` in the C locale: space, and the characters `\t \n \v \f \r`. -/
def isspace (c : Nat) : Bool := c == 32 || (decide (9 ≤ c) && decide (c ≤ 13))

/-- Model of `isdigit`: the characters `0` to `9`. -/
def isdigit (c : Nat) : Bool := decide (48 ≤ c) && decide (c ≤ 57)

/-- The character `-`. -/
def MINUS : Nat := 45

/-- The character `+`. -/
def PLUS : Nat := 43

/-- The number written by a run of decimal digits, most significant digit first. -/
def digits_value (ds : List Nat) : Nat :=
  ds.foldl (fun acc c => acc * 10 + (c - 48)) 0

/-- What `strtol(nptr, &endptr, 10)` yields: the value returned, the offset of `endptr`
from `nptr`, and whether `errno` is set to `ERANGE`. -/
structure strtol_result where
  value : Int
  endpos : Nat
  erange : Bool
  deriving DecidableEq, Repr

/-- The last stage of `strtol`: the longest run of digits of `s` is read; `neg` tells
whether a minus sign came before it and `pre` counts the characters before it. Without a
digit nothing is converted (`endptr == nptr`, value 0). A value outside the range of
`long` is clamped and reported by `ERANGE`; `endptr` is then still behind the last
digit. -/
def strtol_digits (neg : Bool) (pre : Nat) (s : List Nat) : strtol_result :=
  if s.takeWhile isdigit = [] then ⟨0, 0, false⟩
  else if (if neg then -(digits_value (s.takeWhile isdigit) : Int)
      else digits_value (s.takeWhile isdigit)) > LONG_MAX then
    ⟨LONG_MAX, pre + (s.takeWhile isdigit).length, true⟩
  else if (if neg then -(digits_value (s.takeWhile isdigit) : Int)
      else digits_value (s.takeWhile isdigit)) < LONG_MIN then
    ⟨LONG_MIN, pre + (s.takeWhile isdigit).length, true⟩
  else
    ⟨if neg then -(digits_value (s.takeWhile isdigit) : Int)
      else digits_value (s.takeWhile isdigit),
      pre + (s.takeWhile isdigit).length, false⟩

/-- The middle stage of `strtol`: an optional sign, `-` or `+`, then the digits. -/
def strtol_sign (pre : Nat) : List Nat → strtol_result
  | [] => strtol_digits false pre []
  | c :: s =>
    if c = MINUS then strtol_digits true (pre + 1) s
    else if c = PLUS then strtol_digits false (pre + 1) s
    else strtol_digits false pre (c :: s)

/-- Model of `strtol(nptr, &endptr, 10)`: leading white space is skipped, then an optional
sign and the longest run of digits are read. -/
def strtol (nptr : List Nat) : strtol_result :=
  strtol_sign ((cstr nptr).takeWhile isspace).length ((cstr nptr).dropWhile isspace)

/-- The value `strtol` gives to a sign and a run of digits. -/
def signed_value (sg ds : List Nat) : Int :=
  if sg = [MINUS] then -(digits_value ds : Int) else digits_value ds

/-- Embedding of `ci_parse_long(input, out_value)`. `out_value` is `none` for a `NULL`
pointer, else the current content of `*out_value`; the result holds the status and the
content of `*out_value` after the call. -/
def ci_parse_long (input : Option (List Nat)) (out_value : Option Int) :
    ci_status × Option Int :=
  match input, out_value with
  | none, _ => (CI_INVALID, out_value)
  | some _, none => (CI_INVALID, none)
  | some inp, some old =>
    let r := strtol inp
    if r.erange = true ∨ r.value > LONG_MAX ∨ r.value < LONG_MIN then (CI_OVERFLOW, some old)
    else if r.endpos = 0 ∨ (cstr inp).getD r.endpos 0 ≠ 0 then (CI_INVALID, some old)
    else (CI_OK, some r.value)

/-- Embedding of `ci_prompt_line(prompt, buffer, size)`; `stdin` and `out` are the
standard input and what has been written to the standard output. -/
def ci_prompt_line (prompt : Option (List Nat)) (buffer : Option (List Nat)) (size : Nat)
    (stdin : FILE) (out : List Nat) : ReadResult :=
  ci_read_line_internal stdin prompt buffer size out

/-- The text printed for a line that is not a number. -/
def invalid_notice : List Nat := "Invalid number, try again.\n".toList.map Char.toNat

/-- Result of the numeric reads: status, content of `*out_value` after the call (`none`
for a `NULL` pointer), standard input and standard output after the call. -/
structure NumResult where
  status : ci_status
  value : Option Int
  stdin : FILE
  stdout : List Nat
  deriving DecidableEq, Repr

/-- The `while (1)` loop of `ci_prompt_numeric`, bounded by a number of iterations (`none`
when the bound is reached); `buf` is the content of the local `char buf[128]`. -/
def prompt_numeric_loop (prompt : Option (List Nat)) :
    Nat → List Nat → Option Int → FILE → List Nat → Option NumResult
  | 0, _, _, _, _ => none
  | fuel + 1, buf, out_value, stdin, out =>
    let r := ci_prompt_line prompt (some buf) 128 stdin out
    if r.status = CI_EOF then some ⟨CI_EOF, out_value, r.stream, r.stdout⟩
    else if r.status = CI_OVERFLOW then
      prompt_numeric_loop prompt fuel r.buffer out_value r.stream (r.stdout ++ too_long_notice)
    else if r.status ≠ CI_OK then some ⟨r.status, out_value, r.stream, r.stdout⟩
    else
      let p := ci_parse_long (some r.buffer) out_value
      if p.1 = CI_INVALID then
        prompt_numeric_loop prompt fuel r.buffer p.2 r.stream (r.stdout ++ invalid_notice)
      else some ⟨p.1, p.2, r.stream, r.stdout⟩

/-- Embedding of `ci_prompt_numeric(prompt, out_value)`, the local buffer starting
empty. -/
def ci_prompt_numeric (prompt : Option (List Nat)) (fuel : Nat) (out_value : Option Int)
    (stdin : FILE) (out : List Nat) : Option NumResult :=
  prompt_numeric_loop prompt fuel [] out_value stdin out

/-- Embedding of `ci_read_int(prompt, out_value)`. `out_value` is the current content of
`*out_value`, `val` the indeterminate initial content of the local `long val`. -/
def ci_read_int (prompt : Option (List Nat)) (fuel : Nat) (val : Int) (out_value : Int)
    (stdin : FILE) (out : List Nat) : Option NumResult :=
  match ci_prompt_numeric prompt fuel (some val) stdin out with
  | none => none
  | some r =>
    if r.status ≠ CI_OK then some ⟨r.status, some out_value, r.stdin, r.stdout⟩
    else if r.value.getD val > INT_MAX ∨ r.value.getD val < INT_MIN then
      some ⟨CI_OVERFLOW, some out_value, r.stdin, r.stdout⟩
    else some ⟨CI_OK, some (r.value.getD val), r.stdin, r.stdout⟩

/-- Embedding of `ci_read_long(prompt, out_value)`. -/
def ci_read_long (prompt : Option (List Nat)) (fuel : Nat) (out_value : Option Int)
    (stdin : FILE) (out : List Nat) : Option NumResult :=
  ci_prompt_numeric prompt fuel out_value stdin out

/-- The decimal digits of a number, most significant first, put in front of `acc`; the
first argument bounds the number of digits. -/
def nat_text_aux : Nat → Nat → List Nat → List Nat
  | 0, _, acc => acc
  | fuel + 1, n, acc =>
    if n < 10 then (48 + n) :: acc else nat_text_aux fuel (n / 10) ((48 + n % 10) :: acc)

/-- The decimal text of a natural number. -/
def nat_text (n : Nat) : List Nat := nat_text_aux (n + 1) n []

/-- The decimal text of an integer: a minus sign for a negative number, then the digits
of its absolute value. -/
def int_text (v : Int) : List Nat :=
  if v < 0 then MINUS :: nat_text v.natAbs else nat_text v.natAbs

/-- The bytes of a text given as a string literal. -/
def bytes (s : String) : List Nat := s.toList.map Char.toNat

/-- No byte of the sequence is NUL. -/
def nul_free (l : List Nat) : Prop := ∀ c ∈ l, c ≠ 0

/-- No byte of the sequence is a newline. -/
def newline_free (l : List Nat) : Prop := ∀ c ∈ l, c ≠ NL

/-- The status `ci_parse_long` gives to a text (with a non-null `out_value`). -/
def parse_status (l : List Nat) : ci_status := (ci_parse_long (some l) (some 0)).1

/-- A line the numeric read skips: one that fits the 128-byte buffer and is refused by
`ci_parse_long` with `CI_INVALID`, or one of 127 or more characters (the first 127 of
them without NUL). -/
def skipped_line (l : List Nat) : Prop :=
  newline_free l ∧
    ((l.length ≤ 126 ∧ parse_status l = CI_INVALID) ∨
      (127 ≤ l.length ∧ nul_free (l.take 127)))

/-- The text starts, after optional white space, with an optional sign and a maximal run
of decimal digits whose value is outside the range of `long`; anything may follow. -/
def number_out_of_range (t : List Nat) : Prop :=
  ∃ ws sg ds rest, cstr t = ws ++ sg ++ ds ++ rest ∧ (∀ c ∈ ws, isspace c = true) ∧
    (sg = [] ∨ sg = [PLUS] ∨ sg = [MINUS]) ∧ (∀ c ∈ ds, isdigit c = true) ∧ ds ≠ [] ∧
    (∀ c, rest.head? = some c → isdigit c = false) ∧
    (signed_value sg ds > LONG_MAX ∨ signed_value sg ds < LONG_MIN)

/-- The input made of the given lines, each followed by a newline. -/
def lines_text : List (List Nat) → List Nat
  | [] => []
  | l :: ls => l ++ NL :: lines_text ls

/-- An input line as the worker can take it: no newline inside, and when it has 255
characters or more, no NUL among the first 255. -/
def worker_line (l : List Nat) : Prop :=
  newline_free l ∧ (255 ≤ l.length → nul_free (l.take 255))

/-- Whether a line fits the buffer of the worker, newline included: such a line is read
with `CI_OK`, a longer one with `CI_OVERFLOW`. -/
def fits_worker (l : List Nat) : Bool := decide (l.length ≤ 254)

/-- No callback body calls `ci_request_stop_async_input`. -/
def never_stops (h : Handlers) : Prop :=
  ∀ (cb : Nat) (line : List Nat) (ud : Nat) (calls : List Call) (s : State),
    (h cb line ud calls).stops s = false

/-- The line arguments of the logged invocations, as C strings, in order. -/
def line_args (calls : List Call) : List (List Nat) := calls.map (fun c => cstr c.line)

/-! ## The mutex `ci_cmd_mutex`: what each function does, in program order -/

/-- The steps of a thread that matter to the locking discipline: locking and unlocking
`ci_cmd_mutex`, a read or a write of the registry (`ci_commands`, `ci_command_count`),
the entry into a callback and the return from it, and the blocking read of a line. -/
inductive Ev where
  | lock
  | unlock
  | reg_read
  | reg_write
  | call_begin
  | call_end
  | read_line
  deriving DecidableEq, Repr

/-- Steps of the scan loop shared by lookup, register and unregister, along `scan_from`:
every loop test reads `ci_command_count`, every `strcmp` reads an entry; the loop is left
at the first match, or by the loop test behind the last live slot. -/
def scan_events (name : List Nat) (t : Table) : Nat → Nat → List Ev
  | 0, _ => [Ev.reg_read]
  | n + 1, i =>
    Ev.reg_read :: Ev.reg_read ::
      (if strcmp name (t.read i).command = 0 then [] else scan_events name t n (i + 1))

/-- Steps of `ci_register_command`: nothing before the two early returns; then the lock,
the scan, and either the two writes of the replacement, or the test of the count and,
when there is room, the increment of the count and the four writes of the new slot;
the unlock before each return. -/
def register_events (command : Option (List Nat)) (callback : Nat) (s : State) : List Ev :=
  match command with
  | none => []
  | some name =>
    if callback = 0 then []
    else if strlen name ≥ CI_COMMAND_MAX_LEN then []
    else
      Ev.lock :: (scan_events name s.ci_commands s.ci_command_count 0 ++
        match scan name s with
        | some _ => [Ev.reg_write, Ev.reg_write, Ev.unlock]
        | none =>
          if s.ci_command_count ≥ CI_MAX_COMMANDS then [Ev.reg_read, Ev.unlock]
          else
            [Ev.reg_read, Ev.reg_read, Ev.reg_write, Ev.reg_write, Ev.reg_write, Ev.reg_write,
              Ev.reg_write, Ev.unlock])

/-- Steps of `ci_unregister_command`: the lock, the scan, on a match the decrement of the
count, the test `i != ci_command_count` and, when it holds, the copy of the last entry
(the count and that entry are read, slot `i` is written);
the unlock before each return. -/
def unregister_events (command : Option (List Nat)) (s : State) : List Ev :=
  match command with
  | none => []
  | some name =>
    Ev.lock :: (scan_events name s.ci_commands s.ci_command_count 0 ++
      match scan name s with
      | some i =>
        [Ev.reg_read, Ev.reg_write, Ev.reg_read] ++
          (if i ≠ s.ci_command_count - 1 then [Ev.reg_read, Ev.reg_read, Ev.reg_write]
            else []) ++
          [Ev.unlock]
      | none => [Ev.unlock])

/-- Steps of `ci_lookup_command`: the lock, the scan, the copy of the entry on a match,
the unlock. -/
def lookup_events (line : Option (List Nat)) (s : State) : List Ev :=
  match line with
  | none => []
  | some l =>
    Ev.lock :: (scan_events l s.ci_commands s.ci_command_count 0 ++
      match scan l s with
      | some _ => [Ev.reg_read, Ev.unlock]
      | none => [Ev.unlock])

/-- Steps of a callback body, along `Prog.run`. -/
def Prog.events : Prog → State → List Ev
  | .done, _ => []
  | .register c cb ud k, s =>
    register_events c cb s ++
      (k (ci_register_command c cb ud s).1).events (ci_register_command c cb ud s).2
  | .unregister c k, s =>
    unregister_events c s ++
      (k (ci_unregister_command c s).1).events (ci_unregister_command c s).2
  | .request_stop k, s => k.events (ci_request_stop_async_input s)
  | .is_running k, s => (k (ci_async_is_running s)).events s

/-- Steps of the dispatch of a line, along `dispatch`: the lookup, then the call of the
chosen callback, if any, with the steps of its body. -/
def dispatch_events (h : Handlers) (s : State) : List Ev :=
  lookup_events (some s.buffer) s ++
    match dispatch_target s with
    | some (cb, ud) =>
      Ev.call_begin ::
        ((h cb s.buffer ud s.calls).events (logged s ⟨cb, s.buffer, ud⟩) ++ [Ev.call_end])
    | none => []

/-- Steps of one execution of the body of the worker loop, along `worker_iter`: the
blocking read, then the dispatch when the status is `CI_OK`. -/
def worker_iter_events (h : Handlers) (s : State) : List Ev :=
  Ev.read_line ::
    (if (worker_read s).status = CI_OK then dispatch_events h (after_read s (worker_read s))
      else [])

/-- Steps of `ci_start_async_input` on the registry: past the two guards, the assignment
`ci_command_count = 0`. The function does not touch the mutex. -/
def start_events (callback : Nat) (s : State) : List Ev :=
  if callback = 0 then []
  else if s.ci_running then []
  else [Ev.reg_write]

/-- Steps of `ci_stop_async_input` on the registry: past the guard (and the join), the
assignment `ci_command_count = 0`. The function does not touch the mutex. -/
def stop_events (s : State) : List Ev :=
  if !s.ci_running then [] else [Ev.reg_write]

/-- The check of the locking discipline along the steps of one thread, from the state
`held` of the mutex: a lock needs the mutex free, an unlock and every registry access
need it held, a callback is entered and a line is read only with the mutex free. The
result is whether the mutex is held at the end, `none` when a step breaks the rule. -/
def held_after : Bool → List Ev → Option Bool
  | held, [] => some held
  | held, Ev.lock :: es => if held then none else held_after true es
  | held, Ev.unlock :: es => if held then held_after false es else none
  | held, Ev.reg_read :: es => if held then held_after true es else none
  | held, Ev.reg_write :: es => if held then held_after true es else none
  | held, Ev.call_begin :: es => if held then none else held_after false es
  | held, Ev.call_end :: es => held_after held es
  | held, Ev.read_line :: es => if held then none else held_after false es

/-- The steps keep the locking discipline: started with the mutex free, they obey the
rule and leave the mutex free. -/
def disciplined (es : List Ev) : Prop := held_after false es = some false

/-! ## Concrete names and states used to exercise the theorems -/

/-- The name `"ping"`. -/
def ping : List Nat := [112, 105, 110, 103]

/-- The name `"other"`. -/
def other_line : List Nat := [111, 116, 104, 101, 114]

/-- The name `"q"`. -/
def quit : List Nat := [113]

/-- A registry that holds `"ping"` (callback 7, context 70). -/
def demo_one : State := (ci_register_command (some ping) 7 70 (init_state [])).2

/-- A registry that holds `"ping"` and then `"q"` (callback 9, context 90). -/
def demo_two : State := (ci_register_command (some quit) 9 90 demo_one).2

/-- Thirty-two registrations with the pairwise distinct one-byte names 1 .. 32. -/
def demo_regs : List (List Nat × Nat × Nat) :=
  (List.range 32).map (fun i => ([i + 1], 5, i))

/-- A full registry: slot `j` holds the one-byte name `j + 1`. -/
def demo_full : State :=
  { init_state [] with
    ci_commands := fun j => ⟨[j.val + 1], 5, j.val⟩, ci_command_count := 32 }

/-- The session of the test programs: started with an empty prompt and the default
callback 1 (`default_cb`, `NULL` context) on the given input. -/
def test_session (input : List Nat) : State :=
  (ci_start_async_input (some []) 1 0 0 (init_state input)).2

/-- The callbacks of tests/test_async.c: 1 is `default_cb`, 7 is `cmd_cb`, 9 is
`quit_cb`, which calls `ci_request_stop_async_input`. -/
def test_handlers : Handlers :=
  fun cb _ _ _ => if cb = 9 then Prog.request_stop Prog.done else Prog.done

/-- The callbacks invoked by a complete run of the worker, in order. -/
def invoked (r : Option State) : Option (List Nat) :=
  r.map (fun s => s.calls.map (fun c => c.cb))

/-- Three input lines: `"ping"`, `"q"`, `"other"`. -/
def demo_input : List Nat := ping ++ [NL] ++ quit ++ [NL] ++ other_line ++ [NL]

/-- A running session on the given input: started with an empty prompt and the default
callback 1 (context 10), then `"ping"` and `"q"` registered. -/
def demo_session (input : List Nat) : State :=
  (ci_register_command (some quit) 9 90
    (ci_register_command (some ping) 7 70
      (ci_start_async_input (some []) 1 10 0 (init_state input)).2).2).2

/-- An input whose first line has 257 times `x`; the second line is `ping`. -/
def demo_long_input : List Nat :=
  List.replicate 255 120 ++ [120, 120] ++ NL :: (ping ++ NL :: [])

/-- Callbacks for the re-registration scenario: the callback 7 registers `"ping"` again
with the callback 8 and the context 80; the others do nothing. -/
def swap_handlers : Handlers :=
  fun cb _ _ _ => if cb = 7 then Prog.register (some ping) 8 80 (fun _ => Prog.done)
    else Prog.done

/-- Callbacks for the unregistration scenario: the callback 7 unregisters the name it is
called with; the others do nothing. -/
def drop_handlers : Handlers :=
  fun cb line _ _ => if cb = 7 then Prog.unregister (some line) (fun _ => Prog.done)
    else Prog.done

/-- The input with the line `ping` twice. -/
def ping_twice : List Nat := ping ++ NL :: (ping ++ NL :: [])

/-! ## Lemmas on the C library models -/

theorem strcmp_eq_zero_iff (a b : List Nat) : strcmp a b = 0 ↔ cstr a = cstr b := by
  induction a generalizing b with
  | nil =>
    cases b with
    | nil => simp [strcmp, cstr]
    | cons y ys =>
      by_cases hy : y = 0
      · simp [strcmp, cstr, hy]
      · simp [strcmp, cstr, hy]
  | cons x xs ih =>
    cases b with
    | nil =>
      by_cases hx : x = 0
      · simp [strcmp, cstr, hx]
      · simp [strcmp, cstr, hx]
    | cons y ys =>
      by_cases hxy : x = y
      · subst hxy
        by_cases hx : x = 0
        · simp [strcmp, cstr, hx]
        · have := ih ys
          simp only [cstr] at this
          simp [strcmp, cstr, hx, this]
      · have hne : (x : Int) - (y : Int) ≠ 0 := by omega
        by_cases hx : x = 0
        · have hy : y ≠ 0 := fun h => hxy (by omega)
          simp [strcmp, cstr, hx, hy, hxy, hne]
          omega
        · by_cases hy : y = 0
          · simp [strcmp, cstr, hx, hy, hxy, hne]
          · simp [strcmp, cstr, hx, hy, hxy, hne]

theorem strcmp_self (a : List Nat) : strcmp a a = 0 :=
  (strcmp_eq_zero_iff a a).2 rfl

theorem strcmp_comm_zero {a b : List Nat} (h : strcmp a b = 0) : strcmp b a = 0 :=
  (strcmp_eq_zero_iff b a).2 ((strcmp_eq_zero_iff a b).1 h).symm

theorem strcmp_trans_zero {a b c : List Nat} (h1 : strcmp a b = 0) (h2 : strcmp b c = 0) :
    strcmp a c = 0 :=
  (strcmp_eq_zero_iff a c).2
    (((strcmp_eq_zero_iff a b).1 h1).trans ((strcmp_eq_zero_iff b c).1 h2))

theorem strlen_eq_length_cstr (a : List Nat) : strlen a = (cstr a).length := by
  induction a with
  | nil => simp [strlen, cstr]
  | cons x xs ih =>
    by_cases hx : x = 0
    · simp [strlen, cstr, hx]
    · simp only [cstr] at ih
      simp [strlen, cstr, hx, ih]

theorem strncpy_length (a : List Nat) (n : Nat) : (strncpy a n).length = n := by
  induction n generalizing a with
  | zero => cases a <;> simp [strncpy]
  | succ n ih =>
    cases a with
    | nil => simp [strncpy, ih]
    | cons x xs =>
      by_cases hx : x = 0
      · simp [strncpy, hx, ih]
      · simp [strncpy, hx, ih]

theorem strncpy_nil (n : Nat) : strncpy [] n = List.replicate n 0 := by
  induction n with
  | zero => simp [strncpy]
  | succ n ih => simp [strncpy, ih, List.replicate_succ]

theorem cstr_replicate_zero (n : Nat) : cstr (List.replicate n 0) = [] := by
  cases n <;> simp [cstr, List.replicate_succ]

theorem cstr_strncpy (a : List Nat) (n : Nat) (h : strlen a < n) :
    cstr (strncpy a n) = cstr a := by
  induction a generalizing n with
  | nil =>
    rw [strncpy_nil, cstr_replicate_zero]
    simp [cstr]
  | cons x xs ih =>
    cases n with
    | zero => omega
    | succ n =>
      by_cases hx : x = 0
      · simp [strncpy, cstr, hx]
      · have hlen : strlen xs < n := by
          simp [strlen, hx] at h
          exact h
        have := ih n hlen
        simp only [cstr] at this
        simp [strncpy, cstr, hx, this]

theorem strncpy_set_last (a : List Nat) (n : Nat) (h : strlen a < n) :
    (strncpy a n).set (n - 1) 0 = strncpy a n := by
  induction a generalizing n with
  | nil =>
    rw [strncpy_nil]
    apply List.ext_getElem
    · simp
    · intro i h1 h2
      simp [List.getElem_set]
  | cons x xs ih =>
    cases n with
    | zero => omega
    | succ n =>
      by_cases hx : x = 0
      · simp only [strncpy, hx, if_true, strncpy_nil]
        rw [← List.replicate_succ]
        apply List.ext_getElem
        · simp
        · intro i h1 h2
          simp [List.getElem_set]
      · have hlen : strlen xs < n := by
          simp [strlen, hx] at h
          exact h
        have hn : n + 1 - 1 = (n - 1) + 1 := by omega
        simp only [strncpy, hx, if_false]
        rw [hn, List.set_cons_succ, ih n hlen]

/-- The name stored by a registration is the name given, when it fits. -/
theorem stored_name (name : List Nat) (h : strlen name < CI_COMMAND_MAX_LEN) :
    cstr ((strncpy name CI_COMMAND_MAX_LEN).set (CI_COMMAND_MAX_LEN - 1) 0) = cstr name := by
  rw [strncpy_set_last name _ h, cstr_strncpy name _ h]

/-! ## Lemmas on the table and the scan -/

theorem read_write_same (t : Table) (i : Nat) (e : ci_command_entry)
    (h : i < CI_MAX_COMMANDS) : (t.write i e).read i = e := by
  simp [Table.read, Table.write, h]

theorem read_write_ne (t : Table) (i j : Nat) (e : ci_command_entry) (h : j ≠ i) :
    (t.write i e).read j = t.read j := by
  unfold Table.read Table.write
  by_cases hj : j < CI_MAX_COMMANDS
  · simp [hj, h]
  · simp [hj]

theorem scan_from_some {name : List Nat} {t : Table} {n i k : Nat}
    (h : scan_from name t n i = some k) :
    i ≤ k ∧ k < i + n ∧ strcmp name (t.read k).command = 0 ∧
      ∀ j, i ≤ j → j < k → strcmp name (t.read j).command ≠ 0 := by
  induction n generalizing i with
  | zero => simp [scan_from] at h
  | succ n ih =>
    unfold scan_from at h
    by_cases hm : strcmp name (t.read i).command = 0
    · rw [if_pos hm] at h
      cases h
      exact ⟨le_refl _, by omega, hm, fun j h1 h2 => by omega⟩
    · rw [if_neg hm] at h
      obtain ⟨h1, h2, h3, h4⟩ := ih h
      refine ⟨by omega, by omega, h3, fun j hj1 hj2 => ?_⟩
      by_cases hji : j = i
      · subst hji; exact hm
      · exact h4 j (by omega) hj2

theorem scan_from_none {name : List Nat} {t : Table} {n i : Nat} :
    scan_from name t n i = none ↔
      ∀ j, i ≤ j → j < i + n → strcmp name (t.read j).command ≠ 0 := by
  induction n generalizing i with
  | zero =>
    simp only [scan_from, true_iff]
    intro j h1 h2
    omega
  | succ n ih =>
    unfold scan_from
    by_cases hm : strcmp name (t.read i).command = 0
    · rw [if_pos hm]
      constructor
      · intro h
        cases h
      · intro h
        exact absurd hm (h i (le_refl _) (by omega))
    · rw [if_neg hm, ih]
      constructor
      · intro h j h1 h2
        by_cases hji : j = i
        · subst hji; exact hm
        · exact h j (by omega) (by omega)
      · intro h j h1 h2
        exact h j (by omega) (by omega)

theorem scan_from_first {name : List Nat} {t : Table} {n i k : Nat}
    (h1 : i ≤ k) (h2 : k < i + n) (h3 : strcmp name (t.read k).command = 0)
    (h4 : ∀ j, i ≤ j → j < k → strcmp name (t.read j).command ≠ 0) :
    scan_from name t n i = some k := by
  cases hs : scan_from name t n i with
  | none =>
    exact absurd h3 (scan_from_none.1 hs k h1 h2)
  | some k2 =>
    obtain ⟨a1, a2, a3, a4⟩ := scan_from_some hs
    have : k2 = k := by
      rcases Nat.lt_trichotomy k2 k with hlt | heq | hgt
      · exact absurd a3 (h4 k2 a1 hlt)
      · exact heq
      · exact absurd h3 (a4 k h1 hgt)
    rw [this]

theorem scan_from_congr {name : List Nat} {t u : Table} {n i : Nat}
    (h : ∀ j, i ≤ j → j < i + n →
      (strcmp name (t.read j).command = 0 ↔ strcmp name (u.read j).command = 0)) :
    scan_from name t n i = scan_from name u n i := by
  induction n generalizing i with
  | zero => simp [scan_from]
  | succ n ih =>
    unfold scan_from
    have hi := h i (le_refl _) (by omega)
    have hrest := ih (i := i + 1) (fun j h1 h2 => h j (by omega) (by omega))
    by_cases hm : strcmp name (t.read i).command = 0
    · rw [if_pos hm, if_pos (hi.1 hm)]
    · rw [if_neg hm, if_neg (fun hu => hm (hi.2 hu)), hrest]

theorem scan_some {name : List Nat} {s : State} {k : Nat} (h : scan name s = some k) :
    k < s.ci_command_count ∧ strcmp name (s.ci_commands.read k).command = 0 ∧
      ∀ j, j < k → strcmp name (s.ci_commands.read j).command ≠ 0 := by
  obtain ⟨_, h2, h3, h4⟩ := scan_from_some h
  exact ⟨by omega, h3, fun j hj => h4 j (Nat.zero_le _) hj⟩

theorem scan_none_iff {name : List Nat} {s : State} :
    scan name s = none ↔ ¬ present name s := by
  unfold scan present
  rw [scan_from_none]
  constructor
  · rintro h ⟨i, hi, hm⟩
    exact h i (Nat.zero_le _) (by omega) hm
  · intro h j _ hj hm
    exact h ⟨j, by omega, hm⟩

theorem present_iff_scan {name : List Nat} {s : State} :
    present name s ↔ ∃ k, scan name s = some k := by
  constructor
  · intro hp
    cases hs : scan name s with
    | none => exact absurd hp (scan_none_iff.1 hs)
    | some k => exact ⟨k, rfl⟩
  · rintro ⟨k, hk⟩
    obtain ⟨h1, h2, _⟩ := scan_some hk
    exact ⟨k, h1, h2⟩

/-- With distinct names in the table, the scan finds the one slot that matches. -/
theorem scan_eq_of_match {name : List Nat} {s : State} {k : Nat} (hinv : registry_inv s)
    (hk : k < s.ci_command_count) (hm : strcmp name (s.ci_commands.read k).command = 0) :
    scan name s = some k := by
  apply scan_from_first (Nat.zero_le _) (by omega) hm
  intro j _ hjk hj
  have : strcmp (s.ci_commands.read j).command (s.ci_commands.read k).command = 0 :=
    strcmp_trans_zero (strcmp_comm_zero hj) hm
  have := hinv.2 j (by omega) k hk this
  omega

theorem strlen_of_strcmp {a b : List Nat} (h : strcmp a b = 0) : strlen a = strlen b := by
  rw [strlen_eq_length_cstr, strlen_eq_length_cstr, (strcmp_eq_zero_iff a b).1 h]

theorem present_strlen {name : List Nat} {s : State} (hwf : well_formed s)
    (hp : present name s) : strlen name < CI_COMMAND_MAX_LEN := by
  obtain ⟨i, hi, hm⟩ := hp
  rw [strlen_of_strcmp hm]
  exact hwf.2 i hi

/-! ## Lemmas on register and unregister -/

theorem register_found_eq {s : State} {name : List Nat} {cb i : Nat} (ud : Nat) (hcb : cb ≠ 0)
    (hlen : strlen name < CI_COMMAND_MAX_LEN) (hs : scan name s = some i) :
    ci_register_command (some name) cb ud s =
      (CI_OK, { s with
        ci_commands := s.ci_commands.write i ⟨(s.ci_commands.read i).command, cb, ud⟩ }) := by
  have hl : ¬ strlen name ≥ CI_COMMAND_MAX_LEN := by omega
  simp only [ci_register_command, hs, if_neg hcb, if_neg hl]

theorem register_append_eq {s : State} {name : List Nat} {cb : Nat} (ud : Nat) (hcb : cb ≠ 0)
    (hlen : strlen name < CI_COMMAND_MAX_LEN) (hs : scan name s = none)
    (hcount : s.ci_command_count < CI_MAX_COMMANDS) :
    ci_register_command (some name) cb ud s =
      (CI_OK, { s with
        ci_commands := s.ci_commands.write s.ci_command_count
            ⟨(strncpy name CI_COMMAND_MAX_LEN).set (CI_COMMAND_MAX_LEN - 1) 0, cb, ud⟩,
        ci_command_count := s.ci_command_count + 1 }) := by
  have hl : ¬ strlen name ≥ CI_COMMAND_MAX_LEN := by omega
  have hc : ¬ s.ci_command_count ≥ CI_MAX_COMMANDS := by omega
  simp only [ci_register_command, hs, if_neg hcb, if_neg hl, if_neg hc]

theorem register_full_eq {s : State} {name : List Nat} {cb : Nat} (ud : Nat) (hcb : cb ≠ 0)
    (hlen : strlen name < CI_COMMAND_MAX_LEN) (hs : scan name s = none)
    (hcount : s.ci_command_count ≥ CI_MAX_COMMANDS) :
    ci_register_command (some name) cb ud s = (CI_OVERFLOW, s) := by
  have hl : ¬ strlen name ≥ CI_COMMAND_MAX_LEN := by omega
  simp only [ci_register_command, hs, if_neg hcb, if_neg hl, if_pos hcount]

theorem unregister_found_eq {s : State} {name : List Nat} {i : Nat}
    (hs : scan name s = some i) :
    ci_unregister_command (some name) s =
      (CI_OK, { s with
        ci_command_count := s.ci_command_count - 1,
        ci_commands :=
          if i ≠ s.ci_command_count - 1 then
            s.ci_commands.write i (s.ci_commands.read (s.ci_command_count - 1))
          else s.ci_commands }) := by
  simp only [ci_unregister_command, hs]

theorem unregister_missing_eq {s : State} {name : List Nat} (hs : scan name s = none) :
    ci_unregister_command (some name) s = (CI_INVALID, s) := by
  simp only [ci_unregister_command, hs]

theorem scan_from_succ_last {name : List Nat} {t : Table} {n i : Nat}
    (h : strcmp name (t.read (i + n)).command ≠ 0) :
    scan_from name t (n + 1) i = scan_from name t n i := by
  induction n generalizing i with
  | zero =>
    simp only [scan_from]
    rw [if_neg (by simpa using h)]
  | succ n ih =>
    rw [scan_from, scan_from.eq_def name t (n + 1) i]
    by_cases hm : strcmp name (t.read i).command = 0
    · simp only [if_pos hm]
    · simp only [if_neg hm]
      apply ih
      have : i + 1 + n = i + (n + 1) := by omega
      rw [this]
      exact h

/-- Overwriting a slot by an entry with the same name buffer changes no scan. -/
theorem scan_from_write_same_command (m : List Nat) (t : Table) (i : Nat)
    (e : ci_command_entry) (he : e.command = (t.read i).command) (n k : Nat) :
    scan_from m (t.write i e) n k = scan_from m t n k := by
  apply scan_from_congr
  intro j _ _
  by_cases hj : j = i
  · subst hj
    by_cases hlt : j < CI_MAX_COMMANDS
    · rw [read_write_same t j e hlt, he]
    · simp [Table.read, hlt]
  · rw [read_write_ne t i j e hj]

/-- The table after a new registration, read below the new slot. -/
theorem read_below_new (t : Table) (c j : Nat) (e : ci_command_entry) (hj : j < c) :
    (t.write c e).read j = t.read j :=
  read_write_ne t c j e (by omega)

theorem present_after_new {s : State} {name m : List Nat} {cb ud : Nat}
    (hlen : strlen name < CI_COMMAND_MAX_LEN)
    (hcount : s.ci_command_count < CI_MAX_COMMANDS) :
    present m { s with
        ci_commands := s.ci_commands.write s.ci_command_count
            ⟨(strncpy name CI_COMMAND_MAX_LEN).set (CI_COMMAND_MAX_LEN - 1) 0, cb, ud⟩,
        ci_command_count := s.ci_command_count + 1 } ↔
      present m s ∨ cstr m = cstr name := by
  unfold present
  simp only
  constructor
  · rintro ⟨i, hi, hm⟩
    by_cases hic : i = s.ci_command_count
    · subst hic
      rw [read_write_same _ _ _ hcount] at hm
      right
      rw [← stored_name name hlen]
      exact (strcmp_eq_zero_iff _ _).1 hm
    · left
      rw [read_write_ne _ _ _ _ hic] at hm
      exact ⟨i, by omega, hm⟩
  · rintro (⟨i, hi, hm⟩ | hm)
    · refine ⟨i, by omega, ?_⟩
      rw [read_below_new _ _ _ _ hi]
      exact hm
    · refine ⟨s.ci_command_count, by omega, ?_⟩
      rw [read_write_same _ _ _ hcount]
      apply (strcmp_eq_zero_iff _ _).2
      rw [stored_name name hlen]
      exact hm

/-- The slot read after an unregistration that found the name in slot `i`. -/
theorem read_after_unregister (t : Table) (c i j : Nat) (hi : i < c)
    (hc : c ≤ CI_MAX_COMMANDS) (hj : j < c - 1) :
    (if i ≠ c - 1 then t.write i (t.read (c - 1)) else t).read j =
      t.read (if j = i then c - 1 else j) := by
  by_cases hl : i = c - 1
  · have hji : j ≠ i := by omega
    rw [if_neg (by simpa using hl), if_neg hji]
  · rw [if_pos hl]
    by_cases hji : j = i
    · subst hji
      rw [read_write_same _ _ _ (by omega)]
      simp
    · rw [read_write_ne _ _ _ _ hji]
      simp [hji]

theorem register_inv {s : State} (c : Option (List Nat)) (cb ud : Nat)
    (h : registry_inv s) : registry_inv (ci_register_command c cb ud s).2 := by
  cases c with
  | none => exact h
  | some name =>
    by_cases hcb : cb = 0
    · simp only [ci_register_command, if_pos hcb]
      exact h
    by_cases hl : strlen name ≥ CI_COMMAND_MAX_LEN
    · simp only [ci_register_command, if_neg hcb, if_pos hl]
      exact h
    have hlen : strlen name < CI_COMMAND_MAX_LEN := by omega
    cases hs : scan name s with
    | some i =>
      rw [register_found_eq ud hcb hlen hs]
      obtain ⟨hi, _, _⟩ := scan_some hs
      refine ⟨h.1, ?_⟩
      intro a ha b hb hab
      simp only at ha hb hab
      apply h.2 a ha b hb
      have key : ∀ j, ((s.ci_commands.write i
          ⟨(s.ci_commands.read i).command, cb, ud⟩).read j).command =
          (s.ci_commands.read j).command := by
        intro j
        by_cases hj : j = i
        · subst hj
          by_cases hlt : j < CI_MAX_COMMANDS
          · rw [read_write_same _ _ _ hlt]
          · simp [Table.read, hlt]
        · rw [read_write_ne _ _ _ _ hj]
      rw [key a, key b] at hab
      exact hab
    | none =>
      by_cases hc : s.ci_command_count ≥ CI_MAX_COMMANDS
      · rw [register_full_eq ud hcb hlen hs hc]
        exact h
      have hlt : s.ci_command_count < CI_MAX_COMMANDS := by omega
      rw [register_append_eq ud hcb hlen hs hlt]
      have hnp := scan_none_iff.1 hs
      refine ⟨by simp only; omega, ?_⟩
      intro a ha b hb hab
      simp only at ha hb hab
      by_cases hac : a = s.ci_command_count
      · by_cases hbc : b = s.ci_command_count
        · omega
        · exfalso
          subst hac
          rw [read_write_same _ _ _ hlt, read_write_ne _ _ _ _ hbc] at hab
          apply hnp
          refine ⟨b, by omega, ?_⟩
          apply (strcmp_eq_zero_iff _ _).2
          rw [← stored_name name hlen]
          exact (strcmp_eq_zero_iff _ _).1 hab
      · by_cases hbc : b = s.ci_command_count
        · exfalso
          subst hbc
          rw [read_write_same _ _ _ hlt, read_write_ne _ _ _ _ hac] at hab
          apply hnp
          refine ⟨a, by omega, ?_⟩
          apply (strcmp_eq_zero_iff _ _).2
          rw [← stored_name name hlen]
          exact ((strcmp_eq_zero_iff _ _).1 hab).symm
        · rw [read_write_ne _ _ _ _ hac, read_write_ne _ _ _ _ hbc] at hab
          exact h.2 a (by omega) b (by omega) hab

theorem unregister_inv {s : State} (c : Option (List Nat))
    (h : registry_inv s) : registry_inv (ci_unregister_command c s).2 := by
  cases c with
  | none => exact h
  | some name =>
    cases hs : scan name s with
    | none =>
      rw [unregister_missing_eq hs]
      exact h
    | some i =>
      rw [unregister_found_eq hs]
      obtain ⟨hi, _, _⟩ := scan_some hs
      refine ⟨by simp only; have := h.1; omega, ?_⟩
      intro a ha b hb hab
      simp only at ha hb hab
      rw [read_after_unregister _ _ _ _ hi h.1 ha,
        read_after_unregister _ _ _ _ hi h.1 hb] at hab
      have := h.2 _ (by split <;> omega) _ (by split <;> omega) hab
      split at this <;> split at this <;> omega

theorem lookup_eq_of_scan {name : List Nat} {s : State} {k : Nat}
    (h : scan name s = some k) :
    ci_lookup_command (some name) s = some (s.ci_commands.read k) := by
  simp only [ci_lookup_command, h]

theorem lookup_none_of_scan {name : List Nat} {s : State} (h : scan name s = none) :
    ci_lookup_command (some name) s = none := by
  simp only [ci_lookup_command, h]

theorem scan_from_name_congr {a b : List Nat} (t : Table) (n i : Nat)
    (h : cstr a = cstr b) : scan_from a t n i = scan_from b t n i := by
  induction n generalizing i with
  | zero => simp [scan_from]
  | succ n ih =>
    unfold scan_from
    have hi : strcmp a (t.read i).command = 0 ↔ strcmp b (t.read i).command = 0 := by
      rw [strcmp_eq_zero_iff, strcmp_eq_zero_iff, h]
    by_cases hm : strcmp a (t.read i).command = 0
    · rw [if_pos hm, if_pos (hi.1 hm)]
    · rw [if_neg hm, if_neg (fun hu => hm (hi.2 hu)), ih]

/-- The scan reads nothing but the table and the count. -/
theorem scan_of_registry_eq {a b : List Nat} {s w : State}
    (ht : w.ci_commands = s.ci_commands) (hc : w.ci_command_count = s.ci_command_count)
    (hab : strcmp a b = 0) : scan a w = scan b s := by
  unfold scan
  rw [ht, hc]
  exact scan_from_name_congr _ _ _ ((strcmp_eq_zero_iff a b).1 hab)

theorem dispatch_of_scan_none {h : Handlers} {s : State} (hs : scan s.buffer s = none)
    (hcb : s.ci_cb ≠ 0) : dispatch h s = invoke h s.ci_cb s.buffer s.ci_cb_data s := by
  unfold dispatch
  rw [lookup_none_of_scan hs]
  simp only
  rw [if_pos hcb]

theorem dispatch_of_scan_some {h : Handlers} {s : State} {k : Nat}
    (hs : scan s.buffer s = some k) (hcb : (s.ci_commands.read k).cb ≠ 0) :
    dispatch h s =
      invoke h (s.ci_commands.read k).cb s.buffer (s.ci_commands.read k).user_data s := by
  unfold dispatch
  rw [lookup_eq_of_scan hs]
  simp only
  rw [if_pos hcb]

/-! ## The line-reader scenarios of tests/test_sync.c, run on the embedding -/

/-- The scenario of `test_read_line_ok`: `hello world` and a newline, buffer of 32. -/
theorem test_read_line_ok :
    (ci_read_line ⟨"hello world\n".toList.map Char.toNat, false⟩ (some []) 32 []).status =
      CI_OK ∧
    cstr (ci_read_line ⟨"hello world\n".toList.map Char.toNat, false⟩ (some []) 32 []).buffer =
      "hello world".toList.map Char.toNat := by
  decide

/-- The scenario of `test_read_line_overflow`: `toolongline`, newline, `rest`, with a
buffer of 6 and then one of 8. -/
theorem test_read_line_overflow :
    (ci_read_line ⟨"toolongline\nrest".toList.map Char.toNat, false⟩ (some []) 6 []).status =
      CI_OVERFLOW ∧
    cstr (ci_read_line ⟨"toolongline\nrest".toList.map Char.toNat, false⟩ (some []) 6
      []).buffer = "toolo".toList.map Char.toNat ∧
    (ci_read_line
      (ci_read_line ⟨"toolongline\nrest".toList.map Char.toNat, false⟩ (some []) 6 []).stream
      (some []) 8 []).status = CI_OK ∧
    cstr (ci_read_line
      (ci_read_line ⟨"toolongline\nrest".toList.map Char.toNat, false⟩ (some []) 6 []).stream
      (some []) 8 []).buffer = "rest".toList.map Char.toNat := by
  decide

/-- The scenario of `test_read_line_eof`: an empty input, buffer of 8. -/
theorem test_read_line_eof :
    (ci_read_line ⟨[], false⟩ (some []) 8 []).status = CI_EOF := by
  decide

/-! ## The scenarios of tests/test_async.c, run on the embedding -/

/-- The scenario of `test_async_default_receives`: the line `hello` reaches the default
callback once, then the input ends and the worker exits. -/
theorem test_async_default_receives :
    invoked (ci_async_thread test_handlers 2
      (test_session [104, 101, 108, 108, 111, NL])) = some [1] := rfl

/-- The scenario of `test_command_dispatch_and_default`: the ten bytes `ping`, newline,
`other` give one call of the command callback and one of the default callback. -/
theorem test_command_dispatch_and_default :
    invoked (ci_async_thread test_handlers 3
      (ci_register_command (some ping) 7 0 (test_session (ping ++ [NL] ++ other_line))).2) =
      some [7, 1] := rfl

/-- The scenario of `test_command_replace_and_unregister`: after a second registration of
`ping` only the new callback runs; after an unregistration the default callback runs. -/
theorem test_command_replace_and_unregister :
    invoked (ci_async_thread test_handlers 2
      (ci_register_command (some ping) 9 0
        (ci_register_command (some ping) 7 0 (test_session (ping ++ [NL]))).2).2) =
      some [9] ∧
    invoked (ci_async_thread test_handlers 2
      (ci_unregister_command (some ping)
        (ci_register_command (some ping) 7 0 (test_session (ping ++ [NL]))).2).2) =
      some [1] := ⟨rfl, rfl⟩

/-- The scenario of `test_stop_via_request`: `q` runs `quit_cb` once and the engine
reports not running. -/
theorem test_stop_via_request :
    (ci_async_thread test_handlers 1
      (ci_register_command (some quit) 9 0 (test_session (quit ++ [NL]))).2).map
        (fun s => (s.calls.map (fun c => c.cb), ci_async_is_running s)) =
      some ([9], false) := rfl

/-! ## The registry claims -/

/-- C2, register-replace: in a well-formed registry (a full one included), registering a
name that is present with a non-null callback returns `CI_OK` and changes nothing but
the callback and context of the slot `i` that holds the name: the count is the same, slot
`i` keeps its name buffer and holds the new callback and context, every other slot is
as before, and a lookup of the name then yields the new callback and context. -/
theorem register_replace (s : State) (name : List Nat) (cb ud : Nat)
    (hwf : well_formed s) (hcb : cb ≠ 0) (hp : present name s) :
    ∃ i, i < s.ci_command_count ∧ strcmp name (s.ci_commands.read i).command = 0 ∧
      ci_register_command (some name) cb ud s =
        (CI_OK, { s with
          ci_commands := s.ci_commands.write i ⟨(s.ci_commands.read i).command, cb, ud⟩ }) ∧
      (ci_register_command (some name) cb ud s).2.ci_command_count = s.ci_command_count ∧
      (ci_register_command (some name) cb ud s).2.ci_commands.read i =
        ⟨(s.ci_commands.read i).command, cb, ud⟩ ∧
      (∀ j, j ≠ i → (ci_register_command (some name) cb ud s).2.ci_commands.read j =
        s.ci_commands.read j) ∧
      ci_lookup_command (some name) (ci_register_command (some name) cb ud s).2 =
        some ⟨(s.ci_commands.read i).command, cb, ud⟩ := by
  obtain ⟨i, hs⟩ := present_iff_scan.1 hp
  obtain ⟨hi, hm, _⟩ := scan_some hs
  have hlen := present_strlen hwf hp
  have hi32 : i < CI_MAX_COMMANDS := lt_of_lt_of_le hi hwf.1
  have heq := register_found_eq ud hcb hlen hs
  refine ⟨i, hi, hm, heq, ?_, ?_, ?_, ?_⟩
  · rw [heq]
  · rw [heq]
    exact read_write_same _ _ _ hi32
  · intro j hj
    rw [heq]
    exact read_write_ne _ _ _ _ hj
  · rw [heq]
    have hscan : scan name { s with
        ci_commands := s.ci_commands.write i ⟨(s.ci_commands.read i).command, cb, ud⟩ } =
        some i := by
      unfold scan
      simp only
      rw [scan_from_write_same_command name s.ci_commands i
        ⟨(s.ci_commands.read i).command, cb, ud⟩ rfl]
      exact hs
    rw [lookup_eq_of_scan hscan]
    simp only
    rw [read_write_same _ _ _ hi32]

/-- C4, register-new: with fewer than 32 entries, a name of at most 63 characters that
is not present and a non-null callback, the registration returns `CI_OK`, the count grows
by one, a lookup of the name then yields an entry whose stored name is the given name,
with the given callback and context, and the lookup of any other name is as before. -/
theorem register_new (s : State) (name : List Nat) (cb ud : Nat)
    (hcount : s.ci_command_count < CI_MAX_COMMANDS) (hlen : strlen name ≤ 63)
    (hcb : cb ≠ 0) (hnp : ¬ present name s) :
    (ci_register_command (some name) cb ud s).1 = CI_OK ∧
    (ci_register_command (some name) cb ud s).2.ci_command_count = s.ci_command_count + 1 ∧
    (∃ e, ci_lookup_command (some name) (ci_register_command (some name) cb ud s).2 = some e ∧
      cstr e.command = cstr name ∧ e.cb = cb ∧ e.user_data = ud) ∧
    ∀ other, cstr other ≠ cstr name →
      ci_lookup_command (some other) (ci_register_command (some name) cb ud s).2 =
        ci_lookup_command (some other) s := by
  have hlen2 : strlen name < CI_COMMAND_MAX_LEN := by
    simp only [CI_COMMAND_MAX_LEN]; omega
  have hs := scan_none_iff.2 hnp
  have heq := register_append_eq ud hcb hlen2 hs hcount
  rw [heq]
  refine ⟨rfl, rfl, ?_, ?_⟩
  · refine ⟨⟨(strncpy name CI_COMMAND_MAX_LEN).set (CI_COMMAND_MAX_LEN - 1) 0, cb, ud⟩,
      ?_, stored_name name hlen2, rfl, rfl⟩
    have hscan : scan name { s with
        ci_commands := s.ci_commands.write s.ci_command_count
            ⟨(strncpy name CI_COMMAND_MAX_LEN).set (CI_COMMAND_MAX_LEN - 1) 0, cb, ud⟩,
        ci_command_count := s.ci_command_count + 1 } = some s.ci_command_count := by
      unfold scan
      simp only
      apply scan_from_first (Nat.zero_le _) (by omega)
      · rw [read_write_same _ _ _ hcount]
        apply (strcmp_eq_zero_iff _ _).2
        exact (stored_name name hlen2).symm
      · intro j _ hj hm
        rw [read_below_new _ _ _ _ hj] at hm
        exact hnp ⟨j, hj, hm⟩
    rw [lookup_eq_of_scan hscan]
    simp only
    rw [read_write_same _ _ _ hcount]
  · intro other hne
    have hlast : strcmp other ((s.ci_commands.write s.ci_command_count
        ⟨(strncpy name CI_COMMAND_MAX_LEN).set (CI_COMMAND_MAX_LEN - 1) 0, cb, ud⟩).read
          (0 + s.ci_command_count)).command ≠ 0 := by
      rw [Nat.zero_add, read_write_same _ _ _ hcount]
      intro h0
      apply hne
      rw [← stored_name name hlen2]
      exact (strcmp_eq_zero_iff _ _).1 h0
    have hscan : scan other { s with
        ci_commands := s.ci_commands.write s.ci_command_count
            ⟨(strncpy name CI_COMMAND_MAX_LEN).set (CI_COMMAND_MAX_LEN - 1) 0, cb, ud⟩,
        ci_command_count := s.ci_command_count + 1 } = scan other s := by
      unfold scan
      simp only
      rw [scan_from_succ_last hlast]
      apply scan_from_congr
      intro j _ hj
      rw [read_below_new _ _ _ _ (by omega)]
    cases hso : scan other s with
    | none =>
      rw [hso] at hscan
      rw [lookup_none_of_scan hscan, lookup_none_of_scan hso]
    | some k =>
      rw [hso] at hscan
      rw [lookup_eq_of_scan hscan, lookup_eq_of_scan hso]
      simp only
      rw [read_below_new _ _ _ _ (scan_some hso).1]

/-- C6, unregister-absent: for every registry (the empty one included) and every name
that matches no live entry, `ci_unregister_command` returns `CI_INVALID` and leaves the
whole state, table and count included, as it was; so does a `NULL` name. -/
theorem unregister_absent :
    (∀ (s : State) (name : List Nat), ¬ present name s →
      ci_unregister_command (some name) s = (CI_INVALID, s)) ∧
    (∀ (s : State) (name : List Nat), s.ci_command_count = 0 →
      ci_unregister_command (some name) s = (CI_INVALID, s)) ∧
    (∀ s : State, ci_unregister_command none s = (CI_INVALID, s)) := by
  refine ⟨?_, ?_, ?_⟩
  · intro s name hnp
    exact unregister_missing_eq (scan_none_iff.2 hnp)
  · intro s name h0
    apply unregister_missing_eq
    apply scan_none_iff.2
    rintro ⟨i, hi, _⟩
    omega
  · intro s
    rfl

theorem register_all_ok (regs : List (List Nat × Nat × Nat)) :
    ∀ s : State, s.ci_command_count + regs.length ≤ CI_MAX_COMMANDS →
      (regs.map (fun r => cstr r.1)).Nodup →
      (∀ r ∈ regs, strlen r.1 < CI_COMMAND_MAX_LEN ∧ r.2.1 ≠ 0) →
      (∀ r ∈ regs, ¬ present r.1 s) →
      (register_all regs s).1 = List.replicate regs.length CI_OK ∧
      (register_all regs s).2.ci_command_count = s.ci_command_count + regs.length := by
  induction regs with
  | nil =>
    intro s _ _ _ _
    simp [register_all]
  | cons r rest ih =>
    intro s hcount hnd hvalid hnp
    obtain ⟨name, cb, ud⟩ := r
    have hv := hvalid (name, cb, ud) (List.mem_cons_self _ _)
    have hlen : strlen name < CI_COMMAND_MAX_LEN := hv.1
    have hcb : cb ≠ 0 := hv.2
    have hlt : s.ci_command_count < CI_MAX_COMMANDS := by
      simp only [List.length_cons] at hcount
      omega
    have hs : scan name s = none := scan_none_iff.2 (hnp (name, cb, ud) (List.mem_cons_self _ _))
    have heq := register_append_eq ud hcb hlen hs hlt
    simp only [List.map_cons, List.nodup_cons] at hnd
    have hrest := ih (ci_register_command (some name) cb ud s).2
      (by rw [heq]; simp only [List.length_cons] at hcount ⊢; omega)
      hnd.2
      (fun r hr => hvalid r (List.mem_cons_of_mem _ hr))
      (by
        intro r hr hpr
        rw [heq] at hpr
        rcases (present_after_new hlen hlt).1 hpr with hold | hsame
        · exact hnp r (List.mem_cons_of_mem _ hr) hold
        · apply hnd.1
          rw [← hsame]
          exact List.mem_map_of_mem (fun r => cstr r.1) hr)
    simp only [register_all, List.length_cons, List.replicate_succ]
    refine ⟨?_, ?_⟩
    · rw [hrest.1]
      simp only [List.cons.injEq, and_true]
      rw [heq]
    · rw [hrest.2, heq]
      simp only
      omega

/-- C3, registry capacity: from an empty registry, 32 registrations of pairwise distinct
names of at most 63 characters with non-null callbacks all return `CI_OK` (and leave 32
entries); and in every registry that holds 32 entries, the registration of a name that
is not present returns `CI_OVERFLOW` and leaves the whole state as it was. -/
theorem registry_capacity :
    (∀ (s : State) (regs : List (List Nat × Nat × Nat)),
      s.ci_command_count = 0 → regs.length = 32 →
      (regs.map (fun r => cstr r.1)).Nodup →
      (∀ r ∈ regs, strlen r.1 < CI_COMMAND_MAX_LEN ∧ r.2.1 ≠ 0) →
      (register_all regs s).1 = List.replicate 32 CI_OK ∧
      (register_all regs s).2.ci_command_count = 32) ∧
    (∀ (s : State) (name : List Nat) (cb ud : Nat),
      s.ci_command_count = CI_MAX_COMMANDS → cb ≠ 0 → ¬ present name s →
      ci_register_command (some name) cb ud s = (CI_OVERFLOW, s)) := by
  refine ⟨?_, ?_⟩
  · intro s regs h0 hlen hnd hvalid
    have h := register_all_ok regs s (by rw [h0, hlen]; decide) hnd hvalid
      (by
        rintro r _ ⟨i, hi, _⟩
        omega)
    rw [hlen, h0] at h
    exact h
  · intro s name cb ud hfull hcb hnp
    by_cases hl : strlen name ≥ CI_COMMAND_MAX_LEN
    · simp only [ci_register_command, if_neg hcb, if_pos hl]
    · exact register_full_eq ud hcb (by omega) (scan_none_iff.2 hnp) (by omega)

/-- C5, unregister-present: in a registry with distinct names, unregistering a name that
is present returns `CI_OK`, the count drops by one, a lookup of the name then finds
nothing (a worker with that registry dispatches a line equal to it to the default
callback), and the lookup of
every other name yields the same entry as before; the slot `i` that held the name now
holds the former last entry unless it was the last one, and no other slot changes. -/
theorem unregister_present (s : State) (name : List Nat)
    (hinv : registry_inv s) (hp : present name s) :
    (ci_unregister_command (some name) s).1 = CI_OK ∧
    (ci_unregister_command (some name) s).2.ci_command_count + 1 = s.ci_command_count ∧
    ci_lookup_command (some name) (ci_unregister_command (some name) s).2 = none ∧
    (∀ other, cstr other ≠ cstr name →
      ci_lookup_command (some other) (ci_unregister_command (some name) s).2 =
        ci_lookup_command (some other) s) ∧
    (∀ (h : Handlers) (w : State),
      w.ci_commands = (ci_unregister_command (some name) s).2.ci_commands →
      w.ci_command_count = (ci_unregister_command (some name) s).2.ci_command_count →
      strcmp w.buffer name = 0 → w.ci_cb ≠ 0 →
      dispatch h w = invoke h w.ci_cb w.buffer w.ci_cb_data w) ∧
    ∃ i, i < s.ci_command_count ∧ strcmp name (s.ci_commands.read i).command = 0 ∧
      (i ≠ s.ci_command_count - 1 →
        (ci_unregister_command (some name) s).2.ci_commands.read i =
          s.ci_commands.read (s.ci_command_count - 1)) ∧
      ∀ j, j ≠ i → (ci_unregister_command (some name) s).2.ci_commands.read j =
        s.ci_commands.read j := by
  obtain ⟨i, hs⟩ := present_iff_scan.1 hp
  obtain ⟨hi, hm, _⟩ := scan_some hs
  have hinv2 := unregister_inv (some name) hinv
  have heq := unregister_found_eq hs
  have hread : ∀ j, j < s.ci_command_count - 1 →
      (ci_unregister_command (some name) s).2.ci_commands.read j =
        s.ci_commands.read (if j = i then s.ci_command_count - 1 else j) := by
    intro j hj
    rw [heq]
    exact read_after_unregister _ _ _ _ hi hinv.1 hj
  have hcnt : (ci_unregister_command (some name) s).2.ci_command_count =
      s.ci_command_count - 1 := by rw [heq]
  have hnone : scan name (ci_unregister_command (some name) s).2 = none := by
    apply scan_none_iff.2
    rintro ⟨j, hj, hmj⟩
    rw [hcnt] at hj
    rw [hread j hj] at hmj
    have := hinv.2 _ (by split <;> omega) i hi (strcmp_trans_zero (strcmp_comm_zero hmj) hm)
    split at this <;> omega
  refine ⟨by rw [heq], by rw [hcnt]; omega, lookup_none_of_scan hnone, ?_, ?_, ?_⟩
  · intro other hne
    cases hso : scan other s with
    | none =>
      have hnp := scan_none_iff.1 hso
      have : scan other (ci_unregister_command (some name) s).2 = none := by
        apply scan_none_iff.2
        rintro ⟨j, hj, hmj⟩
        rw [hcnt] at hj
        rw [hread j hj] at hmj
        exact hnp ⟨_, by split <;> omega, hmj⟩
      rw [lookup_none_of_scan this, lookup_none_of_scan hso]
    | some k =>
      obtain ⟨hk, hmk, _⟩ := scan_some hso
      have hki : k ≠ i := by
        intro hki
        subst hki
        apply hne
        rw [(strcmp_eq_zero_iff _ _).1 hmk, (strcmp_eq_zero_iff _ _).1 hm]
      have hlt : (if k = s.ci_command_count - 1 then i else k) < s.ci_command_count - 1 := by
        split <;> omega
      have hrd := hread _ hlt
      have hidx : (if (if k = s.ci_command_count - 1 then i else k) = i
          then s.ci_command_count - 1 else (if k = s.ci_command_count - 1 then i else k)) = k := by
        by_cases hkl : k = s.ci_command_count - 1
        · simp [hkl]
        · simp [hkl, hki]
      rw [hidx] at hrd
      have hscan : scan other (ci_unregister_command (some name) s).2 =
          some (if k = s.ci_command_count - 1 then i else k) := by
        apply scan_eq_of_match hinv2
        · rw [hcnt]; exact hlt
        · rw [hrd]; exact hmk
      rw [lookup_eq_of_scan hscan, lookup_eq_of_scan hso, hrd]
  · intro h w ht hc hline hcb
    apply dispatch_of_scan_none _ hcb
    rw [scan_of_registry_eq ht hc hline]
    exact hnone
  · refine ⟨i, hi, hm, ?_, ?_⟩
    · intro hne
      rw [heq]
      simp only [if_pos hne]
      exact read_write_same _ _ _ (lt_of_lt_of_le hi hinv.1)
    · intro j hj
      rw [heq]
      simp only
      split
      · exact read_write_ne _ _ _ _ hj
      · rfl

/-! ## The theorems at concrete registries -/

theorem demo_one_wf : well_formed demo_one := by
  unfold well_formed
  decide

theorem demo_two_inv : registry_inv demo_two := by
  unfold registry_inv
  decide

theorem demo_one_has_ping : present ping demo_one := ⟨0, by decide, by decide⟩

theorem demo_full_wf : well_formed demo_full := by
  unfold well_formed
  decide

theorem demo_full_has_5 : present [5] demo_full := ⟨4, by decide, by decide⟩

theorem demo_one_lacks_quit : ¬ present quit demo_one := by
  unfold present
  decide

theorem demo_two_has_ping : present ping demo_two := ⟨0, by decide, by decide⟩

theorem demo_full_lacks_40 : ¬ present [40] demo_full := by
  unfold present
  decide

/-- Witness of C2: `"ping"` is registered again, with callback 8 and context 80; and a
name held by a full table of 32 entries is registered again. -/
theorem register_replace_witness :
    (well_formed demo_full ∧ present [5] demo_full ∧
      (ci_register_command (some [5]) 8 80 demo_full).1 = CI_OK ∧
      (ci_register_command (some [5]) 8 80 demo_full).2.ci_command_count = 32) ∧
    (well_formed demo_one ∧ (8 : Nat) ≠ 0 ∧ present ping demo_one) ∧
    ∃ i, i < demo_one.ci_command_count ∧
      strcmp ping (demo_one.ci_commands.read i).command = 0 ∧
      ci_register_command (some ping) 8 80 demo_one =
        (CI_OK, { demo_one with
          ci_commands :=
            demo_one.ci_commands.write i ⟨(demo_one.ci_commands.read i).command, 8, 80⟩ }) ∧
      (ci_register_command (some ping) 8 80 demo_one).2.ci_command_count =
        demo_one.ci_command_count ∧
      (ci_register_command (some ping) 8 80 demo_one).2.ci_commands.read i =
        ⟨(demo_one.ci_commands.read i).command, 8, 80⟩ ∧
      (∀ j, j ≠ i → (ci_register_command (some ping) 8 80 demo_one).2.ci_commands.read j =
        demo_one.ci_commands.read j) ∧
      ci_lookup_command (some ping) (ci_register_command (some ping) 8 80 demo_one).2 =
        some ⟨(demo_one.ci_commands.read i).command, 8, 80⟩ :=
  ⟨⟨demo_full_wf, demo_full_has_5,
      (register_replace demo_full [5] 8 80 demo_full_wf (by decide) demo_full_has_5).elim
        (fun _ hi => ⟨congrArg Prod.fst hi.2.2.1, hi.2.2.2.1⟩)⟩,
    ⟨demo_one_wf, by decide, demo_one_has_ping⟩,
    register_replace demo_one ping 8 80 demo_one_wf (by decide) demo_one_has_ping⟩

/-- Witness of C3: the 32 names 1 .. 32 are registered; a 33rd name is refused. -/
theorem registry_capacity_witness :
    ((register_all demo_regs (init_state [])).1 = List.replicate 32 CI_OK ∧
      (register_all demo_regs (init_state [])).2.ci_command_count = 32) ∧
    ci_register_command (some [40]) 5 0 demo_full = (CI_OVERFLOW, demo_full) :=
  ⟨registry_capacity.1 (init_state []) demo_regs rfl (by decide) (by decide) (by decide),
    registry_capacity.2 demo_full [40] 5 0 rfl (by decide) demo_full_lacks_40⟩

/-- Witness of C4: `"q"` is added to the registry that holds `"ping"`. -/
theorem register_new_witness :
    (demo_one.ci_command_count < CI_MAX_COMMANDS ∧ strlen quit ≤ 63 ∧ (9 : Nat) ≠ 0 ∧
      ¬ present quit demo_one) ∧
    (ci_register_command (some quit) 9 90 demo_one).1 = CI_OK ∧
    (ci_register_command (some quit) 9 90 demo_one).2.ci_command_count =
      demo_one.ci_command_count + 1 ∧
    (∃ e, ci_lookup_command (some quit) (ci_register_command (some quit) 9 90 demo_one).2 =
        some e ∧ cstr e.command = cstr quit ∧ e.cb = 9 ∧ e.user_data = 90) ∧
    ∀ other, cstr other ≠ cstr quit →
      ci_lookup_command (some other) (ci_register_command (some quit) 9 90 demo_one).2 =
        ci_lookup_command (some other) demo_one :=
  ⟨⟨by decide, by decide, by decide, demo_one_lacks_quit⟩,
    register_new demo_one quit 9 90 (by decide) (by decide) (by decide) demo_one_lacks_quit⟩

/-- Witness of C5: `"ping"` (slot 0) is removed from the registry that holds `"ping"`
and `"q"`; the entry of `"q"` moves from the last slot to slot 0 and is still found. -/
theorem unregister_present_witness :
    (registry_inv demo_two ∧ present ping demo_two) ∧
    (ci_unregister_command (some ping) demo_two).1 = CI_OK ∧
    (ci_unregister_command (some ping) demo_two).2.ci_command_count + 1 =
      demo_two.ci_command_count ∧
    ci_lookup_command (some ping) (ci_unregister_command (some ping) demo_two).2 = none ∧
    ci_lookup_command (some quit) (ci_unregister_command (some ping) demo_two).2 =
      ci_lookup_command (some quit) demo_two :=
  ⟨⟨demo_two_inv, demo_two_has_ping⟩,
    (unregister_present demo_two ping demo_two_inv demo_two_has_ping).1,
    (unregister_present demo_two ping demo_two_inv demo_two_has_ping).2.1,
    (unregister_present demo_two ping demo_two_inv demo_two_has_ping).2.2.1,
    (unregister_present demo_two ping demo_two_inv demo_two_has_ping).2.2.2.1 quit
      (by decide)⟩

/-- Witness of C6: a name that is not registered, in a full and in an empty registry. -/
theorem unregister_absent_witness :
    ¬ present [40] demo_full ∧
    ci_unregister_command (some [40]) demo_full = (CI_INVALID, demo_full) ∧
    ci_unregister_command (some ping) (init_state []) = (CI_INVALID, init_state []) ∧
    ci_unregister_command none demo_two = (CI_INVALID, demo_two) :=
  ⟨demo_full_lacks_40, unregister_absent.1 demo_full [40] demo_full_lacks_40,
    unregister_absent.2.1 (init_state []) ping rfl, unregister_absent.2.2 demo_two⟩

/-! ## Lemmas on callbacks and the engine -/

/-- A registration writes nothing but the table and the count. -/
theorem register_shape (c : Option (List Nat)) (cb ud : Nat) (s : State) :
    ∃ t n, (ci_register_command c cb ud s).2 =
      { s with ci_commands := t, ci_command_count := n } := by
  cases c with
  | none => exact ⟨s.ci_commands, s.ci_command_count, rfl⟩
  | some name =>
    by_cases hcb : cb = 0
    · simp only [ci_register_command, if_pos hcb]
      exact ⟨s.ci_commands, s.ci_command_count, rfl⟩
    by_cases hl : strlen name ≥ CI_COMMAND_MAX_LEN
    · simp only [ci_register_command, if_neg hcb, if_pos hl]
      exact ⟨s.ci_commands, s.ci_command_count, rfl⟩
    have hlen : strlen name < CI_COMMAND_MAX_LEN := by omega
    cases hs : scan name s with
    | some i =>
      rw [register_found_eq ud hcb hlen hs]
      exact ⟨_, s.ci_command_count, rfl⟩
    | none =>
      by_cases hc : s.ci_command_count ≥ CI_MAX_COMMANDS
      · rw [register_full_eq ud hcb hlen hs hc]
        exact ⟨s.ci_commands, s.ci_command_count, rfl⟩
      · rw [register_append_eq ud hcb hlen hs (by omega)]
        exact ⟨_, _, rfl⟩

/-- An unregistration writes nothing but the table and the count. -/
theorem unregister_shape (c : Option (List Nat)) (s : State) :
    ∃ t n, (ci_unregister_command c s).2 =
      { s with ci_commands := t, ci_command_count := n } := by
  cases c with
  | none => exact ⟨s.ci_commands, s.ci_command_count, rfl⟩
  | some name =>
    cases hs : scan name s with
    | some i =>
      rw [unregister_found_eq hs]
      exact ⟨_, _, rfl⟩
    | none =>
      rw [unregister_missing_eq hs]
      exact ⟨s.ci_commands, s.ci_command_count, rfl⟩

/-- A callback body writes nothing but the table, the count and the stop-request flag,
and the flag is set exactly when it was set before or the body requests a stop. -/
theorem run_shape (p : Prog) : ∀ s : State,
    ∃ t n, p.run s =
      { s with ci_commands := t, ci_command_count := n,
               ci_stop_requested := s.ci_stop_requested || p.stops s } := by
  induction p with
  | done =>
    intro s
    refine ⟨s.ci_commands, s.ci_command_count, ?_⟩
    simp [Prog.run, Prog.stops]
  | register c cb ud k ih =>
    intro s
    obtain ⟨t1, n1, h1⟩ := register_shape c cb ud s
    obtain ⟨t, n, h2⟩ := ih (ci_register_command c cb ud s).1 (ci_register_command c cb ud s).2
    refine ⟨t, n, ?_⟩
    simp only [Prog.run, Prog.stops]
    rw [h2, h1]
  | unregister c k ih =>
    intro s
    obtain ⟨t1, n1, h1⟩ := unregister_shape c s
    obtain ⟨t, n, h2⟩ := ih (ci_unregister_command c s).1 (ci_unregister_command c s).2
    refine ⟨t, n, ?_⟩
    simp only [Prog.run, Prog.stops]
    rw [h2, h1]
  | request_stop k ih =>
    intro s
    obtain ⟨t, n, h2⟩ := ih (ci_request_stop_async_input s)
    refine ⟨t, n, ?_⟩
    simp only [Prog.run, Prog.stops]
    rw [h2]
    simp [ci_request_stop_async_input]
  | is_running k ih =>
    intro s
    obtain ⟨t, n, h2⟩ := ih (ci_async_is_running s) s
    refine ⟨t, n, ?_⟩
    simp only [Prog.run, Prog.stops]
    rw [h2]

/-- A callback invocation adds one record to the log and leaves the streams, the
buffer, the default callback and the running flag alone. -/
theorem invoke_shape (h : Handlers) (cb : Nat) (line : List Nat) (ud : Nat) (s : State) :
    ∃ t n, invoke h cb line ud s =
      { s with ci_commands := t, ci_command_count := n,
               calls := s.calls ++ [⟨cb, line, ud⟩],
               ci_stop_requested := s.ci_stop_requested ||
                 (h cb line ud s.calls).stops (logged s ⟨cb, line, ud⟩) } := by
  obtain ⟨t, n, hr⟩ := run_shape (h cb line ud s.calls) (logged s ⟨cb, line, ud⟩)
  refine ⟨t, n, ?_⟩
  unfold invoke
  rw [hr]
  rfl

theorem dispatch_eq_target (h : Handlers) (s : State) :
    dispatch h s =
      match dispatch_target s with
      | some (cb, ud) => invoke h cb s.buffer ud s
      | none => s := by
  unfold dispatch dispatch_target
  cases ci_lookup_command (some s.buffer) s with
  | none =>
    simp only
    split <;> rfl
  | some e =>
    simp only
    split
    · rfl
    · split <;> rfl

theorem worker_iter_ok {h : Handlers} {s : State} (hok : (worker_read s).status = CI_OK) :
    worker_iter h s =
      (if (dispatch h (after_read s (worker_read s))).ci_stop_requested then Ctl.brk
        else Ctl.cont,
       dispatch h (after_read s (worker_read s))) := by
  unfold worker_iter
  simp only [hok]
  by_cases hd : (dispatch h (after_read s (worker_read s))).ci_stop_requested = true
  · simp [hd]
  · simp [hd]

theorem loop_head_after_loop (h : Handlers) (k n : Nat) :
    ∀ s0 s : State, loop_head_after h k s0 = some s →
      worker_loop h (k + n) s0 = worker_loop h n s := by
  induction k with
  | zero =>
    intro s0 s hr
    simp only [loop_head_after, Option.some.injEq] at hr
    rw [hr, Nat.zero_add]
  | succ k ih =>
    intro s0 s hr
    have hk : k + 1 + n = (k + n) + 1 := by omega
    rw [hk]
    unfold loop_head_after at hr
    rw [worker_loop]
    by_cases hc : (s0.ci_running && !s0.ci_stop_requested) = true
    · rw [if_pos hc] at hr
      rw [if_pos hc]
      cases hw : worker_iter h s0 with
      | mk ctl s1 =>
        rw [hw] at hr
        cases ctl with
        | brk => simp at hr
        | cont =>
          simp only at hr ⊢
          exact ih s1 s hr
    · rw [if_neg hc] at hr
      simp at hr

theorem invoke_calls (h : Handlers) (cb : Nat) (line : List Nat) (ud : Nat) (s : State) :
    (invoke h cb line ud s).calls = s.calls ++ [⟨cb, line, ud⟩] := by
  obtain ⟨t, n, hr⟩ := invoke_shape h cb line ud s
  rw [hr]

theorem invoke_stdin (h : Handlers) (cb : Nat) (line : List Nat) (ud : Nat) (s : State) :
    (invoke h cb line ud s).stdin = s.stdin := by
  obtain ⟨t, n, hr⟩ := invoke_shape h cb line ud s
  rw [hr]

theorem invoke_stop (h : Handlers) (cb : Nat) (line : List Nat) (ud : Nat) (s : State) :
    (invoke h cb line ud s).ci_stop_requested =
      (s.ci_stop_requested || (h cb line ud s.calls).stops (logged s ⟨cb, line, ud⟩)) := by
  obtain ⟨t, n, hr⟩ := invoke_shape h cb line ud s
  rw [hr]

theorem scan_after_read (name : List Nat) (s : State) (r : ReadResult) :
    scan name (after_read s r) = scan name s := rfl

/-! ## Preservation of the session invariant -/

/-- A property of entries that holds of the live entries still holds after a
registration, when it holds of the entries a registration writes. -/
theorem register_live (P : ci_command_entry → Prop) (c : Option (List Nat)) (cb ud : Nat)
    (s : State) (hall : ∀ i, i < s.ci_command_count → P (s.ci_commands.read i))
    (hupd : ∀ e, P e → cb ≠ 0 → P ⟨e.command, cb, ud⟩)
    (hnew : ∀ name, c = some name → cb ≠ 0 → strlen name < CI_COMMAND_MAX_LEN →
      P ⟨(strncpy name CI_COMMAND_MAX_LEN).set (CI_COMMAND_MAX_LEN - 1) 0, cb, ud⟩) :
    ∀ i, i < (ci_register_command c cb ud s).2.ci_command_count →
      P ((ci_register_command c cb ud s).2.ci_commands.read i) := by
  cases c with
  | none => exact hall
  | some name =>
    by_cases hcb : cb = 0
    · simp only [ci_register_command, if_pos hcb]
      exact hall
    by_cases hl : strlen name ≥ CI_COMMAND_MAX_LEN
    · simp only [ci_register_command, if_neg hcb, if_pos hl]
      exact hall
    have hlen : strlen name < CI_COMMAND_MAX_LEN := by omega
    cases hs : scan name s with
    | some k =>
      rw [register_found_eq ud hcb hlen hs]
      intro i hi
      simp only at hi ⊢
      by_cases hik : i = k
      · subst hik
        by_cases hlt : i < CI_MAX_COMMANDS
        · rw [read_write_same _ _ _ hlt]
          exact hupd _ (hall i hi) hcb
        · have : ∀ t : Table, t.read i = zero_entry := by
            intro t
            simp [Table.read, hlt]
          rw [this]
          rw [← this s.ci_commands]
          exact hall i hi
      · rw [read_write_ne _ _ _ _ hik]
        exact hall i hi
    | none =>
      by_cases hc : s.ci_command_count ≥ CI_MAX_COMMANDS
      · rw [register_full_eq ud hcb hlen hs hc]
        exact hall
      have hlt : s.ci_command_count < CI_MAX_COMMANDS := by omega
      rw [register_append_eq ud hcb hlen hs hlt]
      intro i hi
      simp only at hi ⊢
      by_cases hic : i = s.ci_command_count
      · subst hic
        rw [read_write_same _ _ _ hlt]
        exact hnew name rfl hcb hlen
      · rw [read_write_ne _ _ _ _ hic]
        exact hall i (by omega)

/-- A property of entries that holds of the live entries still holds after an
unregistration. -/
theorem unregister_live (P : ci_command_entry → Prop) (c : Option (List Nat)) (s : State)
    (hc : s.ci_command_count ≤ CI_MAX_COMMANDS)
    (hall : ∀ i, i < s.ci_command_count → P (s.ci_commands.read i)) :
    ∀ i, i < (ci_unregister_command c s).2.ci_command_count →
      P ((ci_unregister_command c s).2.ci_commands.read i) := by
  cases c with
  | none => exact hall
  | some name =>
    cases hs : scan name s with
    | none =>
      rw [unregister_missing_eq hs]
      exact hall
    | some k =>
      rw [unregister_found_eq hs]
      intro i hi
      simp only at hi ⊢
      rw [read_after_unregister _ _ _ _ (scan_some hs).1 hc hi]
      apply hall
      split <;> omega

theorem register_ok (c : Option (List Nat)) (cb ud : Nat) {s : State} (h : session_ok s) :
    session_ok (ci_register_command c cb ud s).2 := by
  obtain ⟨hinv, hwf, hcbs, hdef⟩ := h
  have hinv2 := register_inv c cb ud hinv
  refine ⟨hinv2, ⟨hinv2.1, ?_⟩, ?_, ?_⟩
  · apply register_live (fun e => strlen e.command < CI_COMMAND_MAX_LEN) c cb ud s hwf.2
    · intro e he _
      exact he
    · intro name _ _ hlen
      simp only
      rw [strlen_eq_length_cstr, stored_name name hlen, ← strlen_eq_length_cstr]
      exact hlen
  · apply register_live (fun e => e.cb ≠ 0) c cb ud s hcbs
    · intro e _ hcb
      exact hcb
    · intro name _ hcb _
      exact hcb
  · obtain ⟨t, n, hr⟩ := register_shape c cb ud s
    rw [hr]
    exact hdef

theorem unregister_ok (c : Option (List Nat)) {s : State} (h : session_ok s) :
    session_ok (ci_unregister_command c s).2 := by
  obtain ⟨hinv, hwf, hcbs, hdef⟩ := h
  have hinv2 := unregister_inv c hinv
  refine ⟨hinv2, ⟨hinv2.1, ?_⟩, ?_, ?_⟩
  · exact unregister_live (fun e => strlen e.command < CI_COMMAND_MAX_LEN) c s hinv.1 hwf.2
  · exact unregister_live (fun e => e.cb ≠ 0) c s hinv.1 hcbs
  · obtain ⟨t, n, hr⟩ := unregister_shape c s
    rw [hr]
    exact hdef

/-- The session invariant reads nothing but the table, the count, the default callback
and the running flag. -/
theorem session_ok_of_eq {s w : State} (h : session_ok s)
    (ht : w.ci_commands = s.ci_commands) (hc : w.ci_command_count = s.ci_command_count)
    (hcb : w.ci_cb = s.ci_cb) (hr : w.ci_running = s.ci_running) : session_ok w := by
  unfold session_ok registry_inv well_formed callbacks_set at *
  rw [ht, hc, hcb, hr]
  exact h

theorem run_ok (p : Prog) : ∀ s : State, session_ok s → session_ok (p.run s) := by
  induction p with
  | done =>
    intro s h
    exact h
  | register c cb ud k ih =>
    intro s h
    exact ih _ _ (register_ok c cb ud h)
  | unregister c k ih =>
    intro s h
    exact ih _ _ (unregister_ok c h)
  | request_stop k ih =>
    intro s h
    exact ih _ (session_ok_of_eq h rfl rfl rfl rfl)
  | is_running k ih =>
    intro s h
    exact ih _ _ h

theorem invoke_ok (h : Handlers) (cb : Nat) (line : List Nat) (ud : Nat) {s : State}
    (hs : session_ok s) : session_ok (invoke h cb line ud s) :=
  run_ok _ _ (session_ok_of_eq hs rfl rfl rfl rfl)

theorem dispatch_ok (h : Handlers) {s : State} (hs : session_ok s) :
    session_ok (dispatch h s) := by
  rw [dispatch_eq_target]
  cases dispatch_target s with
  | none => exact hs
  | some p => exact invoke_ok h p.1 s.buffer p.2 hs

theorem worker_iter_session_ok (h : Handlers) {s : State} (hs : session_ok s) :
    session_ok (worker_iter h s).2 := by
  have h1 : session_ok (after_read s (worker_read s)) :=
    session_ok_of_eq hs rfl rfl rfl rfl
  unfold worker_iter
  simp only
  split
  · exact h1
  · split
    · exact session_ok_of_eq h1 rfl rfl rfl rfl
    · split
      · exact h1
      · split
        · exact dispatch_ok h h1
        · exact dispatch_ok h h1

theorem empty_registry_ok {s : State} (h0 : s.ci_command_count = 0)
    (hdef : s.ci_running = true → s.ci_cb ≠ 0) : session_ok s := by
  have hc : s.ci_command_count ≤ CI_MAX_COMMANDS := by
    rw [h0]
    exact Nat.zero_le _
  refine ⟨⟨hc, ?_⟩, ⟨hc, ?_⟩, ?_, hdef⟩
  · intro i hi
    omega
  · intro i hi
    omega
  · intro i hi
    omega

theorem start_ok (p : Option (List Nat)) (cb ud : Nat) (rc : Int) {s : State}
    (h : session_ok s) : session_ok (ci_start_async_input p cb ud rc s).2 := by
  unfold ci_start_async_input
  by_cases hcb : cb = 0
  · rw [if_pos hcb]
    exact h
  rw [if_neg hcb]
  by_cases hr : s.ci_running = true
  · rw [if_pos hr]
    exact h
  rw [if_neg hr]
  simp only
  split
  · exact empty_registry_ok rfl (fun hrun => by simp at hrun)
  · exact empty_registry_ok rfl (fun _ => hcb)

theorem stop_ok (join : State → State) {s : State} (h : session_ok s) :
    session_ok (ci_stop_async_input join s) := by
  unfold ci_stop_async_input
  split
  · exact h
  · exact empty_registry_ok rfl (fun hrun => by simp at hrun)

theorem step_ok (c : Step) {s : State} (h : session_ok s) : session_ok (c.apply s) := by
  cases c with
  | register c cb ud => exact register_ok c cb ud h
  | unregister c => exact unregister_ok c h
  | start p cb ud rc => exact start_ok p cb ud rc h
  | stop join => exact stop_ok join h
  | request_stop => exact session_ok_of_eq h rfl rfl rfl rfl
  | worker hd => exact worker_iter_session_ok hd h
  | worker_exit =>
    exact ⟨h.1, h.2.1, h.2.2.1, fun hrun => Bool.noConfusion hrun⟩

theorem run_steps_ok (steps : List Step) : ∀ s : State, session_ok s →
    session_ok (run_steps steps s) := by
  induction steps with
  | nil =>
    intro s h
    exact h
  | cons c cs ih =>
    intro s h
    exact ih _ (step_ok c h)

theorem init_ok (input : List Nat) : session_ok (init_state input) :=
  empty_registry_ok rfl (fun hrun => by simp [init_state] at hrun)

/-- The worker never writes the default callback, its context, the prompt or (inside
the loop) the running flag. -/
theorem worker_iter_session (h : Handlers) (s : State) :
    (worker_iter h s).2.ci_cb = s.ci_cb ∧ (worker_iter h s).2.ci_cb_data = s.ci_cb_data ∧
      (worker_iter h s).2.ci_prompt = s.ci_prompt ∧
      (worker_iter h s).2.ci_running = s.ci_running := by
  have hd : (dispatch h (after_read s (worker_read s))).ci_cb = s.ci_cb ∧
      (dispatch h (after_read s (worker_read s))).ci_cb_data = s.ci_cb_data ∧
      (dispatch h (after_read s (worker_read s))).ci_prompt = s.ci_prompt ∧
      (dispatch h (after_read s (worker_read s))).ci_running = s.ci_running := by
    rw [dispatch_eq_target]
    cases dispatch_target (after_read s (worker_read s)) with
    | none => exact ⟨rfl, rfl, rfl, rfl⟩
    | some p =>
      obtain ⟨t, n, hr⟩ := invoke_shape h p.1 (after_read s (worker_read s)).buffer p.2
        (after_read s (worker_read s))
      simp only
      rw [hr]
      exact ⟨rfl, rfl, rfl, rfl⟩
  unfold worker_iter
  simp only
  split
  · exact ⟨rfl, rfl, rfl, rfl⟩
  · split
    · exact ⟨rfl, rfl, rfl, rfl⟩
    · split
      · exact ⟨rfl, rfl, rfl, rfl⟩
      · split
        · exact hd
        · exact hd

theorem worker_loop_session (h : Handlers) (fuel : Nat) : ∀ s0 s : State,
    worker_loop h fuel s0 = some s →
      s.ci_cb = s0.ci_cb ∧ s.ci_cb_data = s0.ci_cb_data ∧ s.ci_prompt = s0.ci_prompt := by
  induction fuel with
  | zero =>
    intro s0 s hr
    simp [worker_loop] at hr
  | succ fuel ih =>
    intro s0 s hr
    rw [worker_loop] at hr
    by_cases hc : (s0.ci_running && !s0.ci_stop_requested) = true
    · rw [if_pos hc] at hr
      have hw := worker_iter_session h s0
      cases hi : worker_iter h s0 with
      | mk ctl s1 =>
        rw [hi] at hr hw
        simp only at hw
        cases ctl with
        | brk =>
          simp only [Option.some.injEq] at hr
          rw [← hr]
          exact ⟨hw.1, hw.2.1, hw.2.2.1⟩
        | cont =>
          simp only at hr
          obtain ⟨a, b, c⟩ := ih s1 s hr
          exact ⟨a.trans hw.1, b.trans hw.2.1, c.trans hw.2.2.1⟩
    · rw [if_neg hc] at hr
      simp only [Option.some.injEq] at hr
      rw [← hr]
      exact ⟨rfl, rfl, rfl⟩

/-! ## The engine claims -/

/-- C1, dispatch priority: let the worker read a line with status `CI_OK` (the empty line
included) in a state whose live entries all have a callback and whose default callback
is set. If the line equals the name in slot `i` and in no earlier slot (with distinct
names: if it equals the name in slot `i`), the iteration makes exactly one callback
invocation, that of the callback of slot `i` with the line and the context of slot `i`;
if the line equals no registered name, it makes exactly one invocation, that of the
default callback with the line and the default context. -/
theorem dispatch_priority (h : Handlers) (s : State)
    (hcbs : callbacks_set s) (hdef : s.ci_cb ≠ 0)
    (hok : (worker_read s).status = CI_OK) :
    (∀ i, i < s.ci_command_count →
      strcmp (worker_read s).buffer (s.ci_commands.read i).command = 0 →
      (∀ j, j < i → strcmp (worker_read s).buffer (s.ci_commands.read j).command ≠ 0) →
      (worker_iter h s).2.calls = s.calls ++
        [⟨(s.ci_commands.read i).cb, (worker_read s).buffer,
          (s.ci_commands.read i).user_data⟩]) ∧
    (registry_inv s → ∀ i, i < s.ci_command_count →
      strcmp (worker_read s).buffer (s.ci_commands.read i).command = 0 →
      (worker_iter h s).2.calls = s.calls ++
        [⟨(s.ci_commands.read i).cb, (worker_read s).buffer,
          (s.ci_commands.read i).user_data⟩]) ∧
    (¬ present (worker_read s).buffer s →
      (worker_iter h s).2.calls = s.calls ++
        [⟨s.ci_cb, (worker_read s).buffer, s.ci_cb_data⟩]) := by
  have hiter : (worker_iter h s).2 = dispatch h (after_read s (worker_read s)) := by
    rw [worker_iter_ok hok]
  have hfound : ∀ i, scan (worker_read s).buffer s = some i →
      (worker_iter h s).2.calls = s.calls ++
        [⟨(s.ci_commands.read i).cb, (worker_read s).buffer,
          (s.ci_commands.read i).user_data⟩] := by
    intro i hs
    have hs1 : scan (after_read s (worker_read s)).buffer (after_read s (worker_read s)) =
        some i := hs
    rw [hiter, dispatch_of_scan_some hs1 (hcbs i (scan_some hs).1), invoke_calls]
    rfl
  refine ⟨?_, ?_, ?_⟩
  · intro i hi hm hfirst
    apply hfound
    exact scan_from_first (Nat.zero_le _) (by omega) hm (fun j _ hj => hfirst j hj)
  · intro hinv i hi hm
    exact hfound i (scan_eq_of_match hinv hi hm)
  · intro hnp
    have hs1 : scan (after_read s (worker_read s)).buffer (after_read s (worker_read s)) =
        none := scan_none_iff.2 hnp
    rw [hiter, dispatch_of_scan_none hs1 hdef, invoke_calls]
    rfl

/-- C8, self-stop: let the worker loop, started in `s0`, stand at its test in state `s`
after `k` iterations, with the engine running and no stop requested, and let it read a
line with status `CI_OK` whose dispatched callback `cb` calls
`ci_request_stop_async_input`. Then `ci_async_thread` returns (for every bound from
`k + 1` iterations on), the input left is exactly what followed that line, the log holds
exactly one more invocation than in `s`, that of `cb` with the line, and the engine
reports not running. -/
theorem self_stop (h : Handlers) (s0 s : State) (k fuel cb ud : Nat)
    (hreach : loop_head_after h k s0 = some s)
    (hrun : s.ci_running = true) (hns : s.ci_stop_requested = false)
    (hok : (worker_read s).status = CI_OK)
    (htarget : dispatch_target (after_read s (worker_read s)) = some (cb, ud))
    (hstop : (h cb (worker_read s).buffer ud s.calls).stops
      (logged (after_read s (worker_read s)) ⟨cb, (worker_read s).buffer, ud⟩) = true) :
    ∃ sf, ci_async_thread h (k + (fuel + 1)) s0 = some sf ∧
      sf.stdin = (worker_read s).stream ∧
      sf.calls = s.calls ++ [⟨cb, (worker_read s).buffer, ud⟩] ∧
      ci_async_is_running sf = false ∧ sf.ci_stop_requested = false := by
  have hd : dispatch h (after_read s (worker_read s)) =
      invoke h cb (worker_read s).buffer ud (after_read s (worker_read s)) := by
    rw [dispatch_eq_target, htarget]
    rfl
  have hflag : (dispatch h (after_read s (worker_read s))).ci_stop_requested = true := by
    rw [hd, invoke_stop]
    have : (after_read s (worker_read s)).calls = s.calls := rfl
    rw [this, hstop]
    simp
  have hiter : worker_iter h s = (Ctl.brk, dispatch h (after_read s (worker_read s))) := by
    rw [worker_iter_ok hok, if_pos hflag]
  have hloop : worker_loop h (k + (fuel + 1)) s0 =
      some (dispatch h (after_read s (worker_read s))) := by
    rw [loop_head_after_loop h k (fuel + 1) s0 s hreach, worker_loop]
    have hc : (s.ci_running && !s.ci_stop_requested) = true := by
      rw [hrun, hns]
      rfl
    rw [if_pos hc, hiter]
  have hthread : ci_async_thread h (k + (fuel + 1)) s0 =
      some (thread_exit (dispatch h (after_read s (worker_read s)))) := by
    unfold ci_async_thread
    rw [hloop]
  refine ⟨_, hthread, ?_, ?_, rfl, rfl⟩
  · show (dispatch h (after_read s (worker_read s))).stdin = (worker_read s).stream
    rw [hd, invoke_stdin]
    rfl
  · show (dispatch h (after_read s (worker_read s))).calls =
      s.calls ++ [⟨cb, (worker_read s).buffer, ud⟩]
    rw [hd, invoke_calls]
    rfl

theorem demo_session_callbacks : callbacks_set (demo_session demo_input) := by
  unfold callbacks_set
  decide

theorem demo_session_callbacks_nl : callbacks_set (demo_session [NL]) := by
  unfold callbacks_set
  decide

/-- Witness of C1: the line `"ping"` goes to the callback of `"ping"` (7, context 70),
the empty line goes to the default callback (1, context 10). -/
theorem dispatch_priority_witness :
    (callbacks_set (demo_session demo_input) ∧ (demo_session demo_input).ci_cb ≠ 0 ∧
      (worker_read (demo_session demo_input)).status = CI_OK) ∧
    (worker_iter test_handlers (demo_session demo_input)).2.calls =
      [⟨7, [112, 105, 110, 103, 0], 70⟩] ∧
    (worker_iter test_handlers (demo_session [NL])).2.calls = [⟨1, [0], 10⟩] :=
  ⟨⟨demo_session_callbacks, by decide, by decide⟩,
    (dispatch_priority test_handlers (demo_session demo_input)
      demo_session_callbacks (by decide) (by decide)).1 0 (by decide)
        (by decide) (by decide),
    (dispatch_priority test_handlers (demo_session [NL])
      demo_session_callbacks_nl (by decide) (by decide)).2.2
        (by unfold present; decide)⟩

/-- Witness of C8: on the input `ping`, `q`, `other` the second line is dispatched to
the callback 9, which requests a stop; the thread returns with `other` unread. -/
theorem self_stop_witness :
    (loop_head_after test_handlers 1 (demo_session demo_input) =
        some (worker_iter test_handlers (demo_session demo_input)).2 ∧
      (worker_read (worker_iter test_handlers (demo_session demo_input)).2).status = CI_OK) ∧
    ∃ sf, ci_async_thread test_handlers (1 + (0 + 1)) (demo_session demo_input) = some sf ∧
      sf.stdin = ⟨other_line ++ [NL], false⟩ ∧
      sf.calls = [⟨7, [112, 105, 110, 103, 0], 70⟩] ++ [⟨9, [113, 0], 90⟩] ∧
      ci_async_is_running sf = false ∧ sf.ci_stop_requested = false :=
  ⟨⟨rfl, by decide⟩,
    self_stop test_handlers (demo_session demo_input)
      (worker_iter test_handlers (demo_session demo_input)).2 1 0 9 90
      rfl (by decide) (by decide) (by decide) (by decide) (by decide)⟩

/-- C7, registry invariant: in every state reached from the initial state by any sequence
of calls of `ci_register_command`, `ci_unregister_command`, `ci_start_async_input`,
`ci_stop_async_input` and `ci_request_stop_async_input` (any arguments, any result of
`pthread_create`, anything done by the worker until it is joined), of iterations of the
worker loop (any callbacks) and of exits of the worker, the table holds at most 32 live
entries and no two live entries have the same name. -/
theorem registry_invariant (input : List Nat) (steps : List Step) :
    (run_steps steps (init_state input)).ci_command_count ≤ CI_MAX_COMMANDS ∧
    ∀ i, i < (run_steps steps (init_state input)).ci_command_count →
      ∀ j, j < (run_steps steps (init_state input)).ci_command_count →
        strcmp ((run_steps steps (init_state input)).ci_commands.read i).command
          ((run_steps steps (init_state input)).ci_commands.read j).command = 0 → i = j :=
  (run_steps_ok steps (init_state input) (init_ok input)).1

/-- C9, start: `ci_start_async_input` returns `CI_INVALID` and leaves the whole state as
it was when the callback is `NULL` or the engine is already running; otherwise, when
`pthread_create` succeeds, it returns `CI_OK` and the state differs from the one before
only in that the registry is empty (no name is found any more), the stop-request flag is
false, the running flag is true and the given prompt, callback and context are stored. -/
theorem start_contract (prompt : Option (List Nat)) (callback user_data : Nat) (s : State) :
    (∀ rc, callback = 0 ∨ s.ci_running = true →
      ci_start_async_input prompt callback user_data rc s = (CI_INVALID, s)) ∧
    (callback ≠ 0 → s.ci_running = false →
      ci_start_async_input prompt callback user_data 0 s =
        (CI_OK, { s with ci_cb := callback, ci_cb_data := user_data, ci_prompt := prompt,
                         ci_command_count := 0, ci_stop_requested := false,
                         ci_running := true }) ∧
      (ci_start_async_input prompt callback user_data 0 s).2.ci_command_count = 0 ∧
      (∀ name, ci_lookup_command (some name)
        (ci_start_async_input prompt callback user_data 0 s).2 = none) ∧
      (ci_start_async_input prompt callback user_data 0 s).2.ci_stop_requested = false ∧
      (ci_start_async_input prompt callback user_data 0 s).2.ci_running = true ∧
      (ci_start_async_input prompt callback user_data 0 s).2.ci_prompt = prompt ∧
      (ci_start_async_input prompt callback user_data 0 s).2.ci_cb = callback ∧
      (ci_start_async_input prompt callback user_data 0 s).2.ci_cb_data = user_data) := by
  refine ⟨?_, ?_⟩
  · intro rc hbad
    unfold ci_start_async_input
    by_cases hcb : callback = 0
    · rw [if_pos hcb]
    · rw [if_neg hcb]
      rcases hbad with h0 | hr
      · exact absurd h0 hcb
      · rw [if_pos hr]
  · intro hcb hr
    have heq : ci_start_async_input prompt callback user_data 0 s =
        (CI_OK, { s with ci_cb := callback, ci_cb_data := user_data, ci_prompt := prompt,
                         ci_command_count := 0, ci_stop_requested := false,
                         ci_running := true }) := by
      unfold ci_start_async_input
      rw [if_neg hcb, hr]
      simp
    refine ⟨heq, ?_, ?_, ?_, ?_, ?_, ?_, ?_⟩
    · rw [heq]
    · intro name
      rw [heq]
      rfl
    · rw [heq]
    · rw [heq]
    · rw [heq]
    · rw [heq]
    · rw [heq]

/-- Witness of C9: a second start of a running session is refused without change; a
start after a registration empties the registry. -/
theorem start_contract_witness :
    ci_start_async_input none 3 30 0 (demo_session demo_input) =
      (CI_INVALID, demo_session demo_input) ∧
    ci_start_async_input none 0 30 0 demo_two = (CI_INVALID, demo_two) ∧
    (ci_start_async_input (some ping) 3 30 0 demo_two).1 = CI_OK ∧
    ci_lookup_command (some ping) (ci_start_async_input (some ping) 3 30 0 demo_two).2 = none ∧
    (ci_start_async_input (some ping) 3 30 0 demo_two).2.ci_running = true :=
  ⟨(start_contract none 3 30 (demo_session demo_input)).1 0 (Or.inr (by decide)),
    (start_contract none 0 30 demo_two).1 0 (Or.inl rfl),
    congrArg Prod.fst ((start_contract (some ping) 3 30 demo_two).2 (by decide) (by decide)).1,
    ((start_contract (some ping) 3 30 demo_two).2 (by decide) (by decide)).2.2.1 ping,
    ((start_contract (some ping) 3 30 demo_two).2 (by decide) (by decide)).2.2.2.2.1⟩

/-- Counterexample to C10: a session with default callback 1 (context 10), an empty
prompt and the commands `"ping"` and `"q"`. The worker exits on its own, once through the
self-requested stop of the callback of `"q"` and once at the end of an empty input; the
call of `ci_stop_async_input` that follows leaves the default callback, its context, the
prompt and the two registry entries in place. When `ci_request_stop_async_input` is
called between the exit of the worker and `ci_stop_async_input`, as in
`test_async_default_receives`, the stop-request flag is true after the stop as well. -/
theorem stop_after_worker_exit_keeps_session :
    (ci_async_thread test_handlers 1 (demo_session (quit ++ [NL]))).map
      (fun s => ((ci_stop_async_input id s).ci_running, (ci_stop_async_input id s).ci_cb,
        (ci_stop_async_input id s).ci_cb_data, (ci_stop_async_input id s).ci_prompt,
        (ci_stop_async_input id s).ci_command_count, (ci_stop_async_input id s).calls)) =
      some (false, 1, 10, some [], 2, [⟨9, [113, 0], 90⟩]) ∧
    (ci_async_thread test_handlers 1 (demo_session [])).map
      (fun s => ((ci_stop_async_input id s).ci_running, (ci_stop_async_input id s).ci_cb,
        (ci_stop_async_input id s).ci_cb_data, (ci_stop_async_input id s).ci_prompt,
        (ci_stop_async_input id s).ci_command_count, (ci_stop_async_input id s).calls)) =
      some (false, 1, 10, some [], 2, []) ∧
    (ci_async_thread test_handlers 1 (demo_session [])).map
      (fun s => ((ci_stop_async_input id (ci_request_stop_async_input s)).ci_running,
        (ci_stop_async_input id (ci_request_stop_async_input s)).ci_stop_requested,
        (ci_stop_async_input id (ci_request_stop_async_input s)).ci_cb,
        (ci_stop_async_input id (ci_request_stop_async_input s)).ci_command_count)) =
      some (false, true, 1, 2) :=
  ⟨rfl, rfl, rfl⟩

/-- C10 as amended, stop. (1) When the running flag is set at the time of the call,
`ci_stop_async_input` leaves the session cleared (not running, no stop request, no
default callback, context or prompt, empty registry), whatever the worker does until it
is joined. (2) When the running flag is clear at the time of the call, the call changes
nothing at all: the engine reports not running, and the stop-request flag, the default
callback, its context, the prompt and the registry stay as they were. (3) The worker that
exits on its own leaves the running flag and the stop-request flag false and the default
callback, its context and the prompt as they were, so that a stop that follows at once
is such a call without effect. (4) When `ci_request_stop_async_input` is called after the
exit of the worker, the stop that follows leaves the stop-request flag true. -/
theorem stop_contract :
    (∀ (join : State → State) (s : State), s.ci_running = true →
      session_cleared (ci_stop_async_input join s)) ∧
    (∀ (join : State → State) (s : State), s.ci_running = false →
      ci_stop_async_input join s = s ∧
        ci_async_is_running (ci_stop_async_input join s) = false) ∧
    (∀ (h : Handlers) (fuel : Nat) (s0 s : State) (join : State → State),
      ci_async_thread h fuel s0 = some s →
      ci_stop_async_input join s = s ∧ ci_async_is_running s = false ∧
        s.ci_stop_requested = false ∧ s.ci_cb = s0.ci_cb ∧ s.ci_cb_data = s0.ci_cb_data ∧
        s.ci_prompt = s0.ci_prompt) ∧
    (∀ (h : Handlers) (fuel : Nat) (s0 s : State) (join : State → State),
      ci_async_thread h fuel s0 = some s →
      ci_stop_async_input join (ci_request_stop_async_input s) =
          ci_request_stop_async_input s ∧
        ci_async_is_running (ci_stop_async_input join (ci_request_stop_async_input s)) =
          false ∧
        (ci_stop_async_input join (ci_request_stop_async_input s)).ci_stop_requested =
          true) := by
  have hnoop : ∀ (join : State → State) (s : State), s.ci_running = false →
      ci_stop_async_input join s = s := by
    intro join s hr
    unfold ci_stop_async_input
    rw [hr]
    rfl
  have hexit : ∀ (h : Handlers) (fuel : Nat) (s0 s : State),
      ci_async_thread h fuel s0 = some s →
      s.ci_running = false ∧ s.ci_stop_requested = false ∧ s.ci_cb = s0.ci_cb ∧
        s.ci_cb_data = s0.ci_cb_data ∧ s.ci_prompt = s0.ci_prompt := by
    intro h fuel s0 s hs
    unfold ci_async_thread at hs
    cases hl : worker_loop h fuel s0 with
    | none =>
      rw [hl] at hs
      simp at hs
    | some s1 =>
      rw [hl] at hs
      simp only [Option.some.injEq] at hs
      obtain ⟨a, b, c⟩ := worker_loop_session h fuel s0 s1 hl
      rw [← hs]
      exact ⟨rfl, rfl, a, b, c⟩
  refine ⟨?_, ?_, ?_, ?_⟩
  · intro join s hr
    unfold ci_stop_async_input
    rw [hr]
    exact ⟨rfl, rfl, rfl, rfl, rfl, rfl⟩
  · intro join s hr
    refine ⟨hnoop join s hr, ?_⟩
    rw [hnoop join s hr]
    exact hr
  · intro h fuel s0 s join hs
    obtain ⟨h1, h2, h3, h4, h5⟩ := hexit h fuel s0 s hs
    exact ⟨hnoop join s h1, h1, h2, h3, h4, h5⟩
  · intro h fuel s0 s join hs
    obtain ⟨h1, _⟩ := hexit h fuel s0 s hs
    have hr : (ci_request_stop_async_input s).ci_running = false := h1
    rw [hnoop join _ hr]
    exact ⟨rfl, hr, rfl⟩

/-- Witness of C10 as amended: a stop of the running session clears it; after the worker
has exited through the self-requested stop, a stop changes nothing; a stop of the
session that was never started changes nothing either. -/
theorem stop_contract_witness :
    session_cleared (ci_stop_async_input id (demo_session demo_input)) ∧
    ci_stop_async_input id demo_two = demo_two ∧
    ∃ s, ci_async_thread test_handlers 1 (demo_session (quit ++ [NL])) = some s ∧
      ci_stop_async_input id s = s ∧ s.ci_cb = 1 ∧
      (ci_stop_async_input id (ci_request_stop_async_input s)).ci_stop_requested = true :=
  ⟨stop_contract.1 id (demo_session demo_input) (by decide),
    (stop_contract.2.1 id demo_two (by decide)).1,
    _, rfl,
    (stop_contract.2.2.1 test_handlers 1 (demo_session (quit ++ [NL])) _ id rfl).1,
    (stop_contract.2.2.1 test_handlers 1 (demo_session (quit ++ [NL])) _ id rfl).2.2.2.1,
    (stop_contract.2.2.2 test_handlers 1 (demo_session (quit ++ [NL])) _ id rfl).2.2⟩

/-! ## The numeric scenarios of tests/test_sync.c, run on the embedding -/

/-- The scenario of `test_read_int_valid`: the line `42`. -/
theorem test_read_int_valid :
    (ci_read_int (some (bytes "num: ")) 1 0 0 ⟨bytes "42\n", false⟩ []).map
      (fun r => (r.status, r.value)) = some (CI_OK, some 42) := by
  decide

/-- The scenario of `test_read_int_invalid_then_valid`: the lines `abc` and `5`. -/
theorem test_read_int_invalid_then_valid :
    (ci_read_int (some (bytes "num: ")) 2 0 0 ⟨bytes "abc\n5\n", false⟩ []).map
      (fun r => (r.status, r.value)) = some (CI_OK, some 5) := by
  decide

/-- The scenario of `test_read_int_overflow`: the line `999999999999999`. -/
theorem test_read_int_overflow :
    (ci_read_int (some (bytes "num: ")) 1 0 0 ⟨bytes "999999999999999\n", false⟩ []).map
      (fun r => (r.status, r.value)) = some (CI_OVERFLOW, some 0) := by
  decide

/-- The scenario of `test_read_long_valid`: the line `123456`. -/
theorem test_read_long_valid :
    (ci_read_long (some (bytes "num: ")) 1 (some 0) ⟨bytes "123456\n", false⟩ []).map
      (fun r => (r.status, r.value)) = some (CI_OK, some 123456) := by
  decide

/-! ## Lemmas on the line reader -/

theorem int_of_size_eq {size : Nat} (h : size < 2 ^ 31) : int_of_size size = (size : Int) := by
  unfold int_of_size
  have h1 : size % 2 ^ 32 = size := Nat.mod_eq_of_lt (by omega)
  rw [h1, if_pos h]

theorem fgets_scan_line (l rest : List Nat) (hl : newline_free l) :
    ∀ k, l.length < k → fgets_scan k (l ++ NL :: rest) = (l ++ [NL], rest) := by
  induction l with
  | nil =>
    intro k hk
    cases k with
    | zero => simp at hk
    | succ k => simp [fgets_scan]
  | cons c cs ih =>
    intro k hk
    cases k with
    | zero => simp at hk
    | succ k =>
      have hc : c ≠ NL := hl c (List.mem_cons_self _ _)
      have hcs : newline_free cs := fun x hx => hl x (List.mem_cons_of_mem _ hx)
      have := ih hcs k (by simpa using hk)
      simp [fgets_scan, hc, this]

theorem fgets_scan_full (p rest : List Nat) (hp : newline_free p) :
    fgets_scan p.length (p ++ rest) = (p, rest) := by
  induction p with
  | nil => simp [fgets_scan]
  | cons c cs ih =>
    have hc : c ≠ NL := hp c (List.mem_cons_self _ _)
    have hcs : newline_free cs := fun x hx => hp x (List.mem_cons_of_mem _ hx)
    simp [fgets_scan, hc, ih hcs]

theorem fgets_scan_end (l : List Nat) (hl : newline_free l) :
    ∀ k, l.length ≤ k → fgets_scan k l = (l, []) := by
  induction l with
  | nil =>
    intro k _
    cases k <;> simp [fgets_scan]
  | cons c cs ih =>
    intro k hk
    cases k with
    | zero => simp at hk
    | succ k =>
      have hc : c ≠ NL := hl c (List.mem_cons_self _ _)
      have hcs : newline_free cs := fun x hx => hl x (List.mem_cons_of_mem _ hx)
      simp [fgets_scan, hc, ih hcs k (by simpa using hk)]

theorem fgets_eq {size : Nat} (h2 : 2 ≤ size) (hmax : size < 2 ^ 31) (c : Nat)
    (cs : List Nat) :
    fgets (int_of_size size) ⟨c :: cs, false⟩ =
      (some (fgets_scan (size - 1) (c :: cs)).1,
        ⟨(fgets_scan (size - 1) (c :: cs)).2,
          decide ((fgets_scan (size - 1) (c :: cs)).1.length < size - 1) &&
            (fgets_scan (size - 1) (c :: cs)).1.getLast? != some NL⟩) := by
  rw [int_of_size_eq hmax]
  unfold fgets
  have h1 : ¬ (size : Int) ≤ 0 := by omega
  have h3 : ¬ (size : Int) = 1 := by omega
  simp only [if_neg h1, if_neg h3, Int.toNat_ofNat, Bool.false_eq_true, if_false,
    Bool.false_or]

/-- With the end-of-file indicator set `fgets` fails at once, whatever bytes are left. -/
theorem fgets_at_eof {size : Nat} (h2 : 2 ≤ size) (hmax : size < 2 ^ 31) (d : List Nat) :
    fgets (int_of_size size) ⟨d, true⟩ = (none, ⟨d, true⟩) := by
  rw [int_of_size_eq hmax]
  unfold fgets
  have h1 : ¬ (size : Int) ≤ 0 := by omega
  have h3 : ¬ (size : Int) = 1 := by omega
  simp only [if_neg h1, if_neg h3, if_true]

theorem fgets_empty {size : Nat} (h2 : 2 ≤ size) (hmax : size < 2 ^ 31) (e : Bool) :
    fgets (int_of_size size) ⟨[], e⟩ = (none, ⟨[], true⟩) := by
  cases e with
  | true => exact fgets_at_eof h2 hmax []
  | false =>
    rw [int_of_size_eq hmax]
    unfold fgets
    have h1 : ¬ (size : Int) ≤ 0 := by omega
    have h3 : ¬ (size : Int) = 1 := by omega
    simp only [if_neg h1, if_neg h3, Bool.false_eq_true, if_false]

theorem strlen_le_length (a : List Nat) : strlen a ≤ a.length := by
  induction a with
  | nil => simp [strlen]
  | cons x xs ih =>
    by_cases hx : x = 0
    · simp [strlen, hx]
    · simp [strlen, hx, ih]

theorem cstr_append_nul_free {a : List Nat} (b : List Nat) (ha : nul_free a) :
    cstr (a ++ b) = a ++ cstr b := by
  unfold cstr
  apply List.takeWhile_append_of_pos
  intro c hc
  simpa using ha c hc

theorem cstr_nul_free {a : List Nat} (ha : nul_free a) : cstr a = a := by
  have := cstr_append_nul_free [] ha
  simpa [cstr] using this

theorem strlen_append_nul_free {a : List Nat} (b : List Nat) (ha : nul_free a) :
    strlen (a ++ b) = a.length + strlen b := by
  rw [strlen_eq_length_cstr, cstr_append_nul_free b ha, List.length_append,
    ← strlen_eq_length_cstr]

theorem strlen_nul_free {a : List Nat} (ha : nul_free a) : strlen a = a.length := by
  rw [strlen_eq_length_cstr, cstr_nul_free ha]

theorem nul_free_or_short (a : List Nat) : nul_free a ∨ strlen a < a.length := by
  induction a with
  | nil =>
    left
    intro c hc
    cases hc
  | cons x xs ih =>
    by_cases hx : x = 0
    · right
      simp [strlen, hx]
    · rcases ih with h | h
      · left
        intro c hc
        rcases List.mem_cons.1 hc with rfl | hc
        · exact hx
        · exact h c hc
      · right
        simp [strlen, hx]
        exact h

theorem cstr_append_of_short {a : List Nat} (b : List Nat) (h : strlen a < a.length) :
    cstr (a ++ b) = cstr a := by
  induction a with
  | nil => simp [strlen] at h
  | cons x xs ih =>
    by_cases hx : x = 0
    · simp [cstr, hx]
    · have h2 : strlen xs < xs.length := by
        simp [strlen, hx] at h
        exact h
      have := ih h2
      simp only [cstr] at this
      simp [cstr, hx, this]

theorem strlen_append_of_short {a : List Nat} (b : List Nat) (h : strlen a < a.length) :
    strlen (a ++ b) = strlen a := by
  rw [strlen_eq_length_cstr, cstr_append_of_short b h, ← strlen_eq_length_cstr]

theorem getD_mem {a : List Nat} {i : Nat} (h : i < a.length) (d : Nat) : a.getD i d ∈ a := by
  rw [List.getD_eq_getElem _ _ h]
  exact List.getElem_mem h

theorem fgets_line {size : Nat} (hmax : size < 2 ^ 31) (l rest : List Nat)
    (hl : newline_free l) (hfit : l.length + 2 ≤ size) :
    fgets (int_of_size size) ⟨l ++ NL :: rest, false⟩ = (some (l ++ [NL]), ⟨rest, false⟩) := by
  have hscan := fgets_scan_line l rest hl (size - 1) (by omega)
  have hne : ∃ c cs, l ++ NL :: rest = c :: cs := by
    cases l with
    | nil => exact ⟨NL, rest, rfl⟩
    | cons c cs => exact ⟨c, cs ++ NL :: rest, rfl⟩
  obtain ⟨c, cs, hc⟩ := hne
  rw [hc] at hscan ⊢
  rw [fgets_eq (by omega) hmax, hscan]
  simp

theorem fgets_full {size : Nat} (h2 : 2 ≤ size) (hmax : size < 2 ^ 31) (p tail : List Nat)
    (hp : newline_free p) (hlen : p.length + 1 = size) :
    fgets (int_of_size size) ⟨p ++ tail, false⟩ = (some p, ⟨tail, false⟩) := by
  have hscan := fgets_scan_full p tail hp
  have hk : p.length = size - 1 := by omega
  rw [hk] at hscan
  cases p with
  | nil => simp at hlen; omega
  | cons c cs =>
    rw [List.cons_append] at hscan ⊢
    rw [fgets_eq h2 hmax, hscan]
    simp
    intro h
    simp at hk
    omega

theorem fgets_end {size : Nat} (hmax : size < 2 ^ 31) (l : List Nat)
    (hne : l ≠ []) (hl : newline_free l) (hfit : l.length + 2 ≤ size) :
    fgets (int_of_size size) ⟨l, false⟩ = (some l, ⟨[], true⟩) := by
  have hscan := fgets_scan_end l hl (size - 1) (by omega)
  cases l with
  | nil => exact absurd rfl hne
  | cons c cs =>
    rw [fgets_eq (by omega) hmax, hscan]
    have hlast : (c :: cs).getLast? ≠ some NL := by
      intro h
      have hm : NL ∈ c :: cs := List.mem_of_getLast?_eq_some h
      exact hl NL hm rfl
    have hlt : (c :: cs).length < size - 1 := by omega
    have hb : (decide ((c :: cs).length < size - 1) && (c :: cs).getLast? != some NL) = true := by
      simp only [Bool.and_eq_true, decide_eq_true_eq, bne_iff_ne, ne_eq]
      exact ⟨hlt, hlast⟩
    simp only [hb, Bool.or_true]

theorem read_internal_of_fgets {size : Nat} (h0 : size ≠ 0) (stream : FILE)
    (prompt : Option (List Nat)) (buf out raw : List Nat) (stream1 : FILE)
    (hf : fgets (int_of_size size) stream = (some raw, stream1)) :
    ci_read_line_internal stream prompt (some buf) size out =
      if strlen raw > 0 ∧ raw.getD (strlen raw - 1) 0 = NL then
        ⟨CI_OK, stream1, raw.set (strlen raw - 1) 0, after_prompt prompt out⟩
      else if strlen raw + 1 = size then
        ⟨CI_OVERFLOW, drain_line stream1, raw, after_prompt prompt out⟩
      else ⟨CI_OK, stream1, raw, after_prompt prompt out⟩ := by
  unfold ci_read_line_internal after_prompt
  simp only [if_neg h0, hf]

theorem read_internal_of_null {size : Nat} (h0 : size ≠ 0) (stream : FILE)
    (prompt : Option (List Nat)) (buf out : List Nat) (stream1 : FILE)
    (hf : fgets (int_of_size size) stream = (none, stream1)) :
    ci_read_line_internal stream prompt (some buf) size out =
      ⟨if stream1.eof then CI_EOF else CI_INVALID, stream1, buf, after_prompt prompt out⟩ := by
  unfold ci_read_line_internal after_prompt
  simp only [if_neg h0, hf]

/-- What the reader does with a raw line that holds no newline and is shorter than the
buffer allows: the line is accepted as it is. -/
theorem read_raw_ok {size : Nat} (raw : List Nat) (hraw : newline_free raw)
    (hfit : raw.length + 1 < size) :
    ¬ (strlen raw > 0 ∧ raw.getD (strlen raw - 1) 0 = NL) ∧ ¬ strlen raw + 1 = size := by
  have hle := strlen_le_length raw
  refine ⟨?_, by omega⟩
  rintro ⟨hpos, hnl⟩
  have hmem : raw.getD (strlen raw - 1) 0 ∈ raw := getD_mem (by omega) 0
  exact hraw _ hmem hnl

/-- A terminated line that fits: `CI_OK`, the stream stands behind the terminator and the
buffer holds the line (up to its first NUL, if it has one). -/
theorem read_short_line {size : Nat} (hmax : size < 2 ^ 31) (l rest : List Nat)
    (prompt : Option (List Nat)) (buf out : List Nat)
    (hl : newline_free l) (hfit : l.length + 2 ≤ size) :
    (ci_read_line_internal ⟨l ++ NL :: rest, false⟩ prompt (some buf) size out).status = CI_OK ∧
    (ci_read_line_internal ⟨l ++ NL :: rest, false⟩ prompt (some buf) size out).stream =
      ⟨rest, false⟩ ∧
    cstr (ci_read_line_internal ⟨l ++ NL :: rest, false⟩ prompt (some buf) size out).buffer =
      cstr l ∧
    (ci_read_line_internal ⟨l ++ NL :: rest, false⟩ prompt (some buf) size out).stdout =
      after_prompt prompt out := by
  rw [read_internal_of_fgets (by omega) _ prompt buf out _ _ (fgets_line hmax l rest hl hfit)]
  rcases nul_free_or_short l with hnf | hshort
  · have hlen : strlen (l ++ [NL]) = l.length + 1 := by
      rw [strlen_append_nul_free _ hnf]
      simp [strlen, NL]
    have hget : (l ++ [NL]).getD (strlen (l ++ [NL]) - 1) 0 = NL := by
      rw [hlen]
      simp [List.getD_eq_getElem?_getD]
    rw [if_pos ⟨by omega, hget⟩]
    refine ⟨rfl, rfl, ?_, rfl⟩
    simp only
    rw [hlen]
    have hset : (l ++ [NL]).set (l.length + 1 - 1) 0 = l ++ [0] := by
      simp [List.set_append]
    rw [hset, cstr_append_nul_free _ hnf, cstr_nul_free hnf]
    simp [cstr]
  · have hlen : strlen (l ++ [NL]) = strlen l := strlen_append_of_short _ hshort
    have hc1 : ¬ (strlen (l ++ [NL]) > 0 ∧
        (l ++ [NL]).getD (strlen (l ++ [NL]) - 1) 0 = NL) := by
      rw [hlen]
      rintro ⟨hpos, hnl⟩
      have hlt : strlen l - 1 < l.length := by omega
      rw [List.getD_eq_getElem _ _ (by simp; omega), List.getElem_append_left hlt] at hnl
      exact hl _ (List.getElem_mem hlt) hnl
    have hc2 : ¬ strlen (l ++ [NL]) + 1 = size := by
      rw [hlen]
      omega
    rw [if_neg hc1, if_neg hc2]
    exact ⟨rfl, rfl, cstr_append_of_short _ hshort, rfl⟩

/-- A final line without terminator that fits: `CI_OK`, the stream is at its end. -/
theorem read_short_end {size : Nat} (hmax : size < 2 ^ 31) (l : List Nat)
    (prompt : Option (List Nat)) (buf out : List Nat)
    (hne : l ≠ []) (hl : newline_free l) (hfit : l.length + 2 ≤ size) :
    ci_read_line_internal ⟨l, false⟩ prompt (some buf) size out =
      ⟨CI_OK, ⟨[], true⟩, l, after_prompt prompt out⟩ := by
  rw [read_internal_of_fgets (by omega) _ prompt buf out _ _ (fgets_end hmax l hne hl hfit)]
  obtain ⟨hc1, hc2⟩ := @read_raw_ok size l hl (by omega)
  rw [if_neg hc1, if_neg hc2]

theorem discard_line_eq (m rest : List Nat) (hm : newline_free m) :
    discard_line (m ++ NL :: rest) = (rest, false) := by
  induction m with
  | nil => simp [discard_line]
  | cons c cs ih =>
    have hc : c ≠ NL := hm c (List.mem_cons_self _ _)
    have hcs : newline_free cs := fun x hx => hm x (List.mem_cons_of_mem _ hx)
    simp [discard_line, hc, ih hcs]

theorem discard_line_end (m : List Nat) (hm : newline_free m) :
    discard_line m = ([], true) := by
  induction m with
  | nil => simp [discard_line]
  | cons c cs ih =>
    have hc : c ≠ NL := hm c (List.mem_cons_self _ _)
    have hcs : newline_free cs := fun x hx => hm x (List.mem_cons_of_mem _ hx)
    simp [discard_line, hc, ih hcs]

/-- A line whose first `size - 1` characters hold neither a newline nor a NUL: the reader
keeps them, discards the rest of the line and returns `CI_OVERFLOW`. -/
theorem read_long_line {size : Nat} (h2 : 2 ≤ size) (hmax : size < 2 ^ 31)
    (p tail : List Nat) (prompt : Option (List Nat)) (buf out : List Nat)
    (hp : newline_free p) (hnf : nul_free p) (hlen : p.length + 1 = size) :
    ci_read_line_internal ⟨p ++ tail, false⟩ prompt (some buf) size out =
      ⟨CI_OVERFLOW, ⟨(discard_line tail).1, (discard_line tail).2⟩, p,
        after_prompt prompt out⟩ := by
  rw [read_internal_of_fgets (by omega) _ prompt buf out _ _
    (fgets_full h2 hmax p tail hp hlen)]
  have hs : strlen p = p.length := strlen_nul_free hnf
  have hc1 : ¬ (strlen p > 0 ∧ p.getD (strlen p - 1) 0 = NL) := by
    rintro ⟨hpos, hnl⟩
    exact hp _ (getD_mem (by omega) 0) hnl
  rw [if_neg hc1, if_pos (by omega)]
  rfl

/-- With the end-of-file indicator set the reader returns `CI_EOF` and reads nothing,
whatever bytes are left. -/
theorem read_at_eof {size : Nat} (h2 : 2 ≤ size) (hmax : size < 2 ^ 31) (d : List Nat)
    (prompt : Option (List Nat)) (buf out : List Nat) :
    ci_read_line_internal ⟨d, true⟩ prompt (some buf) size out =
      ⟨CI_EOF, ⟨d, true⟩, buf, after_prompt prompt out⟩ := by
  rw [read_internal_of_null (by omega) _ prompt buf out _ (fgets_at_eof h2 hmax d)]
  rfl

/-- At the end of the input the reader returns `CI_EOF`. -/
theorem read_at_end {size : Nat} (h2 : 2 ≤ size) (hmax : size < 2 ^ 31) (e : Bool)
    (prompt : Option (List Nat)) (buf out : List Nat) :
    ci_read_line_internal ⟨[], e⟩ prompt (some buf) size out =
      ⟨CI_EOF, ⟨[], true⟩, buf, after_prompt prompt out⟩ := by
  rw [read_internal_of_null (by omega) _ prompt buf out _ (fgets_empty h2 hmax e)]
  rfl

/-! ## The line-reader claims -/

/-- Counterexample to C12: with a capacity of 6 the line `hello` has 5 characters, fewer
than the capacity, and is followed by a newline, yet `ci_read_line` returns `CI_OVERFLOW`;
with the capacity 8 and the end-of-file indicator of the stream set, the line `hi` is
not read: the result is `CI_EOF` and the buffer and the stream are as they were; and
with the capacity `2 ^ 31`, which `(int)size` turns into a negative count, the line `hi`
gives `CI_INVALID`. -/
theorem read_line_fits_boundary :
    (ci_read_line ⟨bytes "hello\n", false⟩ (some []) 6 []).status = CI_OVERFLOW ∧
    ci_read_line ⟨bytes "hi\n", true⟩ (some [120]) 8 [] =
      ⟨CI_EOF, ⟨bytes "hi\n", true⟩, [120], []⟩ ∧
    (ci_read_line ⟨bytes "hi\n", false⟩ (some []) (2 ^ 31) []).status = CI_INVALID := by
  decide

/-- C12 as amended, a line that fits: for every capacity up to `INT_MAX` and every stream
whose end-of-file indicator is clear and whose first line has `n` characters, none of
them a newline or NUL, followed by a newline, with `n + 2` at most the capacity,
`ci_read_line` returns `CI_OK`, the buffer holds exactly those `n` characters, and the
stream stands behind the newline. With the indicator set the same call returns `CI_EOF`
and leaves the buffer and the stream as they were. -/
theorem read_line_fits (size : Nat) (l rest : List Nat) (buf out : List Nat)
    (hmax : size < 2 ^ 31) (hl : newline_free l) (hnf : nul_free l)
    (hfit : l.length + 2 ≤ size) :
    ((ci_read_line ⟨l ++ NL :: rest, false⟩ (some buf) size out).status = CI_OK ∧
      cstr (ci_read_line ⟨l ++ NL :: rest, false⟩ (some buf) size out).buffer = l ∧
      (ci_read_line ⟨l ++ NL :: rest, false⟩ (some buf) size out).stream = ⟨rest, false⟩) ∧
    ci_read_line ⟨l ++ NL :: rest, true⟩ (some buf) size out =
      ⟨CI_EOF, ⟨l ++ NL :: rest, true⟩, buf, out⟩ := by
  obtain ⟨h1, h2, h3, _⟩ := read_short_line hmax l rest none buf out hl hfit
  refine ⟨⟨h1, ?_, h2⟩, ?_⟩
  · unfold ci_read_line
    rw [h3, cstr_nul_free hnf]
  · unfold ci_read_line
    rw [read_at_eof (by omega) hmax]
    rfl

theorem bytes_hello_newline_free : newline_free (bytes "hello") := by
  unfold newline_free
  decide

theorem bytes_hello_nul_free : nul_free (bytes "hello") := by
  unfold nul_free
  decide

/-- Witness of C12 as amended: the line `hello` and a capacity of 7. -/
theorem read_line_fits_witness :
    ((7 : Nat) < 2 ^ 31 ∧ newline_free (bytes "hello") ∧ nul_free (bytes "hello") ∧
      (bytes "hello").length + 2 ≤ 7) ∧
    (ci_read_line ⟨bytes "hello" ++ NL :: bytes "rest", false⟩ (some []) 7 []).status = CI_OK ∧
    cstr (ci_read_line ⟨bytes "hello" ++ NL :: bytes "rest", false⟩ (some []) 7 []).buffer =
      bytes "hello" ∧
    (ci_read_line ⟨bytes "hello" ++ NL :: bytes "rest", false⟩ (some []) 7 []).stream =
      ⟨bytes "rest", false⟩ :=
  ⟨⟨by decide, bytes_hello_newline_free, bytes_hello_nul_free, by decide⟩,
    (read_line_fits 7 (bytes "hello") (bytes "rest") [] [] (by decide)
      bytes_hello_newline_free bytes_hello_nul_free (by decide)).1⟩

/-- Counterexample to C13: with a capacity of 4 the first line `a`, NUL, `bbbb` has six
characters before its newline, yet `ci_read_line` returns `CI_OK` with the buffer
holding `a`, and the rest of the line stays in the stream; with the capacity 4 and the
end-of-file indicator of the stream set, the line `abcdef` gives `CI_EOF` and nothing is
read; and with the capacity `2 ^ 32 + 2`, which `(int)size` turns into 2, the line
`abcdef` gives `CI_OK` with the buffer holding `a`. -/
theorem read_line_overflow_nul :
    (ci_read_line ⟨[97, 0, 98, 98, 98, 98, NL], false⟩ (some []) 4 []).status = CI_OK ∧
    ci_read_line ⟨bytes "abcdef\n", true⟩ (some [120]) 4 [] =
      ⟨CI_EOF, ⟨bytes "abcdef\n", true⟩, [120], []⟩ ∧
    cstr (ci_read_line ⟨[97, 0, 98, 98, 98, 98, NL], false⟩ (some []) 4 []).buffer = [97] ∧
    (ci_read_line ⟨[97, 0, 98, 98, 98, 98, NL], false⟩ (some []) 4 []).stream =
      ⟨[98, 98, 98, NL], false⟩ ∧
    (ci_read_line ⟨bytes "abcdef\n", false⟩ (some []) (2 ^ 32 + 2) []).status = CI_OK ∧
    cstr (ci_read_line ⟨bytes "abcdef\n", false⟩ (some []) (2 ^ 32 + 2) []).buffer = [97] := by
  decide

/-- C13 as amended, a line that does not fit: for every capacity from 2 to `INT_MAX` and
every stream whose end-of-file indicator is clear and whose first line starts with
`capacity - 1` characters that are neither a newline nor NUL (`p`) and goes on (`m`) up
to its newline, `ci_read_line` returns `CI_OVERFLOW`, the buffer holds exactly `p`, and
the stream stands behind the newline of that line; the next `ci_read_line` then returns
`CI_OK` with the following line, when that line fits, be it terminated or a final line
without newline. With the indicator set the first call returns `CI_EOF` and leaves the
buffer and the stream as they were. -/
theorem read_line_overflow (size : Nat) (p m rest : List Nat) (buf out : List Nat)
    (h2 : 2 ≤ size) (hmax : size < 2 ^ 31) (hp : newline_free p) (hnf : nul_free p)
    (hlen : p.length + 1 = size) (hm : newline_free m) :
    ci_read_line ⟨p ++ m ++ NL :: rest, false⟩ (some buf) size out =
      ⟨CI_OVERFLOW, ⟨rest, false⟩, p, out⟩ ∧
    (∀ (size2 : Nat) (l2 rest2 buf2 out2 : List Nat), size2 < 2 ^ 31 → newline_free l2 →
      nul_free l2 → l2.length + 2 ≤ size2 → rest = l2 ++ NL :: rest2 →
      (ci_read_line (ci_read_line ⟨p ++ m ++ NL :: rest, false⟩ (some buf) size out).stream
        (some buf2) size2 out2).status = CI_OK ∧
      cstr (ci_read_line (ci_read_line ⟨p ++ m ++ NL :: rest, false⟩ (some buf) size out).stream
        (some buf2) size2 out2).buffer = l2 ∧
      (ci_read_line (ci_read_line ⟨p ++ m ++ NL :: rest, false⟩ (some buf) size out).stream
        (some buf2) size2 out2).stream = ⟨rest2, false⟩) ∧
    (∀ (size2 : Nat) (buf2 out2 : List Nat), size2 < 2 ^ 31 → rest ≠ [] → newline_free rest →
      nul_free rest → rest.length + 2 ≤ size2 →
      ci_read_line (ci_read_line ⟨p ++ m ++ NL :: rest, false⟩ (some buf) size out).stream
        (some buf2) size2 out2 = ⟨CI_OK, ⟨[], true⟩, rest, out2⟩) ∧
    ci_read_line ⟨p ++ m ++ NL :: rest, true⟩ (some buf) size out =
      ⟨CI_EOF, ⟨p ++ m ++ NL :: rest, true⟩, buf, out⟩ := by
  have hfirst : ci_read_line ⟨p ++ m ++ NL :: rest, false⟩ (some buf) size out =
      ⟨CI_OVERFLOW, ⟨rest, false⟩, p, out⟩ := by
    unfold ci_read_line
    rw [List.append_assoc, read_long_line h2 hmax p (m ++ NL :: rest) none buf out hp hnf hlen,
      discard_line_eq m rest hm]
    simp [after_prompt]
  refine ⟨hfirst, ?_, ?_, ?_⟩
  · intro size2 l2 rest2 buf2 out2 hmax2 hl2 hnf2 hfit2 hrest
    rw [hfirst]
    simp only
    rw [hrest]
    obtain ⟨h1, hs, hb, _⟩ := read_short_line hmax2 l2 rest2 none buf2 out2 hl2 hfit2
    refine ⟨h1, ?_, hs⟩
    unfold ci_read_line
    rw [hb, cstr_nul_free hnf2]
  · intro size2 buf2 out2 hmax2 hne hl2 _ hfit2
    rw [hfirst]
    simp only
    unfold ci_read_line
    rw [read_short_end hmax2 rest none buf2 out2 hne hl2 hfit2]
    rfl
  · unfold ci_read_line
    rw [read_at_eof h2 hmax]
    rfl

theorem bytes_toolo_newline_free : newline_free (bytes "toolo") := by
  unfold newline_free
  decide

theorem bytes_toolo_nul_free : nul_free (bytes "toolo") := by
  unfold nul_free
  decide

theorem bytes_ngline_newline_free : newline_free (bytes "ngline") := by
  unfold newline_free
  decide

/-- Witness of C13 as amended: the input of `test_read_line_overflow`, read with a
capacity of 6. -/
theorem read_line_overflow_witness :
    ci_read_line ⟨bytes "toolo" ++ bytes "ngline" ++ NL :: bytes "rest", false⟩ (some []) 6 [] =
      ⟨CI_OVERFLOW, ⟨bytes "rest", false⟩, bytes "toolo", []⟩ ∧
    ci_read_line (ci_read_line ⟨bytes "toolo" ++ bytes "ngline" ++ NL :: bytes "rest", false⟩
      (some []) 6 []).stream (some []) 8 [] = ⟨CI_OK, ⟨[], true⟩, bytes "rest", []⟩ :=
  ⟨(read_line_overflow 6 (bytes "toolo") (bytes "ngline") (bytes "rest") [] []
      (by decide) (by decide) bytes_toolo_newline_free bytes_toolo_nul_free (by decide)
      bytes_ngline_newline_free).1,
    (read_line_overflow 6 (bytes "toolo") (bytes "ngline") (bytes "rest") [] []
      (by decide) (by decide) bytes_toolo_newline_free bytes_toolo_nul_free (by decide)
      bytes_ngline_newline_free).2.2.1 8 [] [] (by decide) (by decide)
      (by unfold newline_free; decide) (by unfold nul_free; decide) (by decide)⟩

/-- The two failing inputs of the end-of-input case, evaluated: capacity 1 and capacity
`2 ^ 31` on a stream with no characters left. -/
theorem read_line_at_end_small_or_huge :
    (ci_read_line ⟨[], false⟩ (some []) 1 []).status = CI_OVERFLOW ∧
    (ci_read_line ⟨[], false⟩ (some []) (2 ^ 31) []).status = CI_INVALID := by
  decide

/-- C14, end of input. For every non-null buffer and every capacity from 2 to `INT_MAX`,
`ci_read_line` on a stream that has no characters left returns `CI_EOF`, with the buffer
left as it was. The code departs from this in two places: with the capacity 1 the result
is `CI_OVERFLOW` and the empty string is stored (`fgets` stores the empty string without
reading, so the end of the input is not seen, and `len + 1 == size` holds); and with a
capacity from `2 ^ 31` to `2 ^ 32 - 1` and the end-of-file indicator clear the result is
`CI_INVALID` (`(int)size` is negative, `fgets` fails without reading and `feof` is
false). -/
theorem read_line_at_end (size : Nat) (e : Bool) (buf out : List Nat) :
    (2 ≤ size → size < 2 ^ 31 →
      ci_read_line ⟨[], e⟩ (some buf) size out = ⟨CI_EOF, ⟨[], true⟩, buf, out⟩) ∧
    ci_read_line ⟨[], e⟩ (some buf) 1 out = ⟨CI_OVERFLOW, ⟨[], true⟩, [], out⟩ ∧
    (2 ^ 31 ≤ size → size < 2 ^ 32 →
      ci_read_line ⟨[], false⟩ (some buf) size out =
        ⟨CI_INVALID, ⟨[], false⟩, buf, out⟩) := by
  refine ⟨?_, ?_, ?_⟩
  · intro h2 hmax
    unfold ci_read_line
    rw [read_at_end h2 hmax e none buf out]
    rfl
  · cases e <;> rfl
  · intro hlo hhi
    have hn : int_of_size size ≤ 0 := by
      unfold int_of_size
      rw [Nat.mod_eq_of_lt hhi, if_neg (by omega)]
      omega
    have hs : size ≠ 0 := by
      intro h0
      rw [h0] at hlo
      exact absurd hlo (by decide)
    unfold ci_read_line ci_read_line_internal
    simp only [if_neg hs]
    unfold fgets
    rw [if_pos hn]
    rfl

/-- Witness of C14: the scenario of `test_read_line_eof`, capacity 8, and the capacity
`2 ^ 31`. -/
theorem read_line_at_end_witness :
    ((2 : Nat) ≤ 8 ∧ (8 : Nat) < 2 ^ 31) ∧
    ci_read_line ⟨[], false⟩ (some []) 8 [] = ⟨CI_EOF, ⟨[], true⟩, [], []⟩ ∧
    ci_read_line ⟨[], false⟩ (some [120]) (2 ^ 31) [] =
      ⟨CI_INVALID, ⟨[], false⟩, [120], []⟩ :=
  ⟨⟨by decide, by decide⟩, (read_line_at_end 8 false [] []).1 (by decide) (by decide),
    (read_line_at_end (2 ^ 31) false [120] []).2.2 (by decide) (by decide)⟩

/-! ## Truncated lines in the worker -/

/-- A stream is its two fields. -/
theorem file_eta (f : FILE) : f = ⟨f.data, f.eof⟩ := rfl

/-- The standard input of a state whose end-of-file indicator is clear. -/
theorem stdin_clear {s : State} {d : List Nat} (hin : s.stdin.data = d)
    (heof : s.stdin.eof = false) : s.stdin = ⟨d, false⟩ := by
  rw [file_eta s.stdin, hin, heof]

/-- The worker reads a line that overflows its buffer: status, stream and buffer. -/
theorem worker_read_long (s : State) (p m rest : List Nat)
    (hin : s.stdin.data = p ++ m ++ NL :: rest) (heof : s.stdin.eof = false)
    (hp : newline_free p) (hnf : nul_free p) (hlen : p.length = 255) (hm : newline_free m) :
    worker_read s =
      ⟨CI_OVERFLOW, ⟨rest, false⟩, p, after_prompt s.ci_prompt s.stdout⟩ := by
  unfold worker_read
  rw [stdin_clear hin heof, List.append_assoc,
    read_long_line (by decide) (by decide) p (m ++ NL :: rest) s.ci_prompt
      s.buffer s.stdout hp hnf (by rw [hlen]; rfl), discard_line_eq m rest hm]

/-- The worker reads a line that fits its buffer: status, stream and buffer. -/
theorem worker_read_short (s : State) (l rest : List Nat)
    (hin : s.stdin.data = l ++ NL :: rest) (heof : s.stdin.eof = false)
    (hl : newline_free l) (hnf : nul_free l) (hlen : l.length ≤ 254) :
    (worker_read s).status = CI_OK ∧ (worker_read s).stream = ⟨rest, false⟩ ∧
      cstr (worker_read s).buffer = l := by
  unfold worker_read
  rw [stdin_clear hin heof]
  obtain ⟨h1, h2, h3, _⟩ := @read_short_line CI_ASYNC_BUFFER (by decide) l rest
    s.ci_prompt s.buffer s.stdout hl (by simp only [CI_ASYNC_BUFFER]; omega)
  refine ⟨h1, h2, ?_⟩
  rw [h3, cstr_nul_free hnf]

/-- With the end-of-file indicator of the standard input set, the worker reads `CI_EOF`
and nothing else happens to the stream. -/
theorem worker_read_at_eof (s : State) (heof : s.stdin.eof = true) :
    (worker_read s).status = CI_EOF ∧ (worker_read s).stream = s.stdin := by
  unfold worker_read
  have hs : s.stdin = ⟨s.stdin.data, true⟩ := by
    rw [← heof]
  rw [hs, @read_at_eof CI_ASYNC_BUFFER (by decide) (by decide)]
  exact ⟨rfl, rfl⟩

/-- An iteration of the worker at the end of the input: the loop is left. -/
theorem iter_at_end (h : Handlers) (s : State) (hst : (worker_read s).status = CI_EOF) :
    worker_iter h s = (Ctl.brk, after_read s (worker_read s)) := by
  unfold worker_iter
  simp only [hst, if_true]

theorem worker_iter_overflow {h : Handlers} {s : State}
    (hov : (worker_read s).status = CI_OVERFLOW) :
    worker_iter h s =
      (Ctl.cont, { after_read s (worker_read s) with
        stdout := (after_read s (worker_read s)).stdout ++ too_long_notice }) := by
  unfold worker_iter
  simp [hov]

set_option maxRecDepth 100000 in
/-- Counterexample to C11: the input line `a`, NUL, 300 times `b`, newline overflows the
256-byte buffer of the worker, yet the worker calls the default callback (address 1) for
it twice: once with the text `a` in front of the NUL, once with the 47 characters that
`fgets` had left unread. And on the input of 257 times `x`, then `ping`, with the
end-of-file indicator of the standard input set, the worker leaves its loop at once: the
line `ping` that follows the truncated one is not dispatched. -/
theorem truncated_line_with_nul_dispatched :
    (ci_async_thread test_handlers 3
      (test_session ([97, 0] ++ List.replicate 300 98 ++ [NL]))).map
        (fun s => s.calls.map (fun c => (c.cb, cstr c.line))) =
      some [(1, [97]), (1, List.replicate 47 98)] ∧
    (ci_async_thread test_handlers 3
      { demo_session demo_long_input with stdin := ⟨demo_long_input, true⟩ }).map
        (fun s => (s.calls, s.stdin)) = some ([], ⟨demo_long_input, true⟩) := by
  constructor <;> rfl

/-- C11 as amended, truncated lines are not dispatched: let the end-of-file indicator of
the standard input be clear and let the next input line of the worker start with 255
characters that are neither a newline nor NUL (`p`) and go on (`m`) up to its newline.
Whatever the registry holds, the iteration of the worker that reads it invokes no
callback, comes back to the loop test, and leaves the input behind the newline of that
line; when the following line fits (at most 254 characters, none a NUL), the next
iteration reads it with `CI_OK` and its dispatch is the only invocation made: the log is
the one before the truncated line plus the callback chosen for that line. With the
indicator set (the same session otherwise), the iteration reads `CI_EOF`, leaves the
loop and invokes nothing. -/
theorem truncated_line_not_dispatched (h : Handlers) (s : State) (p m rest : List Nat)
    (hin : s.stdin.data = p ++ m ++ NL :: rest) (heof : s.stdin.eof = false)
    (hp : newline_free p) (hnf : nul_free p) (hlen : p.length = 255) (hm : newline_free m) :
    (worker_iter h s).1 = Ctl.cont ∧
    (worker_iter h s).2.calls = s.calls ∧
    (worker_iter h s).2.stdin = ⟨rest, false⟩ ∧
    (worker_iter h s).2.ci_commands = s.ci_commands ∧
    (worker_iter h s).2.ci_command_count = s.ci_command_count ∧
    (s.ci_running = true → s.ci_stop_requested = false →
      loop_head_after h 1 s = some (worker_iter h s).2) ∧
    (∀ l2 rest2, rest = l2 ++ NL :: rest2 → newline_free l2 → nul_free l2 → l2.length ≤ 254 →
      (worker_read (worker_iter h s).2).status = CI_OK ∧
      cstr (worker_read (worker_iter h s).2).buffer = l2 ∧
      (worker_read (worker_iter h s).2).stream = ⟨rest2, false⟩ ∧
      (worker_iter h (worker_iter h s).2).2 =
        dispatch h (after_read (worker_iter h s).2 (worker_read (worker_iter h s).2)) ∧
      ∀ cb ud,
        dispatch_target (after_read (worker_iter h s).2 (worker_read (worker_iter h s).2)) =
          some (cb, ud) →
        (worker_iter h (worker_iter h s).2).2.calls =
          s.calls ++ [⟨cb, (worker_read (worker_iter h s).2).buffer, ud⟩]) ∧
    ((worker_iter h { s with stdin := ⟨s.stdin.data, true⟩ }).1 = Ctl.brk ∧
      (worker_iter h { s with stdin := ⟨s.stdin.data, true⟩ }).2.calls = s.calls ∧
      (worker_iter h { s with stdin := ⟨s.stdin.data, true⟩ }).2.stdin =
        ⟨s.stdin.data, true⟩) := by
  have hr := worker_read_long s p m rest hin heof hp hnf hlen hm
  have hov : (worker_read s).status = CI_OVERFLOW := by rw [hr]
  have hit := worker_iter_overflow (h := h) hov
  have hstd : (worker_iter h s).2.stdin = ⟨rest, false⟩ := by
    rw [hit]
    simp only [after_read]
    rw [hr]
  refine ⟨by rw [hit], by rw [hit]; rfl, hstd, by rw [hit]; rfl, by rw [hit]; rfl, ?_, ?_,
    ?_⟩
  · intro hrun hns
    unfold loop_head_after
    have hc : (s.ci_running && !s.ci_stop_requested) = true := by
      rw [hrun, hns]
      rfl
    rw [if_pos hc, hit]
    rfl
  · intro l2 rest2 hrest hl2 hnf2 hlen2
    have hin2 : (worker_iter h s).2.stdin.data = l2 ++ NL :: rest2 := by
      rw [hstd, hrest]
    have heof2 : (worker_iter h s).2.stdin.eof = false := by rw [hstd]
    obtain ⟨h1, h2, h3⟩ := worker_read_short (worker_iter h s).2 l2 rest2 hin2 heof2 hl2 hnf2
      hlen2
    have hd : (worker_iter h (worker_iter h s).2).2 =
        dispatch h (after_read (worker_iter h s).2 (worker_read (worker_iter h s).2)) := by
      rw [worker_iter_ok h1]
    refine ⟨h1, h3, h2, hd, ?_⟩
    intro cb ud htarget
    rw [hd, dispatch_eq_target, htarget]
    simp only
    rw [invoke_calls]
    have hcalls : (after_read (worker_iter h s).2 (worker_read (worker_iter h s).2)).calls =
        s.calls := by
      simp only [after_read]
      rw [hit]
      rfl
    rw [hcalls]
    rfl
  · have hst := worker_read_at_eof { s with stdin := ⟨s.stdin.data, true⟩ } rfl
    rw [iter_at_end h _ hst.1]
    exact ⟨rfl, rfl, hst.2⟩

theorem replicate_newline_free (n : Nat) : newline_free (List.replicate n 120) := by
  intro c hc
  rw [List.eq_of_mem_replicate hc]
  decide

theorem replicate_nul_free (n : Nat) : nul_free (List.replicate n 120) := by
  intro c hc
  rw [List.eq_of_mem_replicate hc]
  decide

theorem ping_newline_free : newline_free ping := by
  unfold newline_free
  decide

theorem ping_nul_free : nul_free ping := by
  unfold nul_free
  decide

set_option maxRecDepth 100000 in
/-- Witness of C11 as amended: a line of 257 times `x`, then the line `ping`, in the
session that has `ping` registered with callback 7: nothing is called for the long line,
and the next iteration calls the callback 7 with `ping`. -/
theorem truncated_line_not_dispatched_witness :
    (worker_iter test_handlers (demo_session demo_long_input)).2.calls = [] ∧
    (worker_iter test_handlers
      (worker_iter test_handlers (demo_session demo_long_input)).2).2.calls =
      [] ++ [⟨7, (worker_read
        (worker_iter test_handlers (demo_session demo_long_input)).2).buffer, 70⟩] :=
  ⟨(truncated_line_not_dispatched test_handlers (demo_session demo_long_input)
      (List.replicate 255 120) [120, 120] (ping ++ NL :: []) rfl rfl
      (replicate_newline_free 255) (replicate_nul_free 255) (List.length_replicate _ _)
      (by unfold newline_free; decide)).2.1,
    ((truncated_line_not_dispatched test_handlers (demo_session demo_long_input)
      (List.replicate 255 120) [120, 120] (ping ++ NL :: []) rfl rfl
      (replicate_newline_free 255) (replicate_nul_free 255) (List.length_replicate _ _)
      (by unfold newline_free; decide)).2.2.2.2.2.2.1
        ping [] rfl ping_newline_free ping_nul_free (by decide)).2.2.2.2 7 70 (by rfl)⟩

/-! ## Lemmas on the number parser -/

theorem takeWhile_run (q : Nat → Bool) (a b : List Nat) (ha : ∀ c ∈ a, q c = true)
    (hb : ∀ c, b.head? = some c → q c = false) : (a ++ b).takeWhile q = a := by
  rw [List.takeWhile_append_of_pos ha]
  cases b with
  | nil => simp
  | cons c cs =>
    have := hb c rfl
    simp [List.takeWhile_cons, this]

theorem dropWhile_run (q : Nat → Bool) (a b : List Nat) (ha : ∀ c ∈ a, q c = true)
    (hb : ∀ c, b.head? = some c → q c = false) : (a ++ b).dropWhile q = b := by
  rw [List.dropWhile_append_of_pos ha]
  cases b with
  | nil => simp
  | cons c cs =>
    have := hb c rfl
    simp [List.dropWhile_cons, this]

theorem cstr_head {l : List Nat} {c : Nat} (h : (cstr l).head? = some c) :
    l.head? = some c ∧ c ≠ 0 := by
  cases l with
  | nil => simp [cstr] at h
  | cons x xs =>
    by_cases hx : x = 0
    · simp [cstr, hx] at h
    · simp [cstr, hx] at h
      subst h
      exact ⟨rfl, hx⟩

theorem isspace_ne_zero {c : Nat} (h : isspace c = true) : c ≠ 0 := by
  rintro rfl
  simp [isspace] at h

theorem isdigit_ne_zero {c : Nat} (h : isdigit c = true) : c ≠ 0 := by
  rintro rfl
  simp [isdigit] at h

theorem isdigit_not_space {c : Nat} (h : isdigit c = true) : isspace c = false := by
  simp only [isdigit, Bool.and_eq_true, decide_eq_true_eq] at h
  simp only [isspace, Bool.or_eq_false_iff, beq_eq_false_iff_ne, ne_eq, Bool.and_eq_false_iff,
    decide_eq_false_iff_not]
  omega

theorem isdigit_not_sign {c : Nat} (h : isdigit c = true) : c ≠ MINUS ∧ c ≠ PLUS := by
  simp only [isdigit, Bool.and_eq_true, decide_eq_true_eq] at h
  simp only [MINUS, PLUS]
  omega

theorem sign_nul_free {sg : List Nat} (h : sg = [] ∨ sg = [PLUS] ∨ sg = [MINUS]) :
    nul_free sg := by
  rcases h with rfl | rfl | rfl
  · intro c hc
    cases hc
  · intro c hc
    rw [List.mem_singleton.1 hc]
    decide
  · intro c hc
    rw [List.mem_singleton.1 hc]
    decide

/-- The digit stage on a non-empty run of digits followed by something that does not
start with a digit. -/
theorem strtol_digits_run (neg : Bool) (pre : Nat) (ds rest : List Nat)
    (hds : ∀ c ∈ ds, isdigit c = true) (hne : ds ≠ [])
    (hrest : ∀ c, rest.head? = some c → isdigit c = false) :
    strtol_digits neg pre (ds ++ rest) =
      if (if neg then -(digits_value ds : Int) else digits_value ds) > LONG_MAX then
        ⟨LONG_MAX, pre + ds.length, true⟩
      else if (if neg then -(digits_value ds : Int) else digits_value ds) < LONG_MIN then
        ⟨LONG_MIN, pre + ds.length, true⟩
      else ⟨if neg then -(digits_value ds : Int) else digits_value ds, pre + ds.length, false⟩ := by
  unfold strtol_digits
  rw [takeWhile_run isdigit ds rest hds hrest, if_neg hne]

/-- The digit stage on something that does not start with a digit. -/
theorem strtol_digits_none (neg : Bool) (pre : Nat) (rest : List Nat)
    (hrest : ∀ c, rest.head? = some c → isdigit c = false) :
    strtol_digits neg pre rest = ⟨0, 0, false⟩ := by
  unfold strtol_digits
  have := takeWhile_run isdigit [] rest (fun c hc => by cases hc) hrest
  simp only [List.nil_append] at this
  rw [this, if_pos rfl]

/-- The sign stage on an optional sign followed by `s`, which starts with no sign when
the sign is absent. -/
theorem strtol_sign_eq (pre : Nat) (sg s : List Nat)
    (hsg : sg = [] ∨ sg = [PLUS] ∨ sg = [MINUS])
    (hs : sg = [] → ∀ c, s.head? = some c → c ≠ MINUS ∧ c ≠ PLUS) :
    strtol_sign pre (sg ++ s) = strtol_digits (decide (sg = [MINUS])) (pre + sg.length) s := by
  rcases hsg with rfl | rfl | rfl
  · cases s with
    | nil => rfl
    | cons c cs =>
      obtain ⟨h1, h2⟩ := hs rfl c rfl
      simp [strtol_sign, h1, h2]
  · simp [strtol_sign, PLUS, MINUS]
  · simp [strtol_sign]

/-- What `strtol` does with white space, an optional sign, a non-empty run of digits and a
rest that does not start with a digit. -/
theorem strtol_number (ws sg ds rest : List Nat) (hws : ∀ c ∈ ws, isspace c = true)
    (hsg : sg = [] ∨ sg = [PLUS] ∨ sg = [MINUS]) (hds : ∀ c ∈ ds, isdigit c = true)
    (hne : ds ≠ []) (hrest : ∀ c, rest.head? = some c → isdigit c = false) :
    strtol (ws ++ sg ++ ds ++ rest) =
      if signed_value sg ds > LONG_MAX then
        ⟨LONG_MAX, ws.length + sg.length + ds.length, true⟩
      else if signed_value sg ds < LONG_MIN then
        ⟨LONG_MIN, ws.length + sg.length + ds.length, true⟩
      else ⟨signed_value sg ds, ws.length + sg.length + ds.length, false⟩ := by
  have hwsnf : nul_free ws := fun c hc => isspace_ne_zero (hws c hc)
  have hdsnf : nul_free ds := fun c hc => isdigit_ne_zero (hds c hc)
  have hsgnf := sign_nul_free hsg
  have hc : cstr (ws ++ sg ++ ds ++ rest) = ws ++ (sg ++ (ds ++ cstr rest)) := by
    rw [List.append_assoc, List.append_assoc, cstr_append_nul_free _ hwsnf,
      cstr_append_nul_free _ hsgnf, cstr_append_nul_free _ hdsnf]
  obtain ⟨d, dt, hd⟩ := List.exists_cons_of_ne_nil hne
  have hdd : isdigit d = true := hds d (by rw [hd]; exact List.mem_cons_self _ _)
  have hhead : ∀ c, (sg ++ (ds ++ cstr rest)).head? = some c → isspace c = false := by
    intro c hcc
    rcases hsg with rfl | rfl | rfl
    · rw [hd] at hcc
      simp at hcc
      rw [← hcc]
      exact isdigit_not_space hdd
    · simp at hcc
      rw [← hcc]
      decide
    · simp at hcc
      rw [← hcc]
      decide
  have hrest2 : ∀ c, (cstr rest).head? = some c → isdigit c = false :=
    fun c hcc => hrest c (cstr_head hcc).1
  have hnosign : sg = [] → ∀ c, (ds ++ cstr rest).head? = some c → c ≠ MINUS ∧ c ≠ PLUS := by
    intro _ c hcc
    rw [hd] at hcc
    simp at hcc
    rw [← hcc]
    exact isdigit_not_sign hdd
  unfold strtol
  rw [hc, takeWhile_run isspace ws _ hws hhead, dropWhile_run isspace ws _ hws hhead,
    strtol_sign_eq _ sg _ hsg hnosign, strtol_digits_run _ _ ds _ hds hne hrest2]
  unfold signed_value
  by_cases hm : sg = [MINUS]
  · simp [hm]
  · simp [hm]

/-- What `strtol` does with white space and an optional sign that no digit follows. -/
theorem strtol_no_number (ws sg rest : List Nat) (hws : ∀ c ∈ ws, isspace c = true)
    (hsg : sg = [] ∨ sg = [PLUS] ∨ sg = [MINUS])
    (hrest : ∀ c, rest.head? = some c → isdigit c = false)
    (hbare : sg = [] → ∀ c, rest.head? = some c → isspace c = false ∧ c ≠ MINUS ∧ c ≠ PLUS) :
    strtol (ws ++ sg ++ rest) = ⟨0, 0, false⟩ := by
  have hwsnf : nul_free ws := fun c hc => isspace_ne_zero (hws c hc)
  have hsgnf := sign_nul_free hsg
  have hc : cstr (ws ++ sg ++ rest) = ws ++ (sg ++ cstr rest) := by
    rw [List.append_assoc, cstr_append_nul_free _ hwsnf, cstr_append_nul_free _ hsgnf]
  have hhead : ∀ c, (sg ++ cstr rest).head? = some c → isspace c = false := by
    intro c hcc
    rcases hsg with rfl | rfl | rfl
    · exact (hbare rfl c (cstr_head hcc).1).1
    · simp at hcc
      rw [← hcc]
      decide
    · simp at hcc
      rw [← hcc]
      decide
  have hrest2 : ∀ c, (cstr rest).head? = some c → isdigit c = false :=
    fun c hcc => hrest c (cstr_head hcc).1
  have hnosign : sg = [] → ∀ c, (cstr rest).head? = some c → c ≠ MINUS ∧ c ≠ PLUS :=
    fun h0 c hcc => (hbare h0 c (cstr_head hcc).1).2
  unfold strtol
  rw [hc, takeWhile_run isspace ws _ hws hhead, dropWhile_run isspace ws _ hws hhead,
    strtol_sign_eq _ sg _ hsg hnosign, strtol_digits_none _ _ _ hrest2]

theorem cstr_is_nul_free (l : List Nat) : nul_free (cstr l) := by
  intro c hc
  have := List.mem_takeWhile_imp hc
  simpa using this

theorem cstr_getD_append (a b : List Nat) :
    (a ++ cstr b).getD a.length 0 = 0 ↔ cstr b = [] := by
  cases hb : cstr b with
  | nil => simp
  | cons x xs =>
    have hx : x ≠ 0 := by
      have := cstr_is_nul_free b x (by rw [hb]; exact List.mem_cons_self _ _)
      exact this
    rw [List.getD_eq_getElem _ _ (by simp), List.getElem_append_right (le_refl _)]
    simp [hx]

/-- What `ci_parse_long` does with white space, an optional sign, a non-empty run of
digits and a rest that does not start with a digit. -/
theorem parse_number (ws sg ds rest : List Nat) (old : Int)
    (hws : ∀ c ∈ ws, isspace c = true)
    (hsg : sg = [] ∨ sg = [PLUS] ∨ sg = [MINUS]) (hds : ∀ c ∈ ds, isdigit c = true)
    (hne : ds ≠ []) (hrest : ∀ c, rest.head? = some c → isdigit c = false) :
    ci_parse_long (some (ws ++ sg ++ ds ++ rest)) (some old) =
      if signed_value sg ds > LONG_MAX ∨ signed_value sg ds < LONG_MIN then
        (CI_OVERFLOW, some old)
      else if cstr rest ≠ [] then (CI_INVALID, some old)
      else (CI_OK, some (signed_value sg ds)) := by
  have hwsnf : nul_free ws := fun c hc => isspace_ne_zero (hws c hc)
  have hdsnf : nul_free ds := fun c hc => isdigit_ne_zero (hds c hc)
  have hsgnf := sign_nul_free hsg
  have hc : cstr (ws ++ sg ++ ds ++ rest) = (ws ++ sg ++ ds) ++ cstr rest := by
    rw [List.append_assoc, List.append_assoc, cstr_append_nul_free _ hwsnf,
      cstr_append_nul_free _ hsgnf, cstr_append_nul_free _ hdsnf]
    simp
  have hlen : ws.length + sg.length + ds.length = (ws ++ sg ++ ds).length := by
    simp only [List.length_append]
  have hpos : ¬ ws.length + sg.length + ds.length = 0 := by
    have : ds.length ≠ 0 := fun h => hne (List.length_eq_zero.1 h)
    omega
  unfold ci_parse_long
  simp only
  rw [strtol_number ws sg ds rest hws hsg hds hne hrest]
  by_cases h1 : signed_value sg ds > LONG_MAX
  · simp [h1]
  · by_cases h2 : signed_value sg ds < LONG_MIN
    · simp [h1, h2]
    · have hor : ¬ (signed_value sg ds > LONG_MAX ∨ signed_value sg ds < LONG_MIN) := by
        rintro (h | h)
        · exact h1 h
        · exact h2 h
      simp only [if_neg h1, if_neg h2, if_neg hor, hc]
      have hno : ¬ (false = true ∨ signed_value sg ds > LONG_MAX ∨
          signed_value sg ds < LONG_MIN) := by
        rintro (h | h | h)
        · cases h
        · exact h1 h
        · exact h2 h
      rw [if_neg hno, hlen]
      by_cases hr : cstr rest = []
      · have : ¬ ((ws ++ sg ++ ds).length = 0 ∨
            (ws ++ sg ++ ds ++ cstr rest).getD (ws ++ sg ++ ds).length 0 ≠ 0) := by
          rintro (h | h)
          · rw [← hlen] at h
            exact hpos h
          · exact h ((cstr_getD_append _ _).2 hr)
        rw [if_neg this]
        simp [hr]
      · have : ((ws ++ sg ++ ds).length = 0 ∨
            (ws ++ sg ++ ds ++ cstr rest).getD (ws ++ sg ++ ds).length 0 ≠ 0) :=
          Or.inr (fun h => hr ((cstr_getD_append _ _).1 h))
        rw [if_pos this]
        simp [hr]

/-- What `ci_parse_long` does with white space and an optional sign that no digit
follows. -/
theorem parse_no_number (ws sg rest : List Nat) (old : Int)
    (hws : ∀ c ∈ ws, isspace c = true)
    (hsg : sg = [] ∨ sg = [PLUS] ∨ sg = [MINUS])
    (hrest : ∀ c, rest.head? = some c → isdigit c = false)
    (hbare : sg = [] → ∀ c, rest.head? = some c → isspace c = false ∧ c ≠ MINUS ∧ c ≠ PLUS) :
    ci_parse_long (some (ws ++ sg ++ rest)) (some old) = (CI_INVALID, some old) := by
  unfold ci_parse_long
  simp only
  rw [strtol_no_number ws sg rest hws hsg hrest hbare]
  have h1 : ¬ (false = true ∨ (0 : Int) > LONG_MAX ∨ (0 : Int) < LONG_MIN) := by
    decide
  simp only [if_neg h1]
  simp

theorem parse_congr {a b : List Nat} (out : Option Int) (h : cstr a = cstr b) :
    ci_parse_long (some a) out = ci_parse_long (some b) out := by
  cases out with
  | none => rfl
  | some old =>
    unfold ci_parse_long strtol
    simp only [h]

/-- A parse that does not return `CI_OK` leaves `*out_value` as it was. -/
theorem parse_keeps (input : Option (List Nat)) (out : Option Int)
    (h : (ci_parse_long input out).1 ≠ CI_OK) : (ci_parse_long input out).2 = out := by
  cases input with
  | none => rfl
  | some inp =>
    cases out with
    | none => rfl
    | some old =>
      unfold ci_parse_long at h ⊢
      simp only at h ⊢
      split
      · rfl
      · split
        · rfl
        · rename_i h1 h2
          rw [if_neg h1, if_neg h2] at h
          exact absurd rfl h

theorem dropWhile_head (q : Nat → Bool) (l : List Nat) (c : Nat)
    (h : (l.dropWhile q).head? = some c) : q c = false := by
  induction l with
  | nil => simp at h
  | cons x xs ih =>
    by_cases hx : q x = true
    · rw [List.dropWhile_cons_of_pos hx] at h
      exact ih h
    · rw [List.dropWhile_cons_of_neg hx] at h
      simp at h
      rw [← h]
      simpa using hx

theorem takeWhile_all (q : Nat → Bool) (l : List Nat) : ∀ c ∈ l.takeWhile q, q c = true :=
  fun _ hc => List.mem_takeWhile_imp hc

/-- The digits at the start of a text, and what follows them. -/
theorem digits_shape (r : List Nat) :
    (∃ ds rest, r = ds ++ rest ∧ (∀ c ∈ ds, isdigit c = true) ∧ ds ≠ [] ∧
      ∀ c, rest.head? = some c → isdigit c = false) ∨
    (∀ c, r.head? = some c → isdigit c = false) := by
  by_cases h : r.takeWhile isdigit = []
  · right
    intro c hc
    cases r with
    | nil => simp at hc
    | cons x xs =>
      simp at hc
      subst hc
      by_contra hx
      simp at hx
      simp [List.takeWhile_cons, hx] at h
  · left
    exact ⟨r.takeWhile isdigit, r.dropWhile isdigit, (List.takeWhile_append_dropWhile _ _).symm,
      takeWhile_all _ _, h, dropWhile_head _ _⟩

theorem text_shape_of_sign (t ws sg r : List Nat) (ht : t = ws ++ (sg ++ r))
    (hws : ∀ c ∈ ws, isspace c = true) (hsg : sg = [] ∨ sg = [PLUS] ∨ sg = [MINUS])
    (hbare : sg = [] → ∀ c, r.head? = some c → isspace c = false ∧ c ≠ MINUS ∧ c ≠ PLUS) :
    (∃ ws sg ds rest, t = ws ++ sg ++ ds ++ rest ∧ (∀ c ∈ ws, isspace c = true) ∧
      (sg = [] ∨ sg = [PLUS] ∨ sg = [MINUS]) ∧ (∀ c ∈ ds, isdigit c = true) ∧ ds ≠ [] ∧
      ∀ c, rest.head? = some c → isdigit c = false) ∨
    (∃ ws sg rest, t = ws ++ sg ++ rest ∧ (∀ c ∈ ws, isspace c = true) ∧
      (sg = [] ∨ sg = [PLUS] ∨ sg = [MINUS]) ∧
      (∀ c, rest.head? = some c → isdigit c = false) ∧
      (sg = [] → ∀ c, rest.head? = some c → isspace c = false ∧ c ≠ MINUS ∧ c ≠ PLUS)) := by
  rcases digits_shape r with ⟨ds, rest, hds, h1, h2, h3⟩ | hno
  · exact Or.inl ⟨ws, sg, ds, rest, by rw [ht, hds]; simp, hws, hsg, h1, h2, h3⟩
  · exact Or.inr ⟨ws, sg, r, by rw [ht]; simp, hws, hsg, hno, hbare⟩

/-- Every text is white space, an optional sign and then either a run of digits and a
rest, or something that is not a number. -/
theorem text_shape (t : List Nat) :
    (∃ ws sg ds rest, t = ws ++ sg ++ ds ++ rest ∧ (∀ c ∈ ws, isspace c = true) ∧
      (sg = [] ∨ sg = [PLUS] ∨ sg = [MINUS]) ∧ (∀ c ∈ ds, isdigit c = true) ∧ ds ≠ [] ∧
      ∀ c, rest.head? = some c → isdigit c = false) ∨
    (∃ ws sg rest, t = ws ++ sg ++ rest ∧ (∀ c ∈ ws, isspace c = true) ∧
      (sg = [] ∨ sg = [PLUS] ∨ sg = [MINUS]) ∧
      (∀ c, rest.head? = some c → isdigit c = false) ∧
      (sg = [] → ∀ c, rest.head? = some c → isspace c = false ∧ c ≠ MINUS ∧ c ≠ PLUS)) := by
  have hsplit : t = t.takeWhile isspace ++ t.dropWhile isspace :=
    (List.takeWhile_append_dropWhile _ _).symm
  have hws := takeWhile_all isspace t
  have hhead := dropWhile_head isspace t
  generalize t.takeWhile isspace = ws at hsplit hws
  generalize t.dropWhile isspace = r1 at hsplit hhead
  cases hr1 : r1 with
  | nil =>
    exact text_shape_of_sign t ws [] [] (by rw [hsplit, hr1]; rfl) hws (Or.inl rfl)
      (fun _ c hc => by simp at hc)
  | cons c r2 =>
    by_cases hm : c = MINUS
    · exact text_shape_of_sign t ws [MINUS] r2 (by rw [hsplit, hr1, hm]; rfl) hws
        (Or.inr (Or.inr rfl)) (fun h => by cases h)
    · by_cases hp : c = PLUS
      · exact text_shape_of_sign t ws [PLUS] r2 (by rw [hsplit, hr1, hp]; rfl) hws
          (Or.inr (Or.inl rfl)) (fun h => by cases h)
      · refine text_shape_of_sign t ws [] (c :: r2) (by rw [hsplit, hr1]; rfl) hws
          (Or.inl rfl) ?_
        intro _ x hx
        simp at hx
        subst hx
        exact ⟨hhead c (by rw [hr1]; rfl), hm, hp⟩

/-- A text that `ci_parse_long` accepts is white space, an optional sign and a non-empty
run of digits whose value is in the range of `long`, and nothing else. -/
theorem parse_ok_shape (t : List Nat) (old : Int) (v : Option Int)
    (h : ci_parse_long (some t) (some old) = (CI_OK, v)) :
    ∃ ws sg ds, cstr t = ws ++ sg ++ ds ∧ (∀ c ∈ ws, isspace c = true) ∧
      (sg = [] ∨ sg = [PLUS] ∨ sg = [MINUS]) ∧ (∀ c ∈ ds, isdigit c = true) ∧ ds ≠ [] ∧
      LONG_MIN ≤ signed_value sg ds ∧ signed_value sg ds ≤ LONG_MAX ∧
      v = some (signed_value sg ds) := by
  have hcc : cstr (cstr t) = cstr t := cstr_nul_free (cstr_is_nul_free t)
  rw [parse_congr (some old) hcc.symm] at h
  rcases text_shape (cstr t) with ⟨ws, sg, ds, rest, ht, hws, hsg, hds, hne, hrest⟩ |
      ⟨ws, sg, rest, ht, hws, hsg, hrest, hbare⟩
  · rw [ht, parse_number ws sg ds rest old hws hsg hds hne hrest] at h
    by_cases h1 : signed_value sg ds > LONG_MAX ∨ signed_value sg ds < LONG_MIN
    · rw [if_pos h1] at h
      cases h
    · rw [if_neg h1] at h
      by_cases h2 : cstr rest ≠ []
      · rw [if_pos h2] at h
        cases h
      · rw [if_neg h2] at h
        have hrnf : nul_free rest := by
          intro c hc
          apply cstr_is_nul_free t c
          rw [ht]
          simp [hc]
        have hr0 : rest = [] := by
          rw [← cstr_nul_free hrnf]
          simpa using h2
        refine ⟨ws, sg, ds, by rw [ht, hr0]; simp, hws, hsg, hds, hne, ?_, ?_, ?_⟩
        · by_contra hlt
          exact h1 (Or.inr (by omega))
        · by_contra hgt
          exact h1 (Or.inl (by omega))
        · simp only [Prod.mk.injEq, true_and] at h
          exact h.symm
  · rw [ht, parse_no_number ws sg rest old hws hsg hrest hbare] at h
    cases h

/-! ## The parser claim and the name length claim -/

/-- Counterexample to C17: the text ` 42`, which starts with a space, is accepted with
the value 42; and the text of twenty times `9` followed by `x`, which has a trailing
character, gives `CI_OVERFLOW`, not `CI_INVALID`. -/
theorem parse_long_space_and_range :
    ci_parse_long (some (bytes " 42")) (some 0) = (CI_OK, some 42) ∧
    ci_parse_long (some (bytes "99999999999999999999x")) (some 0) = (CI_OVERFLOW, some 0) := by
  decide

/-- C17 as amended, integer syntax: `ci_parse_long` accepts exactly the texts made of
optional white space, an optional sign and one or more decimal digits whose value is in
the range of `long`, and writes that value. It returns `CI_INVALID` and writes no value
for every text without a digit behind the optional white space and sign (the empty text
included) and for every text with a character behind the digits of a number in range
(white space included). When the digits give a value out of range it returns
`CI_OVERFLOW`, whatever follows them, and writes no value. -/
theorem parse_long_form :
    (∀ (ws sg ds : List Nat) (old : Int), (∀ c ∈ ws, isspace c = true) →
      (sg = [] ∨ sg = [PLUS] ∨ sg = [MINUS]) → (∀ c ∈ ds, isdigit c = true) → ds ≠ [] →
      LONG_MIN ≤ signed_value sg ds → signed_value sg ds ≤ LONG_MAX →
      ci_parse_long (some (ws ++ sg ++ ds)) (some old) = (CI_OK, some (signed_value sg ds))) ∧
    (∀ (t : List Nat) (old : Int) (v : Option Int),
      ci_parse_long (some t) (some old) = (CI_OK, v) →
      ∃ ws sg ds, cstr t = ws ++ sg ++ ds ∧ (∀ c ∈ ws, isspace c = true) ∧
        (sg = [] ∨ sg = [PLUS] ∨ sg = [MINUS]) ∧ (∀ c ∈ ds, isdigit c = true) ∧ ds ≠ [] ∧
        LONG_MIN ≤ signed_value sg ds ∧ signed_value sg ds ≤ LONG_MAX ∧
        v = some (signed_value sg ds)) ∧
    (∀ (ws sg rest : List Nat) (old : Int), (∀ c ∈ ws, isspace c = true) →
      (sg = [] ∨ sg = [PLUS] ∨ sg = [MINUS]) →
      (∀ c, rest.head? = some c → isdigit c = false) →
      (sg = [] → ∀ c, rest.head? = some c → isspace c = false ∧ c ≠ MINUS ∧ c ≠ PLUS) →
      ci_parse_long (some (ws ++ sg ++ rest)) (some old) = (CI_INVALID, some old)) ∧
    (∀ (ws sg ds rest : List Nat) (old : Int), (∀ c ∈ ws, isspace c = true) →
      (sg = [] ∨ sg = [PLUS] ∨ sg = [MINUS]) → (∀ c ∈ ds, isdigit c = true) → ds ≠ [] →
      (∀ c, rest.head? = some c → isdigit c = false) →
      LONG_MIN ≤ signed_value sg ds → signed_value sg ds ≤ LONG_MAX → cstr rest ≠ [] →
      ci_parse_long (some (ws ++ sg ++ ds ++ rest)) (some old) = (CI_INVALID, some old)) ∧
    (∀ (ws sg ds rest : List Nat) (old : Int), (∀ c ∈ ws, isspace c = true) →
      (sg = [] ∨ sg = [PLUS] ∨ sg = [MINUS]) → (∀ c ∈ ds, isdigit c = true) → ds ≠ [] →
      (∀ c, rest.head? = some c → isdigit c = false) →
      (signed_value sg ds > LONG_MAX ∨ signed_value sg ds < LONG_MIN) →
      ci_parse_long (some (ws ++ sg ++ ds ++ rest)) (some old) = (CI_OVERFLOW, some old)) := by
  refine ⟨?_, parse_ok_shape, parse_no_number, ?_, ?_⟩
  · intro ws sg ds old hws hsg hds hne hlo hhi
    have h := parse_number ws sg ds [] old hws hsg hds hne (fun c hc => by simp at hc)
    rw [List.append_nil] at h
    rw [h, if_neg (by omega)]
    simp [cstr]
  · intro ws sg ds rest old hws hsg hds hne hrest hlo hhi hr
    rw [parse_number ws sg ds rest old hws hsg hds hne hrest, if_neg (by omega), if_pos hr]
  · intro ws sg ds rest old hws hsg hds hne hrest hrange
    rw [parse_number ws sg ds rest old hws hsg hds hne hrest, if_pos hrange]

/-- Witness of C17 as amended: `-7` behind a space is accepted, `abc` and `42 ` are
refused, twenty times `9` before `x` is out of range. -/
theorem parse_long_form_witness :
    ci_parse_long (some ([32] ++ [MINUS] ++ [55])) (some 0) = (CI_OK, some (-7)) ∧
    ci_parse_long (some ([] ++ [] ++ bytes "abc")) (some 5) = (CI_INVALID, some 5) ∧
    ci_parse_long (some ([] ++ [] ++ bytes "42" ++ [32])) (some 5) = (CI_INVALID, some 5) ∧
    ci_parse_long (some ([] ++ [] ++ List.replicate 20 57 ++ [120])) (some 5) =
      (CI_OVERFLOW, some 5) :=
  ⟨parse_long_form.1 [32] [MINUS] [55] 0 (by decide) (Or.inr (Or.inr rfl)) (by decide)
      (by decide) (by decide) (by decide),
    parse_long_form.2.2.1 [] [] (bytes "abc") 5 (by decide) (Or.inl rfl) (by decide)
      (by decide),
    parse_long_form.2.2.2.1 [] [] (bytes "42") [32] 5 (by decide) (Or.inl rfl) (by decide)
      (by decide) (by decide) (by decide) (by decide) (by decide),
    parse_long_form.2.2.2.2 [] [] (List.replicate 20 57) [120] 5 (by decide) (Or.inl rfl)
      (by decide) (by decide) (by decide) (Or.inl (by decide))⟩

theorem lookup_after_append (s : State) (name : List Nat) (cb ud : Nat)
    (hlen : strlen name < CI_COMMAND_MAX_LEN) (hcount : s.ci_command_count < CI_MAX_COMMANDS)
    (hs : scan name s = none) :
    ci_lookup_command (some name) (ci_register_command (some name) cb ud s).2 =
      if cb = 0 then none
      else some ⟨(strncpy name CI_COMMAND_MAX_LEN).set (CI_COMMAND_MAX_LEN - 1) 0, cb, ud⟩ := by
  by_cases hcb : cb = 0
  · rw [if_pos hcb]
    simp only [ci_register_command, if_pos hcb]
    exact lookup_none_of_scan hs
  rw [if_neg hcb, register_append_eq ud hcb hlen hs hcount]
  have hnp := scan_none_iff.1 hs
  have hscan : scan name { s with
      ci_commands := s.ci_commands.write s.ci_command_count
          ⟨(strncpy name CI_COMMAND_MAX_LEN).set (CI_COMMAND_MAX_LEN - 1) 0, cb, ud⟩,
      ci_command_count := s.ci_command_count + 1 } = some s.ci_command_count := by
    unfold scan
    simp only
    apply scan_from_first (Nat.zero_le _) (by omega)
    · rw [read_write_same _ _ _ hcount]
      apply (strcmp_eq_zero_iff _ _).2
      exact (stored_name name hlen).symm
    · intro j _ hj hm
      rw [read_below_new _ _ _ _ hj] at hm
      exact hnp ⟨j, hj, hm⟩
  rw [lookup_eq_of_scan hscan]
  simp only
  rw [read_write_same _ _ _ hcount]

theorem lookup_after_replace (s : State) (name : List Nat) (cb ud i : Nat) (hcb : cb ≠ 0)
    (hlen : strlen name < CI_COMMAND_MAX_LEN) (hi : i < CI_MAX_COMMANDS)
    (hs : scan name s = some i) :
    ci_lookup_command (some name) (ci_register_command (some name) cb ud s).2 =
      some ⟨(s.ci_commands.read i).command, cb, ud⟩ := by
  rw [register_found_eq ud hcb hlen hs]
  have hscan : scan name { s with
      ci_commands := s.ci_commands.write i ⟨(s.ci_commands.read i).command, cb, ud⟩ } =
      some i := by
    unfold scan
    simp only
    rw [scan_from_write_same_command name s.ci_commands i
      ⟨(s.ci_commands.read i).command, cb, ud⟩ rfl]
    exact hs
  rw [lookup_eq_of_scan hscan]
  simp only
  rw [read_write_same _ _ _ hi]

/-- C19, command name length bound: with a non-null callback, the registration of a name
of 64 or more characters returns `CI_OVERFLOW` and leaves the whole state as it was, in
every registry state; the registration of a name of exactly 63 characters returns
`CI_OK` when the table is not full, and a lookup of that name then finds an entry whose
stored name is the whole name, all 63 characters, with the given callback and
context. -/
theorem name_length_bound :
    (∀ (s : State) (name : List Nat) (cb ud : Nat), cb ≠ 0 → 64 ≤ strlen name →
      ci_register_command (some name) cb ud s = (CI_OVERFLOW, s)) ∧
    (∀ (s : State) (name : List Nat) (cb ud : Nat), cb ≠ 0 → strlen name = 63 →
      s.ci_command_count < CI_MAX_COMMANDS →
      (ci_register_command (some name) cb ud s).1 = CI_OK ∧
      ∃ e, ci_lookup_command (some name) (ci_register_command (some name) cb ud s).2 =
          some e ∧
        cstr e.command = cstr name ∧ strlen e.command = 63 ∧ e.cb = cb ∧ e.user_data = ud) := by
  refine ⟨?_, ?_⟩
  · intro s name cb ud hcb hlen
    have hl : strlen name ≥ CI_COMMAND_MAX_LEN := hlen
    simp only [ci_register_command, if_neg hcb, if_pos hl]
  · intro s name cb ud hcb hlen hcount
    have hl : strlen name < CI_COMMAND_MAX_LEN := by
      simp only [CI_COMMAND_MAX_LEN]
      omega
    cases hs : scan name s with
    | none =>
      refine ⟨by rw [register_append_eq ud hcb hl hs hcount],
        ⟨(strncpy name CI_COMMAND_MAX_LEN).set (CI_COMMAND_MAX_LEN - 1) 0, cb, ud⟩,
        ?_, ?_, ?_, rfl, rfl⟩
      · rw [lookup_after_append s name cb ud hl hcount hs, if_neg hcb]
      · exact stored_name name hl
      · simp only
        rw [strlen_eq_length_cstr, stored_name name hl, ← strlen_eq_length_cstr, hlen]
    | some i =>
      obtain ⟨hi, hm, _⟩ := scan_some hs
      have hc := (strcmp_eq_zero_iff _ _).1 hm
      refine ⟨by rw [register_found_eq ud hcb hl hs],
        ⟨(s.ci_commands.read i).command, cb, ud⟩, ?_, ?_, ?_, rfl, rfl⟩
      · exact lookup_after_replace s name cb ud i hcb hl (by omega) hs
      · exact hc.symm
      · simp only
        rw [strlen_eq_length_cstr, ← hc, ← strlen_eq_length_cstr, hlen]

theorem replicate_strlen (n : Nat) : strlen (List.replicate n 120) = n := by
  rw [strlen_nul_free (replicate_nul_free n), List.length_replicate]

/-- Witness of C19: a name of 64 times `x` is refused, a name of 63 times `x` is accepted
by the registry that holds `ping`, and found. -/
theorem name_length_bound_witness :
    ci_register_command (some (List.replicate 64 120)) 7 70 demo_one =
      (CI_OVERFLOW, demo_one) ∧
    (ci_register_command (some (List.replicate 63 120)) 7 70 demo_one).1 = CI_OK ∧
    ∃ e, ci_lookup_command (some (List.replicate 63 120))
          (ci_register_command (some (List.replicate 63 120)) 7 70 demo_one).2 = some e ∧
        cstr e.command = cstr (List.replicate 63 120) ∧ strlen e.command = 63 ∧ e.cb = 7 ∧
        e.user_data = 70 :=
  ⟨name_length_bound.1 demo_one (List.replicate 64 120) 7 70 (by decide)
      (by rw [replicate_strlen]),
    name_length_bound.2 demo_one (List.replicate 63 120) 7 70 (by decide)
      (replicate_strlen 63) (by decide)⟩

/-! ## Lemmas on the numeric read loop -/

theorem parse_status_eq (l : List Nat) (old : Int) :
    (ci_parse_long (some l) (some old)).1 = parse_status l := by
  unfold parse_status ci_parse_long
  simp only
  by_cases h1 : (strtol l).erange = true ∨ (strtol l).value > LONG_MAX ∨
      (strtol l).value < LONG_MIN
  · rw [if_pos h1, if_pos h1]
  · rw [if_neg h1, if_neg h1]
    by_cases h2 : (strtol l).endpos = 0 ∨ (cstr l).getD (strtol l).endpos 0 ≠ 0
    · rw [if_pos h2, if_pos h2]
    · rw [if_neg h2, if_neg h2]

theorem fgets_scan_length (k : Nat) (s : List Nat) :
    (fgets_scan k s).1.length + (fgets_scan k s).2.length = s.length := by
  induction s generalizing k with
  | nil => cases k <;> simp [fgets_scan]
  | cons c cs ih =>
    cases k with
    | zero => simp [fgets_scan]
    | succ k =>
      by_cases hc : c = NL
      · simp [fgets_scan, hc]
        omega
      · have := ih k
        simp [fgets_scan, hc]
        omega

theorem fgets_scan_progress (k : Nat) (c : Nat) (cs : List Nat) :
    (fgets_scan (k + 1) (c :: cs)).2.length < (c :: cs).length := by
  have h := fgets_scan_length (k + 1) (c :: cs)
  have hpos : 0 < (fgets_scan (k + 1) (c :: cs)).1.length := by
    by_cases hc : c = NL
    · simp [fgets_scan, hc]
    · simp [fgets_scan, hc]
  omega

theorem discard_line_length (s : List Nat) : (discard_line s).1.length ≤ s.length := by
  induction s with
  | nil => simp [discard_line]
  | cons c cs ih =>
    by_cases hc : c = NL
    · simp [discard_line, hc]
    · simp [discard_line, hc]
      omega

theorem drain_line_length (st : FILE) : (drain_line st).data.length ≤ st.data.length := by
  unfold drain_line
  split
  · exact le_refl _
  · exact discard_line_length _

/-- With a buffer of 2 to `INT_MAX` bytes a read either meets the end of the input or
takes at least one character from it; on a stream without read errors it does not fail
with `CI_INVALID`. -/
theorem read_progress {size : Nat} (h2 : 2 ≤ size) (hmax : size < 2 ^ 31) (stream : FILE)
    (prompt : Option (List Nat)) (buf out : List Nat) :
    (ci_read_line_internal stream prompt (some buf) size out).status ≠ CI_INVALID ∧
    ((ci_read_line_internal stream prompt (some buf) size out).status = CI_EOF ∨
      (ci_read_line_internal stream prompt (some buf) size out).stream.data.length <
        stream.data.length) := by
  obtain ⟨data, e⟩ := stream
  cases e with
  | true =>
    rw [read_at_eof h2 hmax data prompt buf out]
    exact ⟨(fun h => by cases h), Or.inl rfl⟩
  | false =>
    cases data with
    | nil =>
      rw [read_at_end h2 hmax false prompt buf out]
      exact ⟨(fun h => by cases h), Or.inl rfl⟩
    | cons c cs =>
      have hk : size - 1 = (size - 2) + 1 := by omega
      have hprog := fgets_scan_progress (size - 2) c cs
      rw [← hk] at hprog
      rw [read_internal_of_fgets (by omega) _ prompt buf out _ _ (fgets_eq h2 hmax c cs)]
      split
      · exact ⟨(fun h => by cases h), Or.inr hprog⟩
      · split
        · refine ⟨(fun h => by cases h), Or.inr ?_⟩
          exact lt_of_le_of_lt (drain_line_length _) hprog
        · exact ⟨(fun h => by cases h), Or.inr hprog⟩

/-- The result of a read does not depend on what the buffer held before, except for the
buffer itself when nothing is read. -/
theorem read_buffer_independent (size : Nat) (stream : FILE) (prompt : Option (List Nat))
    (b1 b2 out : List Nat) :
    (ci_read_line_internal stream prompt (some b1) size out).status =
      (ci_read_line_internal stream prompt (some b2) size out).status ∧
    (ci_read_line_internal stream prompt (some b1) size out).stream =
      (ci_read_line_internal stream prompt (some b2) size out).stream ∧
    (ci_read_line_internal stream prompt (some b1) size out).stdout =
      (ci_read_line_internal stream prompt (some b2) size out).stdout ∧
    ((ci_read_line_internal stream prompt (some b1) size out).status = CI_OK ∨
      (ci_read_line_internal stream prompt (some b1) size out).status = CI_OVERFLOW →
      (ci_read_line_internal stream prompt (some b1) size out).buffer =
        (ci_read_line_internal stream prompt (some b2) size out).buffer) := by
  by_cases h0 : size = 0
  · subst h0
    simp [ci_read_line_internal]
  · cases hf : fgets (int_of_size size) stream with
    | mk res stream1 =>
      cases res with
      | none =>
        rw [read_internal_of_null h0 _ prompt b1 out _ hf,
          read_internal_of_null h0 _ prompt b2 out _ hf]
        refine ⟨rfl, rfl, rfl, ?_⟩
        simp only
        intro h
        rcases h with h | h <;> split at h <;> cases h
      | some raw =>
        rw [read_internal_of_fgets h0 _ prompt b1 out _ _ hf,
          read_internal_of_fgets h0 _ prompt b2 out _ _ hf]
        exact ⟨rfl, rfl, rfl, fun _ => rfl⟩

theorem loop_buffer_independent (prompt : Option (List Nat)) (fuel : Nat) :
    ∀ (b1 b2 : List Nat) (ov : Option Int) (stdin : FILE) (o : List Nat),
      prompt_numeric_loop prompt fuel b1 ov stdin o =
        prompt_numeric_loop prompt fuel b2 ov stdin o := by
  induction fuel with
  | zero =>
    intro b1 b2 ov stdin o
    rfl
  | succ fuel ih =>
    intro b1 b2 ov stdin o
    obtain ⟨hs, hst, ho, hb⟩ := read_buffer_independent 128 stdin prompt b1 b2 o
    unfold prompt_numeric_loop ci_prompt_line
    simp only
    rw [← hs, ← hst, ← ho]
    by_cases h1 : (ci_read_line_internal stdin prompt (some b1) 128 o).status = CI_EOF
    · simp only [if_pos h1]
    · simp only [if_neg h1]
      by_cases h2 : (ci_read_line_internal stdin prompt (some b1) 128 o).status = CI_OVERFLOW
      · simp only [if_pos h2]
        exact ih _ _ _ _ _
      · simp only [if_neg h2]
        by_cases h3 : (ci_read_line_internal stdin prompt (some b1) 128 o).status ≠ CI_OK
        · simp only [if_pos h3]
        · simp only [if_neg h3]
          have hok : (ci_read_line_internal stdin prompt (some b1) 128 o).status = CI_OK := by
            simpa using h3
          rw [← hb (Or.inl hok)]

theorem loop_step_end (prompt : Option (List Nat)) (fuel : Nat) (buf : List Nat)
    (ov : Option Int) (e : Bool) (o : List Nat) :
    prompt_numeric_loop prompt (fuel + 1) buf ov ⟨[], e⟩ o =
      some ⟨CI_EOF, ov, ⟨[], true⟩, after_prompt prompt o⟩ := by
  unfold prompt_numeric_loop ci_prompt_line
  simp only
  rw [read_at_end (by decide) (by decide) e prompt buf o]
  simp

/-- One turn of the loop with the end-of-file indicator set: `CI_EOF` at once, nothing is
read. -/
theorem loop_step_at_eof (prompt : Option (List Nat)) (fuel : Nat) (buf : List Nat)
    (ov : Option Int) (d : List Nat) (o : List Nat) :
    prompt_numeric_loop prompt (fuel + 1) buf ov ⟨d, true⟩ o =
      some ⟨CI_EOF, ov, ⟨d, true⟩, after_prompt prompt o⟩ := by
  unfold prompt_numeric_loop ci_prompt_line
  simp only
  rw [read_at_eof (by decide) (by decide) d prompt buf o]
  simp

/-- One turn of the loop on a terminated line that fits the buffer. -/
theorem loop_step_line (prompt : Option (List Nat)) (fuel : Nat) (buf : List Nat)
    (ov : Option Int) (l rest : List Nat) (o : List Nat)
    (hl : newline_free l) (hlen : l.length ≤ 126) :
    prompt_numeric_loop prompt (fuel + 1) buf ov ⟨l ++ NL :: rest, false⟩ o =
      if (ci_parse_long (some l) ov).1 = CI_INVALID then
        prompt_numeric_loop prompt fuel buf ov ⟨rest, false⟩
          (after_prompt prompt o ++ invalid_notice)
      else
        some ⟨(ci_parse_long (some l) ov).1, (ci_parse_long (some l) ov).2, ⟨rest, false⟩,
          after_prompt prompt o⟩ := by
  obtain ⟨h1, h2, h3, h4⟩ := @read_short_line 128 (by decide) l rest prompt buf o hl
    (by omega)
  have hp := parse_congr ov h3
  rw [prompt_numeric_loop]
  unfold ci_prompt_line
  simp only [h1, h2, h4, hp]
  by_cases hinv : (ci_parse_long (some l) ov).1 = CI_INVALID
  · have hk := parse_keeps (some l) ov (by rw [hinv]; decide)
    simp only [hinv, hk, if_true]
    simp
    exact loop_buffer_independent prompt fuel _ _ _ _ _
  · simp [hinv]

/-- One turn of the loop on a final line without newline that fits the buffer. -/
theorem loop_step_last (prompt : Option (List Nat)) (fuel : Nat) (buf : List Nat)
    (ov : Option Int) (l : List Nat) (o : List Nat)
    (hne : l ≠ []) (hl : newline_free l) (hlen : l.length ≤ 126) :
    prompt_numeric_loop prompt (fuel + 1) buf ov ⟨l, false⟩ o =
      if (ci_parse_long (some l) ov).1 = CI_INVALID then
        prompt_numeric_loop prompt fuel buf ov ⟨[], true⟩
          (after_prompt prompt o ++ invalid_notice)
      else
        some ⟨(ci_parse_long (some l) ov).1, (ci_parse_long (some l) ov).2, ⟨[], true⟩,
          after_prompt prompt o⟩ := by
  have hr := @read_short_end 128 (by decide) l prompt buf o hne hl (by omega)
  rw [prompt_numeric_loop]
  unfold ci_prompt_line
  simp only [hr]
  by_cases hinv : (ci_parse_long (some l) ov).1 = CI_INVALID
  · have hk := parse_keeps (some l) ov (by rw [hinv]; decide)
    simp only [hinv, hk, if_true]
    simp
    exact loop_buffer_independent prompt fuel _ _ _ _ _
  · simp [hinv]

/-- One turn of the loop on a line of 127 or more characters. -/
theorem loop_step_long (prompt : Option (List Nat)) (fuel : Nat) (buf : List Nat)
    (ov : Option Int) (p tail : List Nat) (o : List Nat)
    (hp : newline_free p) (hnf : nul_free p) (hlen : p.length = 127) :
    prompt_numeric_loop prompt (fuel + 1) buf ov ⟨p ++ tail, false⟩ o =
      prompt_numeric_loop prompt fuel buf ov
        ⟨(discard_line tail).1, (discard_line tail).2⟩
        (after_prompt prompt o ++ too_long_notice) := by
  have hr := @read_long_line 128 (by decide) (by decide) p tail prompt buf o hp hnf
    (by omega)
  rw [prompt_numeric_loop]
  unfold ci_prompt_line
  simp only [hr]
  simp
  exact loop_buffer_independent prompt fuel _ _ _ _ _

/-- The loop ends on every finite input: a bound of one more than the number of
characters left is enough. -/
theorem loop_terminates (prompt : Option (List Nat)) (fuel : Nat) :
    ∀ (buf : List Nat) (ov : Option Int) (stdin : FILE) (o : List Nat),
      stdin.data.length < fuel →
      ∃ r, prompt_numeric_loop prompt fuel buf ov stdin o = some r := by
  induction fuel with
  | zero =>
    intro buf ov stdin o h
    omega
  | succ fuel ih =>
    intro buf ov stdin o h
    obtain ⟨hninv, hprog⟩ := @read_progress 128 (by decide) (by decide) stdin prompt
      buf o
    rw [prompt_numeric_loop]
    unfold ci_prompt_line
    simp only
    by_cases h1 : (ci_read_line_internal stdin prompt (some buf) 128 o).status = CI_EOF
    · simp only [if_pos h1]
      exact ⟨_, rfl⟩
    · have hlt : (ci_read_line_internal stdin prompt (some buf) 128 o).stream.data.length <
          fuel := by
        rcases hprog with h | h
        · exact absurd h h1
        · omega
      simp only [if_neg h1]
      by_cases h2 : (ci_read_line_internal stdin prompt (some buf) 128 o).status = CI_OVERFLOW
      · simp only [if_pos h2]
        exact ih _ _ _ _ hlt
      · simp only [if_neg h2]
        by_cases h3 : (ci_read_line_internal stdin prompt (some buf) 128 o).status ≠ CI_OK
        · simp only [if_pos h3]
          exact ⟨_, rfl⟩
        · simp only [if_neg h3]
          split
          · exact ih _ _ _ _ hlt
          · exact ⟨_, rfl⟩

theorem lines_text_cons (x tail : List Nat) (rest : List (List Nat)) :
    lines_text (x :: rest) ++ tail = x ++ NL :: (lines_text rest ++ tail) := by
  simp [lines_text]

/-- The loop passes over every skipped line: it goes on with the input behind them and
the same `*out_value`. -/
theorem loop_skips (prompt : Option (List Nat)) (old : Int) (ls : List (List Nat)) :
    (∀ x ∈ ls, skipped_line x) →
    ∀ (fuel : Nat) (buf tail : List Nat) (o : List Nat),
      ∃ o2, prompt_numeric_loop prompt (ls.length + fuel) buf (some old)
          ⟨lines_text ls ++ tail, false⟩ o =
        prompt_numeric_loop prompt fuel buf (some old) ⟨tail, false⟩ o2 := by
  induction ls with
  | nil =>
    intro _ fuel buf tail o
    exact ⟨o, by simp [lines_text]⟩
  | cons x rest ih =>
    intro hall fuel buf tail o
    have hx := hall x (List.mem_cons_self _ _)
    have hrest : ∀ y ∈ rest, skipped_line y := fun y hy => hall y (List.mem_cons_of_mem _ hy)
    have hfuel : (x :: rest).length + fuel = (rest.length + fuel) + 1 := by
      simp only [List.length_cons]
      omega
    rw [hfuel, lines_text_cons x tail rest]
    obtain ⟨hnl, hcase⟩ := hx
    rcases hcase with ⟨hshort, hinv⟩ | ⟨hlong, hnf⟩
    · rw [loop_step_line prompt _ buf (some old) x _ o hnl hshort,
        if_pos (by rw [parse_status_eq]; exact hinv)]
      exact ih hrest fuel buf tail _
    · have hsplit : x = x.take 127 ++ x.drop 127 := (List.take_append_drop 127 x).symm
      have hp : newline_free (x.take 127) := fun c hc => hnl c (List.mem_of_mem_take hc)
      have hm : newline_free (x.drop 127) := fun c hc => hnl c (List.mem_of_mem_drop hc)
      have hlen : (x.take 127).length = 127 := by
        rw [List.length_take]
        omega
      have hin : x ++ NL :: (lines_text rest ++ tail) =
          x.take 127 ++ (x.drop 127 ++ NL :: (lines_text rest ++ tail)) := by
        rw [← List.append_assoc, List.take_append_drop]
      rw [hin, loop_step_long prompt _ buf (some old) (x.take 127) _ o hp hnf hlen,
        discard_line_eq _ _ hm]
      simp only [Bool.or_false]
      exact ih hrest fuel buf tail _

/-- What the loop can return: `CI_EOF` with `*out_value` as it was, or the result of
`ci_parse_long` on a line it read, which is then not `CI_INVALID`. -/
theorem loop_result (prompt : Option (List Nat)) (fuel : Nat) :
    ∀ (buf : List Nat) (ov : Option Int) (stdin : FILE) (o : List Nat) (r : NumResult),
      prompt_numeric_loop prompt fuel buf ov stdin o = some r →
      (r.status = CI_EOF ∧ r.value = ov) ∨
      (∃ b, ci_parse_long (some b) ov = (r.status, r.value) ∧ r.status ≠ CI_INVALID) := by
  induction fuel with
  | zero =>
    intro buf ov stdin o r h
    simp [prompt_numeric_loop] at h
  | succ fuel ih =>
    intro buf ov stdin o r h
    obtain ⟨hninv, _⟩ := @read_progress 128 (by decide) (by decide) stdin prompt
      buf o
    rw [prompt_numeric_loop] at h
    unfold ci_prompt_line at h
    simp only at h
    by_cases h1 : (ci_read_line_internal stdin prompt (some buf) 128 o).status = CI_EOF
    · simp only [if_pos h1, Option.some.injEq] at h
      left
      rw [← h]
      exact ⟨rfl, rfl⟩
    · simp only [if_neg h1] at h
      by_cases h2 : (ci_read_line_internal stdin prompt (some buf) 128 o).status = CI_OVERFLOW
      · simp only [if_pos h2] at h
        exact ih _ _ _ _ _ h
      · simp only [if_neg h2] at h
        by_cases h3 : (ci_read_line_internal stdin prompt (some buf) 128 o).status ≠ CI_OK
        · exfalso
          cases hst : (ci_read_line_internal stdin prompt (some buf) 128 o).status with
          | CI_OK => exact h3 hst
          | CI_EOF => exact h1 hst
          | CI_OVERFLOW => exact h2 hst
          | CI_INVALID => exact hninv hst
        · simp only [if_neg h3] at h
          by_cases h4 : (ci_parse_long
              (some (ci_read_line_internal stdin prompt (some buf) 128 o).buffer) ov).1 =
              CI_INVALID
          · simp only [if_pos h4] at h
            have hk := parse_keeps _ ov (by rw [h4]; decide)
            rw [hk] at h
            exact ih _ _ _ _ _ h
          · simp only [if_neg h4, Option.some.injEq] at h
            right
            refine ⟨(ci_read_line_internal stdin prompt (some buf) 128 o).buffer, ?_, ?_⟩
            · rw [← h]
            · rw [← h]
              exact h4

/-! ## Decimal text of an integer -/

theorem isdigit_iff (c : Nat) : isdigit c = true ↔ 48 ≤ c ∧ c ≤ 57 := by
  simp [isdigit]

theorem digits_value_snoc (xs : List Nat) (c : Nat) :
    digits_value (xs ++ [c]) = digits_value xs * 10 + (c - 48) := by
  simp [digits_value, List.foldl_append]

theorem nat_text_aux_append (fuel : Nat) :
    ∀ (n : Nat) (acc : List Nat), nat_text_aux fuel n acc = nat_text_aux fuel n [] ++ acc := by
  induction fuel with
  | zero =>
    intro n acc
    simp [nat_text_aux]
  | succ fuel ih =>
    intro n acc
    rw [nat_text_aux, nat_text_aux]
    by_cases h : n < 10
    · simp [if_pos h]
    · rw [if_neg h, if_neg h, ih (n / 10) ((48 + n % 10) :: acc), ih (n / 10) [48 + n % 10]]
      simp

theorem nat_text_aux_step (fuel n : Nat) (h : ¬ n < 10) :
    nat_text_aux (fuel + 1) n [] = nat_text_aux fuel (n / 10) [] ++ [48 + n % 10] := by
  rw [nat_text_aux, if_neg h, nat_text_aux_append]

theorem nat_text_aux_small (fuel n : Nat) (h : n < 10) :
    nat_text_aux (fuel + 1) n [] = [48 + n] := by
  rw [nat_text_aux, if_pos h]

/-- With enough fuel the digits written are decimal digits, there is at least one, and
they denote the number. -/
theorem nat_text_aux_spec (fuel : Nat) :
    ∀ n, n < fuel → digits_value (nat_text_aux fuel n []) = n ∧
      (∀ c ∈ nat_text_aux fuel n [], isdigit c = true) ∧ nat_text_aux fuel n [] ≠ [] := by
  induction fuel with
  | zero =>
    intro n h
    omega
  | succ fuel ih =>
    intro n h
    by_cases h10 : n < 10
    · rw [nat_text_aux_small fuel n h10]
      refine ⟨by simp [digits_value], ?_, by simp⟩
      intro c hc
      rw [List.mem_singleton] at hc
      rw [isdigit_iff]
      omega
    · rw [nat_text_aux_step fuel n h10]
      have hlt : n / 10 < fuel := by omega
      obtain ⟨hv, hd, _⟩ := ih (n / 10) hlt
      refine ⟨?_, ?_, by simp⟩
      · rw [digits_value_snoc, hv]
        omega
      · intro c hc
        rw [List.mem_append, List.mem_singleton] at hc
        rcases hc with hc | hc
        · exact hd c hc
        · rw [isdigit_iff]
          omega

theorem nat_text_aux_length (k : Nat) :
    ∀ fuel n, n < 10 ^ (k + 1) → (nat_text_aux fuel n []).length ≤ k + 1 := by
  induction k with
  | zero =>
    intro fuel n h
    cases fuel with
    | zero => simp [nat_text_aux]
    | succ fuel =>
      rw [nat_text_aux_small fuel n (by simpa using h)]
      simp
  | succ k ih =>
    intro fuel n h
    cases fuel with
    | zero => simp [nat_text_aux]
    | succ fuel =>
      by_cases h10 : n < 10
      · rw [nat_text_aux_small fuel n h10]
        simp
      · rw [nat_text_aux_step fuel n h10, List.length_append]
        have hq : n / 10 < 10 ^ (k + 1) := by
          rw [Nat.div_lt_iff_lt_mul (by decide)]
          calc n < 10 ^ (k + 1 + 1) := h
            _ = 10 ^ (k + 1) * 10 := by rw [pow_succ]
        have := ih fuel (n / 10) hq
        simp only [List.length_singleton]
        omega

theorem nat_text_spec (n : Nat) :
    digits_value (nat_text n) = n ∧ (∀ c ∈ nat_text n, isdigit c = true) ∧ nat_text n ≠ [] :=
  nat_text_aux_spec (n + 1) n (Nat.lt_succ_self n)

/-- The decimal text of an integer is an optional minus sign and digits denoting it. -/
theorem int_text_shape (v : Int) :
    ∃ sg ds, int_text v = sg ++ ds ∧ (sg = [] ∨ sg = [MINUS]) ∧
      (∀ c ∈ ds, isdigit c = true) ∧ ds ≠ [] ∧ signed_value sg ds = v := by
  obtain ⟨hv, hd, hne⟩ := nat_text_spec v.natAbs
  by_cases h : v < 0
  · refine ⟨[MINUS], nat_text v.natAbs, ?_, Or.inr rfl, hd, hne, ?_⟩
    · simp [int_text, if_pos h]
    · simp only [signed_value, if_true, hv]
      omega
  · refine ⟨[], nat_text v.natAbs, ?_, Or.inl rfl, hd, hne, ?_⟩
    · simp [int_text, if_neg h]
    · have hs : ¬ (([] : List Nat) = [MINUS]) := by simp
      simp only [signed_value, if_neg hs, hv]
      omega

theorem int_text_length (v : Int) (hlo : LONG_MIN ≤ v) (hhi : v ≤ LONG_MAX) :
    (int_text v).length ≤ 20 := by
  have hn : v.natAbs < 10 ^ (18 + 1) := by
    unfold LONG_MIN at hlo
    unfold LONG_MAX at hhi
    norm_num at hlo hhi ⊢
    omega
  have := nat_text_aux_length 18 (v.natAbs + 1) v.natAbs hn
  unfold int_text
  split
  · simp only [List.length_cons]
    unfold nat_text
    omega
  · unfold nat_text
    omega

theorem digits_newline_free {ds : List Nat} (hds : ∀ c ∈ ds, isdigit c = true) :
    newline_free ds := by
  intro c hc h
  have := (isdigit_iff c).1 (hds c hc)
  unfold NL at h
  omega

theorem number_newline_free {sg ds : List Nat} (hsg : sg = [] ∨ sg = [PLUS] ∨ sg = [MINUS])
    (hds : ∀ c ∈ ds, isdigit c = true) : newline_free (sg ++ ds) := by
  intro c hc
  rw [List.mem_append] at hc
  rcases hc with hc | hc
  · rcases hsg with h | h | h <;> rw [h] at hc <;> simp at hc <;> rw [hc] <;> decide
  · exact digits_newline_free hds c hc

/-- Parsing an optional sign followed by digits and nothing else. -/
theorem parse_plain_number (sg ds : List Nat) (old : Int)
    (hsg : sg = [] ∨ sg = [PLUS] ∨ sg = [MINUS]) (hds : ∀ c ∈ ds, isdigit c = true)
    (hne : ds ≠ []) :
    ci_parse_long (some (sg ++ ds)) (some old) =
      if signed_value sg ds > LONG_MAX ∨ signed_value sg ds < LONG_MIN then
        (CI_OVERFLOW, some old)
      else (CI_OK, some (signed_value sg ds)) := by
  have h := parse_number [] sg ds [] old (fun c hc => by cases hc) hsg hds hne
    (fun c hc => by cases hc)
  simp only [List.nil_append, List.append_nil] at h
  rw [h]
  have hc : ¬ (cstr [] ≠ []) := by simp [cstr]
  rw [if_neg hc]

/-! ## Numeric round trip and range overflow -/

/-- The numeric loop on a first line that is an optional sign and digits, of at most 126
characters: one read, and the result of the parse is returned. -/
theorem loop_number_line (prompt : Option (List Nat)) (fuel : Nat) (buf sg ds rest : List Nat)
    (old : Int) (o : List Nat)
    (hsg : sg = [] ∨ sg = [PLUS] ∨ sg = [MINUS]) (hds : ∀ c ∈ ds, isdigit c = true)
    (hne : ds ≠ []) (hlen : (sg ++ ds).length ≤ 126) :
    prompt_numeric_loop prompt (fuel + 1) buf (some old) ⟨sg ++ ds ++ NL :: rest, false⟩ o =
      some (if signed_value sg ds > LONG_MAX ∨ signed_value sg ds < LONG_MIN then
        ⟨CI_OVERFLOW, some old, ⟨rest, false⟩, after_prompt prompt o⟩
      else ⟨CI_OK, some (signed_value sg ds), ⟨rest, false⟩, after_prompt prompt o⟩) := by
  rw [loop_step_line prompt fuel buf (some old) (sg ++ ds) rest o
    (number_newline_free hsg hds) hlen, parse_plain_number sg ds old hsg hds hne]
  by_cases h : signed_value sg ds > LONG_MAX ∨ signed_value sg ds < LONG_MIN
  · simp only [if_pos h]
    rw [if_neg (by decide)]
  · simp only [if_neg h]
    rw [if_neg (by decide)]

/-- The same on a last line that has no newline. -/
theorem loop_number_last (prompt : Option (List Nat)) (fuel : Nat) (buf sg ds : List Nat)
    (old : Int) (o : List Nat)
    (hsg : sg = [] ∨ sg = [PLUS] ∨ sg = [MINUS]) (hds : ∀ c ∈ ds, isdigit c = true)
    (hne : ds ≠ []) (hlen : (sg ++ ds).length ≤ 126) :
    prompt_numeric_loop prompt (fuel + 1) buf (some old) ⟨sg ++ ds, false⟩ o =
      some (if signed_value sg ds > LONG_MAX ∨ signed_value sg ds < LONG_MIN then
        ⟨CI_OVERFLOW, some old, ⟨[], true⟩, after_prompt prompt o⟩
      else ⟨CI_OK, some (signed_value sg ds), ⟨[], true⟩, after_prompt prompt o⟩) := by
  have hne2 : sg ++ ds ≠ [] := by
    intro h
    exact hne (List.append_eq_nil.1 h).2
  rw [loop_step_last prompt fuel buf (some old) (sg ++ ds) o hne2
    (number_newline_free hsg hds) hlen, parse_plain_number sg ds old hsg hds hne]
  by_cases h : signed_value sg ds > LONG_MAX ∨ signed_value sg ds < LONG_MIN
  · simp only [if_pos h]
    rw [if_neg (by decide)]
  · simp only [if_neg h]
    rw [if_neg (by decide)]

/-- What `ci_read_int` makes of the result of the numeric loop. -/
theorem read_int_of_loop (prompt : Option (List Nat)) (fuel : Nat) (val out_value : Int)
    (stdin : FILE) (o : List Nat) (r : NumResult)
    (h : prompt_numeric_loop prompt fuel [] (some val) stdin o = some r) :
    ci_read_int prompt fuel val out_value stdin o =
      if r.status ≠ CI_OK then some ⟨r.status, some out_value, r.stdin, r.stdout⟩
      else if r.value.getD val > INT_MAX ∨ r.value.getD val < INT_MIN then
        some ⟨CI_OVERFLOW, some out_value, r.stdin, r.stdout⟩
      else some ⟨CI_OK, some (r.value.getD val), r.stdin, r.stdout⟩ := by
  unfold ci_read_int ci_prompt_numeric
  rw [h]

theorem int_range_in_long {v : Int} (hlo : INT_MIN ≤ v) (hhi : v ≤ INT_MAX) :
    ¬ (v > LONG_MAX ∨ v < LONG_MIN) := by
  unfold INT_MIN at hlo
  unfold INT_MAX at hhi
  unfold LONG_MAX LONG_MIN
  norm_num at hlo hhi ⊢
  omega

/-- The numeric reads with the end-of-file indicator of the standard input set: `CI_EOF`
at once, the output value and the input as they were. -/
theorem numeric_at_eof (prompt : Option (List Nat)) (fuel : Nat) (old val : Int)
    (d : List Nat) (o : List Nat) :
    ci_read_long prompt (fuel + 1) (some old) ⟨d, true⟩ o =
      some ⟨CI_EOF, some old, ⟨d, true⟩, after_prompt prompt o⟩ ∧
    ci_read_int prompt (fuel + 1) val old ⟨d, true⟩ o =
      some ⟨CI_EOF, some old, ⟨d, true⟩, after_prompt prompt o⟩ := by
  constructor
  · unfold ci_read_long ci_prompt_numeric
    exact loop_step_at_eof prompt fuel [] (some old) d o
  · rw [read_int_of_loop prompt _ val old _ o _ (loop_step_at_eof prompt fuel [] (some val) d o)]
    rfl

/-- Counterexample to C15: the standard input holds the line `34`, the decimal text of
34, and its end-of-file indicator is set. The line is not read: `ci_read_long` and
`ci_read_int` return `CI_EOF` and leave the output value (0) and the input as they
were. -/
theorem round_trip_at_eof_indicator :
    ci_read_long none 1 (some 0) ⟨int_text 34 ++ NL :: [], true⟩ [] =
      some ⟨CI_EOF, some 0, ⟨bytes "34\n", true⟩, []⟩ ∧
    ci_read_int none 1 0 0 ⟨int_text 34 ++ NL :: [], true⟩ [] =
      some ⟨CI_EOF, some 0, ⟨bytes "34\n", true⟩, []⟩ := by
  decide

/-- C15 as amended, numeric round trip: let the end-of-file indicator of the standard
input be clear. For every `v` in the range of `long`, `ci_read_long` on an input whose
first line is the decimal text of `v` (a minus sign when negative, then the digits)
returns `CI_OK` after one read and stores `v`, leaving the rest of the input; the same
holds when that line ends the input without a newline. For every `v` in the range of
`int`, `ci_read_int` does the same, whatever its local `val` held before. With the
indicator set both return `CI_EOF` at once and store nothing. -/
theorem numeric_round_trip (prompt : Option (List Nat)) (fuel : Nat) (v old val : Int)
    (rest : List Nat) (o : List Nat) :
    (LONG_MIN ≤ v → v ≤ LONG_MAX →
      ci_read_long prompt (fuel + 1) (some old) ⟨int_text v ++ NL :: rest, false⟩ o =
        some ⟨CI_OK, some v, ⟨rest, false⟩, after_prompt prompt o⟩ ∧
      ci_read_long prompt (fuel + 1) (some old) ⟨int_text v, false⟩ o =
        some ⟨CI_OK, some v, ⟨[], true⟩, after_prompt prompt o⟩) ∧
    (INT_MIN ≤ v → v ≤ INT_MAX →
      ci_read_int prompt (fuel + 1) val old ⟨int_text v ++ NL :: rest, false⟩ o =
        some ⟨CI_OK, some v, ⟨rest, false⟩, after_prompt prompt o⟩ ∧
      ci_read_int prompt (fuel + 1) val old ⟨int_text v, false⟩ o =
        some ⟨CI_OK, some v, ⟨[], true⟩, after_prompt prompt o⟩) ∧
    (ci_read_long prompt (fuel + 1) (some old) ⟨int_text v ++ NL :: rest, true⟩ o =
        some ⟨CI_EOF, some old, ⟨int_text v ++ NL :: rest, true⟩, after_prompt prompt o⟩ ∧
      ci_read_int prompt (fuel + 1) val old ⟨int_text v ++ NL :: rest, true⟩ o =
        some ⟨CI_EOF, some old, ⟨int_text v ++ NL :: rest, true⟩, after_prompt prompt o⟩) := by
  obtain ⟨sg, ds, ht, hsg, hds, hne, hv⟩ := int_text_shape v
  have hsg3 : sg = [] ∨ sg = [PLUS] ∨ sg = [MINUS] := by
    rcases hsg with h | h
    · exact Or.inl h
    · exact Or.inr (Or.inr h)
  have hline : ∀ old2 : Int, LONG_MIN ≤ v → v ≤ LONG_MAX →
      prompt_numeric_loop prompt (fuel + 1) [] (some old2) ⟨int_text v ++ NL :: rest, false⟩ o =
        some ⟨CI_OK, some v, ⟨rest, false⟩, after_prompt prompt o⟩ ∧
      prompt_numeric_loop prompt (fuel + 1) [] (some old2) ⟨int_text v, false⟩ o =
        some ⟨CI_OK, some v, ⟨[], true⟩, after_prompt prompt o⟩ := by
    intro old2 hlo hhi
    have hlen : (sg ++ ds).length ≤ 126 := by
      have := int_text_length v hlo hhi
      rw [ht] at this
      omega
    have hin : ¬ (signed_value sg ds > LONG_MAX ∨ signed_value sg ds < LONG_MIN) := by
      rw [hv]
      intro h
      rcases h with h | h
      · exact absurd hhi (not_le.2 h)
      · exact absurd hlo (not_le.2 h)
    constructor
    · rw [ht, loop_number_line prompt fuel [] sg ds rest old2 o hsg3 hds hne hlen,
        if_neg hin, hv]
    · rw [ht, loop_number_last prompt fuel [] sg ds old2 o hsg3 hds hne hlen,
        if_neg hin, hv]
  refine ⟨?_, ?_, numeric_at_eof prompt fuel old val _ o⟩
  · intro hlo hhi
    unfold ci_read_long ci_prompt_numeric
    exact hline old hlo hhi
  · intro hlo hhi
    have hl := int_range_in_long hlo hhi
    have hlo2 : LONG_MIN ≤ v := not_lt.1 (fun h => hl (Or.inr h))
    have hhi2 : v ≤ LONG_MAX := not_lt.1 (fun h => hl (Or.inl h))
    obtain ⟨h1, h2⟩ := hline val hlo2 hhi2
    have hi : ¬ (v > INT_MAX ∨ v < INT_MIN) := by
      intro h
      rcases h with h | h
      · exact absurd hhi (not_le.2 h)
      · exact absurd hlo (not_le.2 h)
    constructor
    · rw [read_int_of_loop prompt (fuel + 1) val old _ o _ h1]
      simp only [ne_eq, not_true_eq_false, if_false, Option.getD_some]
      rw [if_neg hi]
    · rw [read_int_of_loop prompt (fuel + 1) val old _ o _ h2]
      simp only [ne_eq, not_true_eq_false, if_false, Option.getD_some]
      rw [if_neg hi]

/-- Witness of C15 as amended: the texts of `-42` and of `LONG_MAX` followed by another
line. -/
theorem numeric_round_trip_witness :
    (LONG_MIN ≤ LONG_MAX ∧ LONG_MAX ≤ LONG_MAX ∧ INT_MIN ≤ (-42 : Int) ∧ (-42 : Int) ≤ INT_MAX) ∧
    int_text (-42) = bytes "-42" ∧
    ci_read_long none 1 (some 0) ⟨int_text LONG_MAX ++ NL :: ping, false⟩ [] =
      some ⟨CI_OK, some LONG_MAX, ⟨ping, false⟩, []⟩ ∧
    ci_read_int none 1 7 0 ⟨int_text (-42) ++ NL :: ping, false⟩ [] =
      some ⟨CI_OK, some (-42), ⟨ping, false⟩, []⟩ :=
  ⟨by decide, by decide,
    ((numeric_round_trip none 0 LONG_MAX 0 0 ping []).1 (by decide) (by decide)).1,
    ((numeric_round_trip none 0 (-42) 0 7 ping []).2.1 (by decide) (by decide)).1⟩

/-- Counterexample to C16: the standard input holds the line `999999999999`, a decimal
integer outside the range of `int`, and its end-of-file indicator is set. The line is
not read: `ci_read_int` returns `CI_EOF`, not `CI_OVERFLOW`; so does `ci_read_long` on a
line of twenty times `9`. -/
theorem range_overflow_at_eof_indicator :
    ci_read_int none 1 0 5 ⟨bytes "999999999999\n", true⟩ [] =
      some ⟨CI_EOF, some 5, ⟨bytes "999999999999\n", true⟩, []⟩ ∧
    ci_read_long none 1 (some 5) ⟨bytes "99999999999999999999\n", true⟩ [] =
      some ⟨CI_EOF, some 5, ⟨bytes "99999999999999999999\n", true⟩, []⟩ := by
  decide

/-- C16 as amended, numeric range overflow: let the end-of-file indicator of the standard
input be clear. When the first line is an optional sign followed by digits, at most 126
characters in all, and its value lies outside the range of `int` (inside the range of
`long` or not), `ci_read_int` returns `CI_OVERFLOW` after that one read: the input left
is what followed the line, nothing but the prompt was printed and `*out_value` is as
before. When the value lies outside the range of `long`, `ci_read_long` does the same.
Both hold as well for a last line without a newline. With the indicator set both return
`CI_EOF` at once. -/
theorem numeric_range_overflow (prompt : Option (List Nat)) (fuel : Nat) (sg ds : List Nat)
    (old val : Int) (rest : List Nat) (o : List Nat)
    (hsg : sg = [] ∨ sg = [PLUS] ∨ sg = [MINUS]) (hds : ∀ c ∈ ds, isdigit c = true)
    (hne : ds ≠ []) (hlen : (sg ++ ds).length ≤ 126) :
    (signed_value sg ds > INT_MAX ∨ signed_value sg ds < INT_MIN →
      ci_read_int prompt (fuel + 1) val old ⟨sg ++ ds ++ NL :: rest, false⟩ o =
        some ⟨CI_OVERFLOW, some old, ⟨rest, false⟩, after_prompt prompt o⟩ ∧
      ci_read_int prompt (fuel + 1) val old ⟨sg ++ ds, false⟩ o =
        some ⟨CI_OVERFLOW, some old, ⟨[], true⟩, after_prompt prompt o⟩) ∧
    (signed_value sg ds > LONG_MAX ∨ signed_value sg ds < LONG_MIN →
      ci_read_long prompt (fuel + 1) (some old) ⟨sg ++ ds ++ NL :: rest, false⟩ o =
        some ⟨CI_OVERFLOW, some old, ⟨rest, false⟩, after_prompt prompt o⟩ ∧
      ci_read_long prompt (fuel + 1) (some old) ⟨sg ++ ds, false⟩ o =
        some ⟨CI_OVERFLOW, some old, ⟨[], true⟩, after_prompt prompt o⟩) ∧
    (ci_read_long prompt (fuel + 1) (some old) ⟨sg ++ ds ++ NL :: rest, true⟩ o =
        some ⟨CI_EOF, some old, ⟨sg ++ ds ++ NL :: rest, true⟩, after_prompt prompt o⟩ ∧
      ci_read_int prompt (fuel + 1) val old ⟨sg ++ ds ++ NL :: rest, true⟩ o =
        some ⟨CI_EOF, some old, ⟨sg ++ ds ++ NL :: rest, true⟩, after_prompt prompt o⟩) := by
  have h1 := loop_number_line prompt fuel [] sg ds rest val o hsg hds hne hlen
  have h2 := loop_number_last prompt fuel [] sg ds val o hsg hds hne hlen
  refine ⟨?_, ?_, numeric_at_eof prompt fuel old val _ o⟩
  · intro hint
    rw [read_int_of_loop prompt (fuel + 1) val old _ o _ h1,
      read_int_of_loop prompt (fuel + 1) val old _ o _ h2]
    by_cases hl : signed_value sg ds > LONG_MAX ∨ signed_value sg ds < LONG_MIN
    · simp only [if_pos hl]
      constructor
      · rw [if_pos (by decide)]
      · rw [if_pos (by decide)]
    · simp only [if_neg hl, ne_eq, not_true_eq_false, if_false, Option.getD_some]
      constructor
      · rw [if_pos hint]
      · rw [if_pos hint]
  · intro hl
    unfold ci_read_long ci_prompt_numeric
    rw [loop_number_line prompt fuel [] sg ds rest old o hsg hds hne hlen,
      loop_number_last prompt fuel [] sg ds old o hsg hds hne hlen]
    simp only [if_pos hl]
    exact ⟨trivial, trivial⟩

/-- Witness of C16 as amended: `999999999999` is out of the range of `int` and in that of
`long`; twenty nines are out of the range of `long`. -/
theorem numeric_range_overflow_witness :
    ci_read_int none 1 0 5 ⟨bytes "999999999999" ++ NL :: bytes "7\n", false⟩ [] =
      some ⟨CI_OVERFLOW, some 5, ⟨bytes "7\n", false⟩, []⟩ ∧
    ci_read_long none 1 (some 5) ⟨bytes "-99999999999999999999" ++ NL :: bytes "7\n", false⟩ [] =
      some ⟨CI_OVERFLOW, some 5, ⟨bytes "7\n", false⟩, []⟩ :=
  ⟨((numeric_range_overflow none 0 [] (bytes "999999999999") 5 0 (bytes "7\n") []
      (Or.inl rfl) (by decide) (by decide) (by decide)).1 (by decide)).1,
    ((numeric_range_overflow none 0 [MINUS] (bytes "99999999999999999999") 5 0 (bytes "7\n")
      [] (Or.inr (Or.inr rfl)) (by decide) (by decide) (by decide)).2.1 (by decide)).1⟩

/-! ## Numeric retry -/

/-- A successful parse stores the value `strtol` returned. -/
theorem parse_ok_value (l : List Nat) (old : Int) (h : parse_status l = CI_OK) :
    ci_parse_long (some l) (some old) = (CI_OK, some (strtol l).value) := by
  unfold parse_status ci_parse_long at h
  unfold ci_parse_long
  simp only at h ⊢
  by_cases h1 : (strtol l).erange = true ∨ (strtol l).value > LONG_MAX ∨
      (strtol l).value < LONG_MIN
  · rw [if_pos h1] at h
    cases h
  · rw [if_neg h1] at h
    rw [if_neg h1]
    by_cases h2 : (strtol l).endpos = 0 ∨ (cstr l).getD (strtol l).endpos 0 ≠ 0
    · rw [if_pos h2] at h
      cases h
    · rw [if_neg h2]

/-- The status of a parse is never `CI_EOF`. -/
theorem parse_status_ne_eof (l : List Nat) : parse_status l ≠ CI_EOF := by
  unfold parse_status ci_parse_long
  simp only
  split
  · exact fun h => by cases h
  · split
    · exact fun h => by cases h
    · exact fun h => by cases h

/-- The result of a parse in terms of its status. -/
theorem parse_result (l : List Nat) (old : Int) :
    ci_parse_long (some l) (some old) =
      (parse_status l, if parse_status l = CI_OK then some (strtol l).value else some old) := by
  by_cases h : parse_status l = CI_OK
  · rw [parse_ok_value l old h, if_pos h, h]
  · rw [if_neg h]
    have hk := parse_keeps (some l) (some old) (by rw [parse_status_eq]; exact h)
    have hs := parse_status_eq l old
    exact Prod.ext hs hk

/-- Retry, first shape: skipped lines, then a line of at most 126 characters that is not
a parse error, ended by a newline. -/
theorem loop_retry_line (prompt : Option (List Nat)) (fuel : Nat) (buf : List Nat) (old : Int)
    (ls : List (List Nat)) (l rest : List Nat) (o : List Nat)
    (hall : ∀ x ∈ ls, skipped_line x) (hl : newline_free l) (hlen : l.length ≤ 126)
    (hst : parse_status l ≠ CI_INVALID) :
    ∃ o2, prompt_numeric_loop prompt (ls.length + (fuel + 1)) buf (some old)
        ⟨lines_text ls ++ (l ++ NL :: rest), false⟩ o =
      some ⟨parse_status l, if parse_status l = CI_OK then some (strtol l).value else some old,
        ⟨rest, false⟩, o2⟩ := by
  obtain ⟨o1, h1⟩ := loop_skips prompt old ls hall (fuel + 1) buf (l ++ NL :: rest) o
  refine ⟨after_prompt prompt o1, ?_⟩
  rw [h1, loop_step_line prompt fuel buf (some old) l rest o1 hl hlen,
    if_neg (by rw [parse_status_eq]; exact hst), parse_result]

/-- Retry, second shape: skipped lines, then a last line without a newline that is not a
parse error. -/
theorem loop_retry_last (prompt : Option (List Nat)) (fuel : Nat) (buf : List Nat) (old : Int)
    (ls : List (List Nat)) (l : List Nat) (o : List Nat)
    (hall : ∀ x ∈ ls, skipped_line x) (hne : l ≠ []) (hl : newline_free l)
    (hlen : l.length ≤ 126) (hst : parse_status l ≠ CI_INVALID) :
    ∃ o2, prompt_numeric_loop prompt (ls.length + (fuel + 1)) buf (some old)
        ⟨lines_text ls ++ l, false⟩ o =
      some ⟨parse_status l, if parse_status l = CI_OK then some (strtol l).value else some old,
        ⟨[], true⟩, o2⟩ := by
  obtain ⟨o1, h1⟩ := loop_skips prompt old ls hall (fuel + 1) buf l o
  refine ⟨after_prompt prompt o1, ?_⟩
  rw [h1, loop_step_last prompt fuel buf (some old) l o1 hne hl hlen,
    if_neg (by rw [parse_status_eq]; exact hst), parse_result]

/-- Retry, third shape: nothing but skipped lines. -/
theorem loop_retry_end (prompt : Option (List Nat)) (fuel : Nat) (buf : List Nat) (old : Int)
    (ls : List (List Nat)) (o : List Nat) (hall : ∀ x ∈ ls, skipped_line x) :
    ∃ o2, prompt_numeric_loop prompt (ls.length + (fuel + 1)) buf (some old)
        ⟨lines_text ls, false⟩ o = some ⟨CI_EOF, some old, ⟨[], true⟩, o2⟩ := by
  obtain ⟨o1, h1⟩ := loop_skips prompt old ls hall (fuel + 1) buf [] o
  refine ⟨after_prompt prompt o1, ?_⟩
  rw [List.append_nil] at h1
  rw [h1, loop_step_end]

/-- Retry, fourth shape: skipped lines, the last of them without a newline. -/
theorem loop_retry_tail (prompt : Option (List Nat)) (fuel : Nat) (buf : List Nat) (old : Int)
    (ls : List (List Nat)) (x : List Nat) (o : List Nat)
    (hall : ∀ y ∈ ls, skipped_line y) (hne : x ≠ []) (hx : skipped_line x) :
    ∃ o2, prompt_numeric_loop prompt (ls.length + (fuel + 2)) buf (some old)
        ⟨lines_text ls ++ x, false⟩ o = some ⟨CI_EOF, some old, ⟨[], true⟩, o2⟩ := by
  obtain ⟨o1, h1⟩ := loop_skips prompt old ls hall (fuel + 2) buf x o
  rw [h1]
  obtain ⟨hnl, hcase⟩ := hx
  rcases hcase with ⟨hshort, hinv⟩ | ⟨hlong, hnf⟩
  · refine ⟨after_prompt prompt (after_prompt prompt o1 ++ invalid_notice), ?_⟩
    rw [loop_step_last prompt (fuel + 1) buf (some old) x o1 hne hnl hshort,
      if_pos (by rw [parse_status_eq]; exact hinv), loop_step_end]
  · have hp : newline_free (x.take 127) := fun c hc => hnl c (List.mem_of_mem_take hc)
    have hm : newline_free (x.drop 127) := fun c hc => hnl c (List.mem_of_mem_drop hc)
    have hlen : (x.take 127).length = 127 := by
      rw [List.length_take]
      omega
    have hstep := loop_step_long prompt (fuel + 1) buf (some old) (x.take 127) (x.drop 127)
      o1 hp hnf hlen
    rw [List.take_append_drop, discard_line_end _ hm, loop_step_end] at hstep
    exact ⟨_, hstep⟩

/-- What `ci_read_int` returns when the numeric loop returned status `s`, with value `v`
stored in the local `val` in case `s` is `CI_OK`. -/
theorem read_int_result (prompt : Option (List Nat)) (fuel : Nat) (val old : Int)
    (stdin : FILE) (o : List Nat) (s : ci_status) (v : Int) (st : FILE) (o2 : List Nat)
    (h : prompt_numeric_loop prompt fuel [] (some val) stdin o =
      some ⟨s, if s = CI_OK then some v else some val, st, o2⟩) :
    ci_read_int prompt fuel val old stdin o =
      some ⟨if s = CI_OK ∧ (v > INT_MAX ∨ v < INT_MIN) then CI_OVERFLOW else s,
        if s = CI_OK ∧ ¬ (v > INT_MAX ∨ v < INT_MIN) then some v else some old, st, o2⟩ := by
  rw [read_int_of_loop prompt fuel val old stdin o _ h]
  by_cases hs : s = CI_OK
  · subst hs
    simp only [ne_eq, not_true_eq_false, if_false, if_true, Option.getD_some, true_and]
    by_cases hr : v > INT_MAX ∨ v < INT_MIN
    · rw [if_pos hr, if_pos hr, if_neg (not_not.2 hr)]
    · rw [if_neg hr, if_neg hr, if_pos hr]
  · have h1 : ¬ (s = CI_OK ∧ (v > INT_MAX ∨ v < INT_MIN)) := fun h => hs h.1
    have h2 : ¬ (s = CI_OK ∧ ¬ (v > INT_MAX ∨ v < INT_MIN)) := fun h => hs h.1
    rw [if_neg h1, if_neg h2]
    simp only [ne_eq, hs, not_false_eq_true, if_true]

set_option maxRecDepth 100000 in
/-- Counterexample to C18: (1) the first line, twenty times `9` followed by `x`, is
malformed as a number, yet it is not skipped: both functions return `CI_OVERFLOW` at once
and leave the line `7` unread. (2) The first line, `5`, a NUL and 200 times `x`, is too
long for the 128-byte buffer, yet it is not skipped: `ci_read_long` returns `CI_OK` with
5 and leaves the last 75 characters of that line unread. (3) With the end-of-file
indicator of the standard input set, the line `abc` is not skipped and the line `5` is
not read: the result is `CI_EOF`. -/
theorem retry_stops_at_malformed_line :
    (ci_read_long none 2 (some 0) ⟨bytes "99999999999999999999x\n7\n", false⟩ [] =
        some ⟨CI_OVERFLOW, some 0, ⟨bytes "7\n", false⟩, []⟩ ∧
      ci_read_int none 2 0 0 ⟨bytes "99999999999999999999x\n7\n", false⟩ [] =
        some ⟨CI_OVERFLOW, some 0, ⟨bytes "7\n", false⟩, []⟩) ∧
    ci_read_long none 2 (some 0)
        ⟨bytes "5" ++ 0 :: List.replicate 200 120 ++ bytes "\n7\n", false⟩ [] =
      some ⟨CI_OK, some 5, ⟨List.replicate 75 120 ++ bytes "\n7\n", false⟩, []⟩ ∧
    ci_read_long none 2 (some 0) ⟨bytes "abc\n5\n", true⟩ [] =
      some ⟨CI_EOF, some 0, ⟨bytes "abc\n5\n", true⟩, []⟩ := by
  refine ⟨by decide, by rfl, by decide⟩

/-- C18 as amended, numeric retry. Let the end-of-file indicator of the standard input be
clear. A line is skipped when it has at most 126 characters and `ci_parse_long` answers
`CI_INVALID` for it, or when it has 127 characters or more and no NUL among the first
127. After any number of leading skipped lines `ls`:
(1) if the next line `l` has at most 126 characters and `ci_parse_long` does not answer
`CI_INVALID` for it, `ci_read_long` returns the status of parsing `l`, which is `CI_OK` or
`CI_OVERFLOW` and never `CI_EOF`, stores the value of `l` when that status is `CI_OK` and
leaves `*out_value` as it was otherwise, and the input left is what followed `l`;
`ci_read_int` does the same, with `CI_OVERFLOW` and no store when the value is outside
the range of `int`; this holds too when `l` is a last line without a newline;
(2) if the input ends after the skipped lines, both return `CI_EOF` with `*out_value` as
it was;
(3) the same when the last skipped line has no newline.
(4) With the indicator set, both return `CI_EOF` at once: no line is read or skipped.
Nothing is stated for an input in which a line of 127 characters or more with a NUL
among its first 127 comes before the line at which the function returns. -/
theorem numeric_retry (prompt : Option (List Nat)) (fuel : Nat) (old val : Int)
    (ls : List (List Nat)) (l rest : List Nat) (o : List Nat)
    (hall : ∀ x ∈ ls, skipped_line x) :
    (newline_free l → l.length ≤ 126 → parse_status l ≠ CI_INVALID →
      parse_status l ≠ CI_EOF ∧
      (∃ o2, ci_read_long prompt (ls.length + (fuel + 1)) (some old)
          ⟨lines_text ls ++ (l ++ NL :: rest), false⟩ o =
        some ⟨parse_status l,
          if parse_status l = CI_OK then some (strtol l).value else some old,
          ⟨rest, false⟩, o2⟩) ∧
      (∃ o2, ci_read_int prompt (ls.length + (fuel + 1)) val old
          ⟨lines_text ls ++ (l ++ NL :: rest), false⟩ o =
        some ⟨if parse_status l = CI_OK ∧
              ((strtol l).value > INT_MAX ∨ (strtol l).value < INT_MIN)
            then CI_OVERFLOW else parse_status l,
          if parse_status l = CI_OK ∧
              ¬ ((strtol l).value > INT_MAX ∨ (strtol l).value < INT_MIN)
            then some (strtol l).value else some old,
          ⟨rest, false⟩, o2⟩) ∧
      (l ≠ [] →
        (∃ o2, ci_read_long prompt (ls.length + (fuel + 1)) (some old)
            ⟨lines_text ls ++ l, false⟩ o =
          some ⟨parse_status l,
            if parse_status l = CI_OK then some (strtol l).value else some old,
            ⟨[], true⟩, o2⟩) ∧
        (∃ o2, ci_read_int prompt (ls.length + (fuel + 1)) val old
            ⟨lines_text ls ++ l, false⟩ o =
          some ⟨if parse_status l = CI_OK ∧
                ((strtol l).value > INT_MAX ∨ (strtol l).value < INT_MIN)
              then CI_OVERFLOW else parse_status l,
            if parse_status l = CI_OK ∧
                ¬ ((strtol l).value > INT_MAX ∨ (strtol l).value < INT_MIN)
              then some (strtol l).value else some old,
            ⟨[], true⟩, o2⟩))) ∧
    ((∃ o2, ci_read_long prompt (ls.length + (fuel + 1)) (some old) ⟨lines_text ls, false⟩ o =
        some ⟨CI_EOF, some old, ⟨[], true⟩, o2⟩) ∧
      (∃ o2, ci_read_int prompt (ls.length + (fuel + 1)) val old ⟨lines_text ls, false⟩ o =
        some ⟨CI_EOF, some old, ⟨[], true⟩, o2⟩)) ∧
    (l ≠ [] → skipped_line l →
      (∃ o2, ci_read_long prompt (ls.length + (fuel + 2)) (some old)
          ⟨lines_text ls ++ l, false⟩ o = some ⟨CI_EOF, some old, ⟨[], true⟩, o2⟩) ∧
      (∃ o2, ci_read_int prompt (ls.length + (fuel + 2)) val old
          ⟨lines_text ls ++ l, false⟩ o = some ⟨CI_EOF, some old, ⟨[], true⟩, o2⟩)) ∧
    (ci_read_long prompt (ls.length + (fuel + 1)) (some old)
        ⟨lines_text ls ++ (l ++ NL :: rest), true⟩ o =
      some ⟨CI_EOF, some old, ⟨lines_text ls ++ (l ++ NL :: rest), true⟩,
        after_prompt prompt o⟩ ∧
      ci_read_int prompt (ls.length + (fuel + 1)) val old
        ⟨lines_text ls ++ (l ++ NL :: rest), true⟩ o =
      some ⟨CI_EOF, some old, ⟨lines_text ls ++ (l ++ NL :: rest), true⟩,
        after_prompt prompt o⟩) := by
  refine ⟨?_, ⟨?_, ?_⟩, ?_, numeric_at_eof prompt (ls.length + fuel) old val _ o⟩
  · intro hl hlen hst
    refine ⟨parse_status_ne_eof l, ?_, ?_, ?_⟩
    · exact loop_retry_line prompt fuel [] old ls l rest o hall hl hlen hst
    · obtain ⟨o2, h⟩ := loop_retry_line prompt fuel [] val ls l rest o hall hl hlen hst
      exact ⟨o2, read_int_result prompt _ val old _ o _ _ _ o2 h⟩
    · intro hne
      constructor
      · exact loop_retry_last prompt fuel [] old ls l o hall hne hl hlen hst
      · obtain ⟨o2, h⟩ := loop_retry_last prompt fuel [] val ls l o hall hne hl hlen hst
        exact ⟨o2, read_int_result prompt _ val old _ o _ _ _ o2 h⟩
  · exact loop_retry_end prompt fuel [] old ls o hall
  · obtain ⟨o2, h⟩ := loop_retry_end prompt fuel [] val ls o hall
    refine ⟨o2, ?_⟩
    rw [read_int_of_loop prompt _ val old _ o _ h]
    rfl
  · intro hne hx
    constructor
    · exact loop_retry_tail prompt fuel [] old ls l o hall hne hx
    · obtain ⟨o2, h⟩ := loop_retry_tail prompt fuel [] val ls l o hall hne hx
      refine ⟨o2, ?_⟩
      rw [read_int_of_loop prompt _ val old _ o _ h]
      rfl

theorem skipped_abc : skipped_line (bytes "abc") := by
  unfold skipped_line newline_free nul_free
  decide

/-- Witness of C18 as amended: the line `abc` is skipped and the line `5` is read, as in
`test_read_int_invalid_then_valid`; with nothing behind `abc` the result is `CI_EOF`. -/
theorem numeric_retry_witness :
    (∃ o2, ci_read_int none (1 + (0 + 1)) 0 0 ⟨bytes "abc\n5\nrest", false⟩ [] =
      some ⟨CI_OK, some 5, ⟨bytes "rest", false⟩, o2⟩) ∧
    (∃ o2, ci_read_long none (1 + (0 + 1)) (some 3) ⟨bytes "abc\n", false⟩ [] =
      some ⟨CI_EOF, some 3, ⟨[], true⟩, o2⟩) :=
  ⟨((numeric_retry none 0 0 0 [bytes "abc"] (bytes "5") (bytes "rest") []
      (fun x hx => by
        rw [List.mem_singleton] at hx
        rw [hx]
        exact skipped_abc)).1
      (by unfold newline_free; decide) (by decide) (by decide)).2.2.1,
    ((numeric_retry none 0 3 0 [bytes "abc"] [] [] []
      (fun x hx => by
        rw [List.mem_singleton] at hx
        rw [hx]
        exact skipped_abc)).2.1).1⟩

/-! ## Return codes of the numeric helpers -/

/-- The loop on a first line of 127 characters or more without NUL among the first 127:
the notice is printed and the loop goes on behind the line. -/
theorem loop_skip_long (prompt : Option (List Nat)) (fuel : Nat) (buf : List Nat)
    (ov : Option Int) (x rest : List Nat) (o : List Nat)
    (hnl : newline_free x) (hlong : 127 ≤ x.length) (hnf : nul_free (x.take 127)) :
    prompt_numeric_loop prompt (fuel + 1) buf ov ⟨x ++ NL :: rest, false⟩ o =
      prompt_numeric_loop prompt fuel buf ov ⟨rest, false⟩
        (after_prompt prompt o ++ too_long_notice) := by
  have hp : newline_free (x.take 127) := fun c hc => hnl c (List.mem_of_mem_take hc)
  have hm : newline_free (x.drop 127) := fun c hc => hnl c (List.mem_of_mem_drop hc)
  have hlen : (x.take 127).length = 127 := by
    rw [List.length_take]
    omega
  have hstep := loop_step_long prompt fuel buf ov (x.take 127) (x.drop 127 ++ NL :: rest)
    o hp hnf hlen
  rw [← List.append_assoc, List.take_append_drop, discard_line_eq _ _ hm] at hstep
  simpa using hstep

/-- The function `ci_read_int` returns on every finite input. -/
theorem read_int_terminates (prompt : Option (List Nat)) (fuel : Nat) (val old : Int)
    (stdin : FILE) (o : List Nat) (h : stdin.data.length < fuel) :
    ∃ r, ci_read_int prompt fuel val old stdin o = some r := by
  obtain ⟨r0, hl⟩ := loop_terminates prompt fuel [] (some val) stdin o h
  rw [read_int_of_loop prompt fuel val old stdin o r0 hl]
  by_cases h1 : r0.status ≠ CI_OK
  · rw [if_pos h1]
    exact ⟨_, rfl⟩
  · rw [if_neg h1]
    by_cases h2 : r0.value.getD val > INT_MAX ∨ r0.value.getD val < INT_MIN
    · rw [if_pos h2]
      exact ⟨_, rfl⟩
    · rw [if_neg h2]
      exact ⟨_, rfl⟩

/-- A step of the loop carries over to `ci_read_int`. -/
theorem read_int_congr (prompt : Option (List Nat)) (f1 f2 : Nat) (val old : Int)
    (s1 s2 : FILE) (o1 o2 : List Nat)
    (h : prompt_numeric_loop prompt f1 [] (some val) s1 o1 =
      prompt_numeric_loop prompt f2 [] (some val) s2 o2) :
    ci_read_int prompt f1 val old s1 o1 = ci_read_int prompt f2 val old s2 o2 := by
  unfold ci_read_int ci_prompt_numeric
  rw [h]

set_option maxRecDepth 100000 in
/-- Counterexample to C20: on the input `abc`, a parse error, `ci_read_long` prints the
notice and returns `CI_EOF`, not `CI_INVALID`; followed by the line `5`, `ci_read_int`
returns `CI_OK` with 5; on a line of 200 times `x`, too long for the buffer,
`ci_read_long` prints the other notice and returns `CI_EOF`, not `CI_OVERFLOW`; and on
the line `5`, a NUL and 200 times `x`, too long as well, it returns `CI_OK` with 5 and
prints no notice. With the end-of-file indicator of the standard input set, the input
`abc` gives `CI_EOF` without a notice. -/
theorem parse_error_and_length_not_returned :
    ci_read_long none 2 (some 0) ⟨bytes "abc\n", false⟩ [] =
      some ⟨CI_EOF, some 0, ⟨[], true⟩, invalid_notice⟩ ∧
    ci_read_int none 2 0 0 ⟨bytes "abc\n5\n", false⟩ [] =
      some ⟨CI_OK, some 5, ⟨[], false⟩, invalid_notice⟩ ∧
    ci_read_long none 2 (some 0) ⟨List.replicate 200 120 ++ [NL], false⟩ [] =
      some ⟨CI_EOF, some 0, ⟨[], true⟩, too_long_notice⟩ ∧
    ci_read_long none 2 (some 0) ⟨bytes "5" ++ 0 :: List.replicate 200 120 ++ [NL], false⟩ [] =
      some ⟨CI_OK, some 5, ⟨List.replicate 75 120 ++ [NL], false⟩, []⟩ ∧
    ci_read_long none 2 (some 0) ⟨bytes "abc\n", true⟩ [] =
      some ⟨CI_EOF, some 0, ⟨bytes "abc\n", true⟩, []⟩ := by
  refine ⟨by decide, by decide, ?_, by rfl, by decide⟩
  unfold ci_read_long ci_prompt_numeric
  rw [show List.replicate 200 120 ++ [NL] = List.replicate 200 120 ++ NL :: [] from rfl,
    loop_skip_long none 1 [] (some 0) (List.replicate 200 120) [] []
      (replicate_newline_free 200) (by rw [List.length_replicate]; decide)
      (by rw [List.take_replicate]; exact replicate_nul_free _),
    loop_step_end]
  rfl

/-- C20 as amended, return codes of `ci_read_int` and `ci_read_long` on a standard input
without read errors. Both return on every finite input. With the end-of-file indicator
clear: a first line of at most 126 characters for which `ci_parse_long` answers
`CI_INVALID` is not reported: the notice `Invalid number, try again.` is printed and the
call goes on with the next line. A first line of 127 characters or more with no NUL among
its first 127 is not reported either: the notice `Input too long, try again.` is printed
and the call goes on with the next line. A first line of at most 126 characters for which
`ci_parse_long` does not answer `CI_INVALID` ends the call with the status of its parse,
`CI_OK` or `CI_OVERFLOW`, and for `ci_read_int` with `CI_OVERFLOW` as well when the value
is out of the range of `int`. At the end of the input both return `CI_EOF`. With the
indicator set both return `CI_EOF` at once. -/
theorem numeric_return_codes (prompt : Option (List Nat)) (fuel : Nat) (old val : Int)
    (x rest : List Nat) (stdin : FILE) (o : List Nat) :
    (stdin.data.length < fuel →
      (∃ r, ci_read_long prompt fuel (some old) stdin o = some r) ∧
      (∃ r, ci_read_int prompt fuel val old stdin o = some r)) ∧
    (newline_free x → x.length ≤ 126 → parse_status x = CI_INVALID →
      ci_read_long prompt (fuel + 1) (some old) ⟨x ++ NL :: rest, false⟩ o =
        ci_read_long prompt fuel (some old) ⟨rest, false⟩
          (after_prompt prompt o ++ invalid_notice) ∧
      ci_read_int prompt (fuel + 1) val old ⟨x ++ NL :: rest, false⟩ o =
        ci_read_int prompt fuel val old ⟨rest, false⟩
          (after_prompt prompt o ++ invalid_notice)) ∧
    (newline_free x → 127 ≤ x.length → nul_free (x.take 127) →
      ci_read_long prompt (fuel + 1) (some old) ⟨x ++ NL :: rest, false⟩ o =
        ci_read_long prompt fuel (some old) ⟨rest, false⟩
          (after_prompt prompt o ++ too_long_notice) ∧
      ci_read_int prompt (fuel + 1) val old ⟨x ++ NL :: rest, false⟩ o =
        ci_read_int prompt fuel val old ⟨rest, false⟩
          (after_prompt prompt o ++ too_long_notice)) ∧
    (newline_free x → x.length ≤ 126 → parse_status x ≠ CI_INVALID →
      (parse_status x = CI_OK ∨ parse_status x = CI_OVERFLOW) ∧
      (ci_read_long prompt (fuel + 1) (some old) ⟨x ++ NL :: rest, false⟩ o).map
          (fun r => (r.status, r.stdin, r.stdout)) =
        some (parse_status x, ⟨rest, false⟩, after_prompt prompt o) ∧
      (ci_read_int prompt (fuel + 1) val old ⟨x ++ NL :: rest, false⟩ o).map
          (fun r => (r.status, r.stdin, r.stdout)) =
        some (if parse_status x = CI_OK ∧
              ((strtol x).value > INT_MAX ∨ (strtol x).value < INT_MIN)
            then CI_OVERFLOW else parse_status x, ⟨rest, false⟩, after_prompt prompt o)) ∧
    (ci_read_long prompt (fuel + 1) (some old) ⟨[], false⟩ o =
        some ⟨CI_EOF, some old, ⟨[], true⟩, after_prompt prompt o⟩ ∧
      ci_read_int prompt (fuel + 1) val old ⟨[], false⟩ o =
        some ⟨CI_EOF, some old, ⟨[], true⟩, after_prompt prompt o⟩) ∧
    (ci_read_long prompt (fuel + 1) (some old) ⟨rest, true⟩ o =
        some ⟨CI_EOF, some old, ⟨rest, true⟩, after_prompt prompt o⟩ ∧
      ci_read_int prompt (fuel + 1) val old ⟨rest, true⟩ o =
        some ⟨CI_EOF, some old, ⟨rest, true⟩, after_prompt prompt o⟩) := by
  refine ⟨?_, ?_, ?_, ?_, ⟨?_, ?_⟩, numeric_at_eof prompt fuel old val rest o⟩
  · intro h
    exact ⟨loop_terminates prompt fuel [] (some old) stdin o h,
      read_int_terminates prompt fuel val old stdin o h⟩
  · intro hnl hlen hinv
    have hstep : ∀ old2 : Int,
        prompt_numeric_loop prompt (fuel + 1) [] (some old2) ⟨x ++ NL :: rest, false⟩ o =
          prompt_numeric_loop prompt fuel [] (some old2) ⟨rest, false⟩
            (after_prompt prompt o ++ invalid_notice) := by
      intro old2
      rw [loop_step_line prompt fuel [] (some old2) x rest o hnl hlen,
        if_pos (by rw [parse_status_eq]; exact hinv)]
    exact ⟨hstep old, read_int_congr prompt _ _ val old _ _ _ _ (hstep val)⟩
  · intro hnl hlong hnf
    exact ⟨loop_skip_long prompt fuel [] (some old) x rest o hnl hlong hnf,
      read_int_congr prompt _ _ val old _ _ _ _
        (loop_skip_long prompt fuel [] (some val) x rest o hnl hlong hnf)⟩
  · intro hnl hlen hst
    obtain ⟨o2, h2⟩ := loop_retry_line prompt fuel [] old [] x rest o
      (fun y hy => by cases hy) hnl hlen hst
    obtain ⟨o3, h3⟩ := loop_retry_line prompt fuel [] val [] x rest o
      (fun y hy => by cases hy) hnl hlen hst
    have hl : ∀ old2 : Int,
        prompt_numeric_loop prompt (fuel + 1) [] (some old2) ⟨x ++ NL :: rest, false⟩ o =
          some ⟨parse_status x,
            if parse_status x = CI_OK then some (strtol x).value else some old2,
            ⟨rest, false⟩, after_prompt prompt o⟩ := by
      intro old2
      rw [loop_step_line prompt fuel [] (some old2) x rest o hnl hlen,
        if_neg (by rw [parse_status_eq]; exact hst), parse_result]
    refine ⟨?_, ?_, ?_⟩
    · cases hps : parse_status x with
      | CI_OK => exact Or.inl rfl
      | CI_OVERFLOW => exact Or.inr rfl
      | CI_INVALID => exact absurd hps hst
      | CI_EOF => exact absurd hps (parse_status_ne_eof x)
    · unfold ci_read_long ci_prompt_numeric
      rw [hl old]
      rfl
    · rw [read_int_result prompt _ val old _ o _ _ _ _ (hl val)]
      rfl
  · unfold ci_read_long ci_prompt_numeric
    exact loop_step_end prompt fuel [] (some old) false o
  · rw [read_int_of_loop prompt _ val old _ o _
      (loop_step_end prompt fuel [] (some val) false o)]
    rfl

/-- Witness of C20 as amended: the parse error `abc` and a line of 130 times `x` are
passed over;
the call returns for the line after them. -/
theorem numeric_return_codes_witness :
    ci_read_long none 2 (some 0) ⟨bytes "abc" ++ NL :: bytes "5\n", false⟩ [] =
      ci_read_long none 1 (some 0) ⟨bytes "5\n", false⟩ invalid_notice ∧
    ci_read_int none 2 0 0 ⟨List.replicate 130 120 ++ NL :: bytes "5\n", false⟩ [] =
      ci_read_int none 1 0 0 ⟨bytes "5\n", false⟩ too_long_notice ∧
    ((∃ r, ci_read_long none 5 (some 0) ⟨bytes "abc\n", false⟩ [] = some r) ∧
      (∃ r, ci_read_int none 5 0 0 ⟨bytes "abc\n", false⟩ [] = some r)) :=
  ⟨((numeric_return_codes none 1 0 0 (bytes "abc") (bytes "5\n") ⟨[], false⟩ []).2.1
      (by unfold newline_free; decide) (by decide) (by decide)).1,
    ((numeric_return_codes none 1 0 0 (List.replicate 130 120) (bytes "5\n")
      ⟨[], false⟩ []).2.2.1
      (replicate_newline_free 130) (by rw [List.length_replicate]; decide)
      (by rw [List.take_replicate]; exact replicate_nul_free _)).2,
    (numeric_return_codes none 5 0 0 [] [] ⟨bytes "abc\n", false⟩ []).1 (by decide)⟩

/-! ## The exact overflow boundary of the line reader -/

/-- What `fgets` stores: a prefix of the input of at most `k` characters, which either
has no newline or ends with the only newline in it. -/
theorem fgets_scan_shape (k : Nat) : ∀ d : List Nat,
    (fgets_scan k d).1 ++ (fgets_scan k d).2 = d ∧ (fgets_scan k d).1.length ≤ k ∧
    (newline_free (fgets_scan k d).1 ∨
      ∃ l, (fgets_scan k d).1 = l ++ [NL] ∧ newline_free l) := by
  induction k with
  | zero =>
    intro d
    refine ⟨by simp [fgets_scan], by simp [fgets_scan], Or.inl ?_⟩
    intro c hc
    simp [fgets_scan] at hc
  | succ k ih =>
    intro d
    cases d with
    | nil =>
      refine ⟨by simp [fgets_scan], by simp [fgets_scan], Or.inl ?_⟩
      intro c hc
      simp [fgets_scan] at hc
    | cons c cs =>
      by_cases hc : c = NL
      · refine ⟨by simp [fgets_scan, hc], by simp [fgets_scan, hc], Or.inr ⟨[], ?_, ?_⟩⟩
        · simp [fgets_scan, hc]
        · intro x hx
          cases hx
      · obtain ⟨h1, h2, h3⟩ := ih cs
        have hfst : (fgets_scan (k + 1) (c :: cs)).1 = c :: (fgets_scan k cs).1 := by
          simp [fgets_scan, hc]
        have hsnd : (fgets_scan (k + 1) (c :: cs)).2 = (fgets_scan k cs).2 := by
          simp [fgets_scan, hc]
        rw [hfst, hsnd]
        refine ⟨by simp [h1], by simp only [List.length_cons]; omega, ?_⟩
        rcases h3 with h3 | ⟨l, hl, hnl⟩
        · left
          intro x hx
          rcases List.mem_cons.1 hx with hx | hx
          · rw [hx]
            exact hc
          · exact h3 x hx
        · right
          refine ⟨c :: l, by rw [hl]; rfl, ?_⟩
          intro x hx
          rcases List.mem_cons.1 hx with hx | hx
          · rw [hx]
            exact hc
          · exact hnl x hx

/-- A byte sequence whose C string is the whole of it has no NUL. -/
theorem nul_free_of_strlen {a : List Nat} (h : strlen a = a.length) : nul_free a := by
  rcases nul_free_or_short a with h1 | h1
  · exact h1
  · omega

/-- The exact condition under which the reader reports a truncated line. -/
theorem read_overflow_iff {size : Nat} (h2 : 2 ≤ size) (hmax : size < 2 ^ 31) (stream : FILE)
    (prompt : Option (List Nat)) (buf out : List Nat) :
    (ci_read_line_internal stream prompt (some buf) size out).status = CI_OVERFLOW ↔
      stream.eof = false ∧ size - 1 ≤ stream.data.length ∧
        newline_free (stream.data.take (size - 1)) ∧
        nul_free (stream.data.take (size - 1)) := by
  constructor
  · intro hst
    obtain ⟨d, e⟩ := stream
    cases e with
    | true =>
      rw [read_at_eof h2 hmax d prompt buf out] at hst
      cases hst
    | false =>
    refine ⟨rfl, ?_⟩
    cases d with
    | nil =>
      rw [read_at_end h2 hmax false prompt buf out] at hst
      cases hst
    | cons c cs =>
      have hf := fgets_eq h2 hmax c cs
      rw [read_internal_of_fgets (by omega) _ prompt buf out _ _ hf] at hst
      obtain ⟨happ, hlen, hshape⟩ := fgets_scan_shape (size - 1) (c :: cs)
      generalize (fgets_scan (size - 1) (c :: cs)).1 = raw at hst happ hlen hshape
      generalize (fgets_scan (size - 1) (c :: cs)).2 = rest at hst happ
      have hsl := strlen_le_length raw
      by_cases h1 : strlen raw > 0 ∧ raw.getD (strlen raw - 1) 0 = NL
      · rw [if_pos h1] at hst
        cases hst
      · rw [if_neg h1] at hst
        by_cases h3 : strlen raw + 1 = size
        · have hfull : strlen raw = raw.length := by omega
          have hnf : nul_free raw := nul_free_of_strlen hfull
          have hrl : raw.length = size - 1 := by omega
          have hnl : newline_free raw := by
            rcases hshape with hs | ⟨l, hl, _⟩
            · exact hs
            · exfalso
              apply h1
              refine ⟨by omega, ?_⟩
              rw [hfull, hl]
              simp [List.getD_eq_getElem?_getD]
          have htake : (c :: cs).take (size - 1) = raw := by
            rw [← happ, ← hrl, List.take_left']
            rfl
          simp only
          rw [htake]
          refine ⟨?_, hnl, hnf⟩
          rw [← happ, List.length_append]
          omega
        · rw [if_neg h3] at hst
          cases hst
  · rintro ⟨he, hlen, hnl, hnf⟩
    obtain ⟨d, e⟩ := stream
    simp only at he hlen hnl hnf
    subst he
    have hsplit : d = d.take (size - 1) ++ d.drop (size - 1) :=
      (List.take_append_drop _ _).symm
    have hl : (d.take (size - 1)).length + 1 = size := by
      rw [List.length_take]
      omega
    have hr := read_long_line h2 hmax (d.take (size - 1)) (d.drop (size - 1)) prompt buf out
      hnl hnf hl
    rw [List.take_append_drop] at hr
    rw [hr]

/-- Counterexample to C25: with a capacity of 4 and the input `a`, NUL, `b`, newline, the
first three characters read contain no newline, yet the reader returns `CI_OK` and the
newline stays unread; with the end-of-file indicator of the stream set, the input
`abcdef` and capacity 4 give `CI_EOF`, not `CI_OVERFLOW`, and the line `hi` with
capacity 8 gives `CI_EOF`, not `CI_OK`; and with the capacity `2 ^ 31 + 5`, which
`(int)size` turns into a negative count, the line `hi` of two characters gives
`CI_INVALID`, not `CI_OK`. -/
theorem read_boundary_nul_or_huge :
    ci_read_line_internal ⟨[97, 0, 98, NL], false⟩ none (some []) 4 [] =
      ⟨CI_OK, ⟨[NL], false⟩, [97, 0, 98], []⟩ ∧
    ci_read_line_internal ⟨bytes "abcdef\n", true⟩ none (some []) 4 [] =
      ⟨CI_EOF, ⟨bytes "abcdef\n", true⟩, [], []⟩ ∧
    ci_read_line_internal ⟨bytes "hi\n", true⟩ none (some []) 8 [] =
      ⟨CI_EOF, ⟨bytes "hi\n", true⟩, [], []⟩ ∧
    (ci_read_line_internal ⟨bytes "hi\n", false⟩ none (some []) (2 ^ 31 + 5) []).status =
      CI_INVALID := by
  decide

/-- C25 as amended, exact overflow boundary of the line reader: for every capacity from 2
to `INT_MAX`, `ci_read_line_internal` returns `CI_OVERFLOW` exactly when the end-of-file
indicator of the stream is clear, the stream holds at least `capacity - 1` characters and
the first `capacity - 1` of them contain neither a newline nor a NUL, whatever follows
them. Hence, with the indicator clear, a line of `n` characters without NUL followed by a
newline returns `CI_OK` if and only if `n ≤ capacity - 2`, and a line of exactly
`capacity - 1` such characters returns `CI_OVERFLOW` with the buffer holding the whole
line: when it is terminated, its newline is consumed and the stream stands at the next
line; when it is the unterminated end of the input, the stream is at its end. -/
theorem overflow_boundary (size : Nat) (prompt : Option (List Nat)) (buf out : List Nat)
    (h2 : 2 ≤ size) (hmax : size < 2 ^ 31) :
    (∀ stream : FILE,
      (ci_read_line_internal stream prompt (some buf) size out).status = CI_OVERFLOW ↔
        stream.eof = false ∧ size - 1 ≤ stream.data.length ∧
          newline_free (stream.data.take (size - 1)) ∧
          nul_free (stream.data.take (size - 1))) ∧
    (∀ (l rest : List Nat), newline_free l → nul_free l →
      ((ci_read_line_internal ⟨l ++ NL :: rest, false⟩ prompt (some buf) size out).status = CI_OK ↔
        l.length + 2 ≤ size)) ∧
    (∀ (l rest : List Nat), newline_free l → nul_free l → l.length + 1 = size →
      ci_read_line_internal ⟨l ++ NL :: rest, false⟩ prompt (some buf) size out =
        ⟨CI_OVERFLOW, ⟨rest, false⟩, l, after_prompt prompt out⟩ ∧
      ci_read_line_internal ⟨l, false⟩ prompt (some buf) size out =
        ⟨CI_OVERFLOW, ⟨[], true⟩, l, after_prompt prompt out⟩) := by
  refine ⟨fun stream => read_overflow_iff h2 hmax stream prompt buf out, ?_, ?_⟩
  · intro l rest hl hnf
    constructor
    · intro hok
      by_contra hlong
      have hov : (ci_read_line_internal ⟨l ++ NL :: rest, false⟩ prompt (some buf) size
          out).status = CI_OVERFLOW := by
        rw [read_overflow_iff h2 hmax]
        have htake : (l ++ NL :: rest).take (size - 1) = l.take (size - 1) := by
          rw [List.take_append_of_le_length (by omega)]
        simp only
        rw [htake]
        refine ⟨trivial, by rw [List.length_append]; omega,
          fun c hc => hl c (List.mem_of_mem_take hc),
          fun c hc => hnf c (List.mem_of_mem_take hc)⟩
      rw [hov] at hok
      cases hok
    · intro hfit
      exact (read_short_line hmax l rest prompt buf out hl hfit).1
  · intro l rest hl hnf hlen
    constructor
    · have hr := read_long_line h2 hmax l (NL :: rest) prompt buf out hl hnf hlen
      rw [hr]
      simp [discard_line]
    · have hr := read_long_line h2 hmax l [] prompt buf out hl hnf hlen
      rw [List.append_nil] at hr
      rw [hr]
      simp [discard_line]

/-- Witness of C25 as amended: capacity 6, where `hello` overflows and `hell` fits. -/
theorem overflow_boundary_witness :
    ((2 : Nat) ≤ 6 ∧ (6 : Nat) < 2 ^ 31) ∧
    ci_read_line_internal ⟨bytes "hello" ++ NL :: bytes "next\n", false⟩ none (some []) 6 [] =
      ⟨CI_OVERFLOW, ⟨bytes "next\n", false⟩, bytes "hello", []⟩ ∧
    ((ci_read_line_internal ⟨bytes "hell" ++ NL :: [], false⟩ none (some []) 6 []).status =
      CI_OK ↔ (bytes "hell").length + 2 ≤ 6) :=
  ⟨⟨by decide, by decide⟩,
    ((overflow_boundary 6 none [] [] (by decide) (by decide)).2.2 (bytes "hello")
      (bytes "next\n") bytes_hello_newline_free bytes_hello_nul_free (by decide)).1,
    (overflow_boundary 6 none [] [] (by decide) (by decide)).2.1 (bytes "hell") []
      (by unfold newline_free; decide) (by unfold nul_free; decide)⟩

/-! ## Where an overflow of the numeric read comes from -/

/-- The drain loop leaves a suffix of the input. -/
theorem discard_line_suffix (s : List Nat) : ∃ m, s = m ++ (discard_line s).1 := by
  induction s with
  | nil => exact ⟨[], by simp [discard_line]⟩
  | cons c cs ih =>
    by_cases hc : c = NL
    · exact ⟨[c], by simp [discard_line, hc]⟩
    · obtain ⟨m, hm⟩ := ih
      refine ⟨c :: m, ?_⟩
      simp only [discard_line, if_neg hc, List.cons_append]
      rw [← hm]

/-- A read with status `CI_OK` has taken a run of characters without newline from the
front of the stream, and the newline behind it when there is one in reach; the buffer
holds the C string of that run. -/
theorem read_ok_chunk {size : Nat} (h2 : 2 ≤ size) (hmax : size < 2 ^ 31) (stream : FILE)
    (prompt : Option (List Nat)) (buf out : List Nat)
    (hok : (ci_read_line_internal stream prompt (some buf) size out).status = CI_OK) :
    ∃ l, newline_free l ∧
      cstr (ci_read_line_internal stream prompt (some buf) size out).buffer = cstr l ∧
      (stream.data =
          l ++ NL :: (ci_read_line_internal stream prompt (some buf) size out).stream.data ∨
        stream.data =
          l ++ (ci_read_line_internal stream prompt (some buf) size out).stream.data) := by
  obtain ⟨d, e⟩ := stream
  cases e with
  | true =>
    rw [read_at_eof h2 hmax d prompt buf out] at hok
    cases hok
  | false =>
  cases d with
  | nil =>
    rw [read_at_end h2 hmax false prompt buf out] at hok
    cases hok
  | cons c cs =>
    have hf := fgets_eq h2 hmax c cs
    rw [read_internal_of_fgets (by omega) _ prompt buf out _ _ hf] at hok ⊢
    obtain ⟨happ, hlen, hshape⟩ := fgets_scan_shape (size - 1) (c :: cs)
    generalize (fgets_scan (size - 1) (c :: cs)).1 = raw at hok happ hlen hshape ⊢
    generalize (fgets_scan (size - 1) (c :: cs)).2 = rest at hok happ ⊢
    have hsl := strlen_le_length raw
    by_cases h1 : strlen raw > 0 ∧ raw.getD (strlen raw - 1) 0 = NL
    · rw [if_pos h1]
      rcases hshape with hs | ⟨l, hl, hnl⟩
      · exfalso
        exact hs _ (getD_mem (by omega) 0) h1.2
      · have hpos : strlen raw - 1 = l.length := by
          by_contra hne
          have hlt : strlen raw - 1 < l.length := by
            have : raw.length = l.length + 1 := by rw [hl]; simp
            omega
          have hget : raw.getD (strlen raw - 1) 0 = l.getD (strlen raw - 1) 0 := by
            have hlt2 := hlt
            rw [hl] at hlt2
            rw [hl]
            exact List.getD_append _ _ _ _ hlt2
          rw [hget] at h1
          exact hnl _ (getD_mem hlt 0) h1.2
        have hfull : strlen raw = raw.length := by
          have : raw.length = l.length + 1 := by rw [hl]; simp
          omega
        have hnf : nul_free raw := nul_free_of_strlen hfull
        have hlnf : nul_free l := by
          intro x hx
          apply hnf x
          rw [hl]
          simp [hx]
        refine ⟨l, hnl, ?_, Or.inl ?_⟩
        · simp only
          rw [hpos, hl, List.set_append_right _ _ (le_refl _)]
          simp only [Nat.sub_self, List.set_cons_zero]
          rw [cstr_append_nul_free _ hlnf, cstr_nul_free hlnf]
          simp [cstr]
        · simp only
          rw [← happ, hl]
          simp
    · rw [if_neg h1] at hok ⊢
      by_cases h3 : strlen raw + 1 = size
      · rw [if_pos h3] at hok
        cases hok
      · rw [if_neg h3]
        rcases hshape with hs | ⟨l, hl, hnl⟩
        · exact ⟨raw, hs, rfl, Or.inr happ.symm⟩
        · refine ⟨l, hnl, ?_, Or.inl ?_⟩
          · simp only
            rcases nul_free_or_short l with hnf | hshort
            · exfalso
              apply h1
              have hs : strlen raw = l.length + 1 := by
                rw [hl, strlen_append_nul_free _ hnf]
                simp [strlen, NL]
              refine ⟨by omega, ?_⟩
              rw [hs, hl]
              simp [List.getD_eq_getElem?_getD]
            · rw [hl, cstr_append_of_short _ hshort]
          · simp only
            rw [← happ, hl]
            simp

/-- Every read leaves a suffix of the stream. -/
theorem read_consumes {size : Nat} (h2 : 2 ≤ size) (hmax : size < 2 ^ 31) (stream : FILE)
    (prompt : Option (List Nat)) (buf out : List Nat) :
    ∃ c, stream.data =
      c ++ (ci_read_line_internal stream prompt (some buf) size out).stream.data := by
  obtain ⟨d, e⟩ := stream
  cases e with
  | true =>
    rw [read_at_eof h2 hmax d prompt buf out]
    exact ⟨[], rfl⟩
  | false =>
  cases d with
  | nil =>
    rw [read_at_end h2 hmax false prompt buf out]
    exact ⟨[], rfl⟩
  | cons c cs =>
    have hf := fgets_eq h2 hmax c cs
    rw [read_internal_of_fgets (by omega) _ prompt buf out _ _ hf]
    obtain ⟨happ, _, _⟩ := fgets_scan_shape (size - 1) (c :: cs)
    generalize (fgets_scan (size - 1) (c :: cs)).1 = raw at happ ⊢
    generalize (fgets_scan (size - 1) (c :: cs)).2 = rest at happ ⊢
    by_cases h1 : strlen raw > 0 ∧ raw.getD (strlen raw - 1) 0 = NL
    · rw [if_pos h1]
      exact ⟨raw, happ.symm⟩
    · rw [if_neg h1]
      by_cases h3 : strlen raw + 1 = size
      · rw [if_pos h3]
        unfold drain_line
        split
        · exact ⟨raw, happ.symm⟩
        · obtain ⟨m, hm⟩ := discard_line_suffix rest
          refine ⟨raw ++ m, ?_⟩
          simp only
          rw [List.append_assoc, ← hm, happ]
      · rw [if_neg h3]
        exact ⟨raw, happ.symm⟩

/-- The parser answers `CI_OVERFLOW` exactly for the texts that start with a number out
of the range of `long`. -/
theorem parse_overflow_iff (t : List Nat) :
    parse_status t = CI_OVERFLOW ↔ number_out_of_range t := by
  have hcc : cstr (cstr t) = cstr t := cstr_nul_free (cstr_is_nul_free t)
  have hst : parse_status t = (ci_parse_long (some (cstr t)) (some 0)).1 := by
    unfold parse_status
    rw [parse_congr (some 0) hcc.symm]
  constructor
  · intro h
    rw [hst] at h
    rcases text_shape (cstr t) with ⟨ws, sg, ds, rest, ht, hws, hsg, hds, hne, hrest⟩ |
        ⟨ws, sg, rest, ht, hws, hsg, hrest, hbare⟩
    · rw [ht, parse_number ws sg ds rest 0 hws hsg hds hne hrest] at h
      by_cases h1 : signed_value sg ds > LONG_MAX ∨ signed_value sg ds < LONG_MIN
      · exact ⟨ws, sg, ds, rest, ht, hws, hsg, hds, hne, hrest, h1⟩
      · rw [if_neg h1] at h
        by_cases h2 : cstr rest ≠ []
        · rw [if_pos h2] at h
          cases h
        · rw [if_neg h2] at h
          cases h
    · rw [ht, parse_no_number ws sg rest 0 hws hsg hrest hbare] at h
      cases h
  · rintro ⟨ws, sg, ds, rest, ht, hws, hsg, hds, hne, hrest, h1⟩
    rw [hst, ht, parse_number ws sg ds rest 0 hws hsg hds hne hrest, if_pos h1]

/-- Where a `CI_OVERFLOW` of the numeric loop comes from: the last run of characters
read, which the parser answered with `CI_OVERFLOW`; nothing is stored. -/
theorem loop_overflow_origin (prompt : Option (List Nat)) (fuel : Nat) :
    ∀ (buf : List Nat) (old : Int) (stdin : FILE) (o : List Nat) (r : NumResult),
      prompt_numeric_loop prompt fuel buf (some old) stdin o = some r →
      r.status = CI_OVERFLOW →
      r.value = some old ∧
      ∃ pre l, newline_free l ∧
        (stdin.data = pre ++ l ++ NL :: r.stdin.data ∨ stdin.data = pre ++ l ++ r.stdin.data) ∧
        parse_status l = CI_OVERFLOW := by
  induction fuel with
  | zero =>
    intro buf old stdin o r h
    simp [prompt_numeric_loop] at h
  | succ fuel ih =>
    intro buf old stdin o r h hov
    obtain ⟨hninv, _⟩ := @read_progress 128 (by decide) (by decide) stdin prompt buf o
    obtain ⟨c, hc⟩ := @read_consumes 128 (by decide) (by decide) stdin prompt buf o
    rw [prompt_numeric_loop] at h
    unfold ci_prompt_line at h
    simp only at h
    have hrec : ∀ (b2 : List Nat) (o2 : List Nat),
        prompt_numeric_loop prompt fuel b2 (some old)
          (ci_read_line_internal stdin prompt (some buf) 128 o).stream o2 = some r →
        r.value = some old ∧
        ∃ pre l, newline_free l ∧
          (stdin.data = pre ++ l ++ NL :: r.stdin.data ∨
            stdin.data = pre ++ l ++ r.stdin.data) ∧
          parse_status l = CI_OVERFLOW := by
      intro b2 o2 h2
      obtain ⟨hv, pre, l, hl, hsplit, hp⟩ := ih b2 old _ o2 r h2 hov
      refine ⟨hv, c ++ pre, l, hl, ?_, hp⟩
      rcases hsplit with hs | hs
      · left
        rw [hc, hs]
        simp
      · right
        rw [hc, hs]
        simp
    by_cases h1 : (ci_read_line_internal stdin prompt (some buf) 128 o).status = CI_EOF
    · simp only [if_pos h1, Option.some.injEq] at h
      rw [← h] at hov
      cases hov
    · simp only [if_neg h1] at h
      by_cases h2 : (ci_read_line_internal stdin prompt (some buf) 128 o).status = CI_OVERFLOW
      · simp only [if_pos h2] at h
        exact hrec _ _ h
      · simp only [if_neg h2] at h
        by_cases h3 : (ci_read_line_internal stdin prompt (some buf) 128 o).status ≠ CI_OK
        · exfalso
          cases hst : (ci_read_line_internal stdin prompt (some buf) 128 o).status with
          | CI_OK => exact h3 hst
          | CI_EOF => exact h1 hst
          | CI_OVERFLOW => exact h2 hst
          | CI_INVALID => exact hninv hst
        · simp only [if_neg h3] at h
          have hok : (ci_read_line_internal stdin prompt (some buf) 128 o).status = CI_OK :=
            not_not.1 h3
          by_cases h4 : (ci_parse_long
              (some (ci_read_line_internal stdin prompt (some buf) 128 o).buffer)
              (some old)).1 = CI_INVALID
          · simp only [if_pos h4] at h
            have hk := parse_keeps
              (some (ci_read_line_internal stdin prompt (some buf) 128 o).buffer) (some old)
              (by rw [h4]; decide)
            rw [hk] at h
            exact hrec _ _ h
          · simp only [if_neg h4, Option.some.injEq] at h
            obtain ⟨l, hl, hcs, hsplit⟩ :=
              @read_ok_chunk 128 (by decide) (by decide) stdin prompt buf o hok
            have hstat : (ci_parse_long
                (some (ci_read_line_internal stdin prompt (some buf) 128 o).buffer)
                (some old)).1 = CI_OVERFLOW := by
              rw [← h] at hov
              exact hov
            have hpl : parse_status l = CI_OVERFLOW := by
              rw [← parse_status_eq l old, ← parse_congr (some old) hcs]
              exact hstat
            have hk := parse_keeps
              (some (ci_read_line_internal stdin prompt (some buf) 128 o).buffer) (some old)
              (by rw [hstat]; decide)
            refine ⟨by rw [← h]; exact hk, [], l, hl, ?_, hpl⟩
            rw [← h]
            simpa using hsplit

set_option maxRecDepth 100000 in
/-- Counterexample to C22: `ci_read_long` returns `CI_OVERFLOW` for the line made of a
minus sign, twenty times `9` and the letters `abc`, and for the line made of a space and
twenty times `9`; neither is an optional sign followed by digits only. It returns
`CI_OVERFLOW` as well for the single line made of `a`, a NUL, 125 times `x` and twenty
times `9`, which does not start with a number at all: the line is read in two pieces and
the second piece is the twenty nines. -/
theorem overflow_on_malformed_line :
    ci_read_long none 1 (some 0) ⟨bytes "-99999999999999999999abc\n", false⟩ [] =
      some ⟨CI_OVERFLOW, some 0, ⟨[], false⟩, []⟩ ∧
    ci_read_long none 1 (some 0) ⟨bytes " 99999999999999999999\n", false⟩ [] =
      some ⟨CI_OVERFLOW, some 0, ⟨[], false⟩, []⟩ ∧
    ci_read_long none 2 (some 0)
        ⟨[97, 0] ++ List.replicate 125 120 ++ bytes "99999999999999999999\n", false⟩ [] =
      some ⟨CI_OVERFLOW, some 0, ⟨[], false⟩, invalid_notice⟩ := by
  refine ⟨by decide, by decide, by rfl⟩

/-! ## The first line that the numeric read does not skip -/

/-- A result of the loop does not depend on the bound: a larger bound gives the same. -/
theorem loop_fuel_mono (prompt : Option (List Nat)) (fuel : Nat) :
    ∀ (buf : List Nat) (ov : Option Int) (stdin : FILE) (o : List Nat) (r : NumResult),
      prompt_numeric_loop prompt fuel buf ov stdin o = some r →
      ∀ k, prompt_numeric_loop prompt (fuel + k) buf ov stdin o = some r := by
  induction fuel with
  | zero =>
    intro buf ov stdin o r h
    simp [prompt_numeric_loop] at h
  | succ fuel ih =>
    intro buf ov stdin o r h k
    rw [show fuel + 1 + k = (fuel + k) + 1 by omega]
    rw [prompt_numeric_loop] at h ⊢
    unfold ci_prompt_line at h ⊢
    simp only at h ⊢
    by_cases h1 : (ci_read_line_internal stdin prompt (some buf) 128 o).status = CI_EOF
    · simp only [if_pos h1] at h ⊢
      exact h
    · simp only [if_neg h1] at h ⊢
      by_cases h2 : (ci_read_line_internal stdin prompt (some buf) 128 o).status = CI_OVERFLOW
      · simp only [if_pos h2] at h ⊢
        exact ih _ _ _ _ _ h k
      · simp only [if_neg h2] at h ⊢
        by_cases h3 : (ci_read_line_internal stdin prompt (some buf) 128 o).status ≠ CI_OK
        · simp only [if_pos h3] at h ⊢
          exact h
        · simp only [if_neg h3] at h ⊢
          by_cases h4 : (ci_parse_long
              (some (ci_read_line_internal stdin prompt (some buf) 128 o).buffer) ov).1 =
              CI_INVALID
          · simp only [if_pos h4] at h ⊢
            exact ih _ _ _ _ _ h k
          · simp only [if_neg h4] at h ⊢
            exact h

/-- Two bounds under which the loop returns give the same result. -/
theorem loop_deterministic (prompt : Option (List Nat)) (f1 f2 : Nat) (buf : List Nat)
    (ov : Option Int) (stdin : FILE) (o : List Nat) (r1 r2 : NumResult)
    (h1 : prompt_numeric_loop prompt f1 buf ov stdin o = some r1)
    (h2 : prompt_numeric_loop prompt f2 buf ov stdin o = some r2) : r1 = r2 := by
  have a := loop_fuel_mono prompt f1 buf ov stdin o r1 h1 f2
  have b := loop_fuel_mono prompt f2 buf ov stdin o r2 h2 f1
  rw [Nat.add_comm] at b
  rw [a] at b
  exact Option.some.inj b

/-- Every input is a sequence of lines, each ended by a newline, followed by characters
without a newline (none when the input is empty or ends with a newline). -/
theorem input_lines (d : List Nat) :
    ∃ ls last, d = lines_text ls ++ last ∧ (∀ l ∈ ls, newline_free l) ∧
      newline_free last := by
  induction d with
  | nil => exact ⟨[], [], rfl, (fun l hl => by cases hl), (fun c hc => by cases hc)⟩
  | cons c cs ih =>
    obtain ⟨ls, last, hd, hls, hlast⟩ := ih
    by_cases hc : c = NL
    · refine ⟨[] :: ls, last, ?_, ?_, hlast⟩
      · rw [hd, hc]
        rfl
      · intro l hl
        rcases List.mem_cons.1 hl with h | h
        · rw [h]
          exact fun x hx => by cases hx
        · exact hls l h
    · cases ls with
      | nil =>
        refine ⟨[], c :: last, by rw [hd]; rfl, (fun l hl => by cases hl), ?_⟩
        intro x hx
        rcases List.mem_cons.1 hx with h | h
        · rw [h]
          exact hc
        · exact hlast x h
      | cons l ls =>
        refine ⟨(c :: l) :: ls, last, by rw [hd]; rfl, ?_, hlast⟩
        intro y hy
        rcases List.mem_cons.1 hy with h | h
        · rw [h]
          intro x hx
          rcases List.mem_cons.1 hx with h2 | h2
          · rw [h2]
            exact hc
          · exact hls l (List.mem_cons_self _ _) x h2
        · exact hls y (List.mem_cons_of_mem _ h)

theorem lines_text_append (a b : List (List Nat)) :
    lines_text (a ++ b) = lines_text a ++ lines_text b := by
  induction a with
  | nil => rfl
  | cons x a ih => simp [lines_text, ih]

/-- The input made of the lines `ls`, the line `l`, the lines `tl` and the tail. -/
theorem lines_text_split (ls tl : List (List Nat)) (l last : List Nat) :
    lines_text (ls ++ l :: tl) ++ last = lines_text ls ++ (l ++ NL :: (lines_text tl ++ last)) := by
  rw [lines_text_append, List.append_assoc, lines_text_cons]

/-- A line without NUL among its first 127 characters when it has that many is either
skipped by the numeric read or has at most 126 characters and is not refused by the
parser. -/
theorem line_cases (x : List Nat) (hnl : newline_free x)
    (hnf : 127 ≤ x.length → nul_free (x.take 127)) :
    skipped_line x ∨ (x.length ≤ 126 ∧ parse_status x ≠ CI_INVALID) := by
  by_cases hlen : x.length ≤ 126
  · by_cases hinv : parse_status x = CI_INVALID
    · exact Or.inl ⟨hnl, Or.inl ⟨hlen, hinv⟩⟩
    · exact Or.inr ⟨hlen, hinv⟩
  · exact Or.inl ⟨hnl, Or.inr ⟨by omega, hnf (by omega)⟩⟩

/-- Every input made of lines is of one of these shapes: skipped lines up to a first line
that is not skipped; or skipped lines only, followed by nothing, by a last skipped line
without newline, or by a last line without newline that is not skipped. -/
theorem lines_shape (lines : List (List Nat)) (last : List Nat)
    (hadm : ∀ x ∈ last :: lines, newline_free x ∧ (127 ≤ x.length → nul_free (x.take 127))) :
    (∃ ls l tl, lines = ls ++ l :: tl ∧ (∀ x ∈ ls, skipped_line x) ∧ newline_free l ∧
        l.length ≤ 126 ∧ parse_status l ≠ CI_INVALID) ∨
    ((∀ x ∈ lines, skipped_line x) ∧
      (last = [] ∨ (last ≠ [] ∧ skipped_line last) ∨
        (last ≠ [] ∧ newline_free last ∧ last.length ≤ 126 ∧
          parse_status last ≠ CI_INVALID))) := by
  induction lines with
  | nil =>
    right
    refine ⟨(fun x hx => by cases hx), ?_⟩
    by_cases hne : last = []
    · exact Or.inl hne
    · obtain ⟨hnl, hnf⟩ := hadm last (List.mem_cons_self _ _)
      rcases line_cases last hnl hnf with h | ⟨h1, h2⟩
      · exact Or.inr (Or.inl ⟨hne, h⟩)
      · exact Or.inr (Or.inr ⟨hne, hnl, h1, h2⟩)
  | cons x rest ih =>
    have hx : newline_free x ∧ (127 ≤ x.length → nul_free (x.take 127)) :=
      hadm x (List.mem_cons_of_mem _ (List.mem_cons_self _ _))
    have hrest : ∀ y ∈ last :: rest,
        newline_free y ∧ (127 ≤ y.length → nul_free (y.take 127)) := by
      intro y hy
      rcases List.mem_cons.1 hy with h | h
      · rw [h]
        exact hadm last (List.mem_cons_self _ _)
      · exact hadm y (List.mem_cons_of_mem _ (List.mem_cons_of_mem _ h))
    rcases line_cases x hx.1 hx.2 with hsk | ⟨h1, h2⟩
    · rcases ih hrest with ⟨ls, l, tl, hsplit, hall, hl⟩ | ⟨hall, hlast⟩
      · left
        refine ⟨x :: ls, l, tl, by rw [hsplit]; rfl, ?_, hl⟩
        intro y hy
        rcases List.mem_cons.1 hy with h | h
        · rw [h]
          exact hsk
        · exact hall y h
      · right
        refine ⟨?_, hlast⟩
        intro y hy
        rcases List.mem_cons.1 hy with h | h
        · rw [h]
          exact hsk
        · exact hall y h
    · left
      exact ⟨[], x, rest, rfl, (fun y hy => by cases hy), hx.1, h1, h2⟩

/-- C22 as amended, overflow from the numeric read means a number out of range at the
start of the line at which the read returns. The standard input, its end-of-file indicator
clear, consists of the lines `lines`, each ended by a newline, and of the characters
`last` without a newline behind them. A line is skipped when it has at most 126
characters and `ci_parse_long` answers `CI_INVALID` for it, or when it has 127 characters
or more and no NUL among the first 127.
(1) If no line of 127 characters or more has a NUL among its first 127, then whenever
`ci_read_long` returns `CI_OVERFLOW`, the line it had just read is the first line `l` of
the input that is not skipped (all lines before it are), `l` has at most 126 characters
and starts, after optional white space, with an optional sign and decimal digits whose
value is outside the range of `long`, whatever follows the digits; `*out_value` is not
written and the input left is what follows `l`.
(2) When the first line `l` that is not skipped has at most 126 characters, `ci_read_long`
returns at `l` with the status of parsing `l`, and whenever it returns, it returns
`CI_OVERFLOW` if and only if `l` starts with such a number out of range: a line that does
not start so never makes it return `CI_OVERFLOW`.
(3) The same when that line is `last`, without a newline.
(4) With the indicator set `ci_read_long` returns `CI_EOF` at once. -/
theorem overflow_is_range (prompt : Option (List Nat)) (fuel : Nat) (old : Int)
    (lines : List (List Nat)) (last : List Nat) (o : List Nat) :
    ((∀ x ∈ last :: lines, newline_free x ∧ (127 ≤ x.length → nul_free (x.take 127))) →
      ∀ r, ci_read_long prompt fuel (some old) ⟨lines_text lines ++ last, false⟩ o = some r →
        r.status = CI_OVERFLOW →
        r.value = some old ∧
        ((∃ ls l tl, lines = ls ++ l :: tl ∧ (∀ x ∈ ls, skipped_line x) ∧ l.length ≤ 126 ∧
            number_out_of_range l ∧ r.stdin = ⟨lines_text tl ++ last, false⟩) ∨
          ((∀ x ∈ lines, skipped_line x) ∧ last ≠ [] ∧ last.length ≤ 126 ∧
            number_out_of_range last ∧ r.stdin = ⟨[], true⟩))) ∧
    (∀ ls l tl, lines = ls ++ l :: tl → (∀ x ∈ ls, skipped_line x) → newline_free l →
      l.length ≤ 126 → parse_status l ≠ CI_INVALID →
      (∃ o2, ci_read_long prompt (ls.length + (fuel + 1)) (some old)
          ⟨lines_text lines ++ last, false⟩ o =
        some ⟨parse_status l,
          if parse_status l = CI_OK then some (strtol l).value else some old,
          ⟨lines_text tl ++ last, false⟩, o2⟩) ∧
      (∀ f r, ci_read_long prompt f (some old) ⟨lines_text lines ++ last, false⟩ o = some r →
        (r.status = CI_OVERFLOW ↔ number_out_of_range l))) ∧
    ((∀ x ∈ lines, skipped_line x) → last ≠ [] → newline_free last → last.length ≤ 126 →
      parse_status last ≠ CI_INVALID →
      (∃ o2, ci_read_long prompt (lines.length + (fuel + 1)) (some old)
          ⟨lines_text lines ++ last, false⟩ o =
        some ⟨parse_status last,
          if parse_status last = CI_OK then some (strtol last).value else some old,
          ⟨[], true⟩, o2⟩) ∧
      (∀ f r, ci_read_long prompt f (some old) ⟨lines_text lines ++ last, false⟩ o = some r →
        (r.status = CI_OVERFLOW ↔ number_out_of_range last))) ∧
    ci_read_long prompt (fuel + 1) (some old) ⟨lines_text lines ++ last, true⟩ o =
      some ⟨CI_EOF, some old, ⟨lines_text lines ++ last, true⟩, after_prompt prompt o⟩ := by
  have hline : ∀ ls l tl, lines = ls ++ l :: tl → (∀ x ∈ ls, skipped_line x) →
      newline_free l → l.length ≤ 126 → parse_status l ≠ CI_INVALID →
      ∀ f r, prompt_numeric_loop prompt f [] (some old) ⟨lines_text lines ++ last, false⟩ o =
          some r →
        r.status = parse_status l ∧
        r.value = (if parse_status l = CI_OK then some (strtol l).value else some old) ∧
        r.stdin = ⟨lines_text tl ++ last, false⟩ := by
    intro ls l tl hsplit hsk hnl hlen hst f r hr
    obtain ⟨o2, h2⟩ := loop_retry_line prompt 0 [] old ls l (lines_text tl ++ last) o hsk hnl
      hlen hst
    rw [← lines_text_split, ← hsplit] at h2
    have := loop_deterministic prompt _ _ _ _ _ _ _ _ hr h2
    rw [this]
    exact ⟨rfl, rfl, rfl⟩
  have hlast : (∀ x ∈ lines, skipped_line x) → last ≠ [] → newline_free last →
      last.length ≤ 126 → parse_status last ≠ CI_INVALID →
      ∀ f r, prompt_numeric_loop prompt f [] (some old) ⟨lines_text lines ++ last, false⟩ o =
          some r →
        r.status = parse_status last ∧
        r.value = (if parse_status last = CI_OK then some (strtol last).value
          else some old) ∧
        r.stdin = ⟨[], true⟩ := by
    intro hsk hne hnl hlen hst f r hr
    obtain ⟨o2, h2⟩ := loop_retry_last prompt 0 [] old lines last o hsk hne hnl hlen hst
    have := loop_deterministic prompt _ _ _ _ _ _ _ _ hr h2
    rw [this]
    exact ⟨rfl, rfl, rfl⟩
  have hkeep : ∀ l : List Nat, parse_status l = CI_OVERFLOW →
      (if parse_status l = CI_OK then some (strtol l).value else some old) = some old := by
    intro l hp
    rw [if_neg (by rw [hp]; decide)]
  refine ⟨?_, ?_, ?_, (numeric_at_eof prompt fuel old 0 _ o).1⟩
  · intro hadm r hr hov
    unfold ci_read_long ci_prompt_numeric at hr
    rcases lines_shape lines last hadm with ⟨ls, l, tl, hsplit, hsk, hnl, hlen, hst⟩ |
        ⟨hall, hcase⟩
    · obtain ⟨h1, h2, h3⟩ := hline ls l tl hsplit hsk hnl hlen hst fuel r hr
      have hp : parse_status l = CI_OVERFLOW := by rw [← h1]; exact hov
      exact ⟨by rw [h2, hkeep l hp],
        Or.inl ⟨ls, l, tl, hsplit, hsk, hlen, (parse_overflow_iff l).1 hp, h3⟩⟩
    · rcases hcase with hnil | ⟨hne, hsk⟩ | ⟨hne, hnl, hlen, hst⟩
      · exfalso
        obtain ⟨o2, h2⟩ := loop_retry_end prompt 0 [] old lines o hall
        rw [hnil, List.append_nil] at hr
        have := loop_deterministic prompt _ _ _ _ _ _ _ _ hr h2
        rw [this] at hov
        cases hov
      · exfalso
        obtain ⟨o2, h2⟩ := loop_retry_tail prompt 0 [] old lines last o hall hne hsk
        have := loop_deterministic prompt _ _ _ _ _ _ _ _ hr h2
        rw [this] at hov
        cases hov
      · obtain ⟨h1, h2, h3⟩ := hlast hall hne hnl hlen hst fuel r hr
        have hp : parse_status last = CI_OVERFLOW := by rw [← h1]; exact hov
        exact ⟨by rw [h2, hkeep last hp],
          Or.inr ⟨hall, hne, hlen, (parse_overflow_iff last).1 hp, h3⟩⟩
  · intro ls l tl hsplit hsk hnl hlen hst
    constructor
    · obtain ⟨o2, h2⟩ := loop_retry_line prompt fuel [] old ls l (lines_text tl ++ last) o hsk
        hnl hlen hst
      rw [← lines_text_split, ← hsplit] at h2
      exact ⟨o2, h2⟩
    · intro f r hr
      unfold ci_read_long ci_prompt_numeric at hr
      obtain ⟨h1, _, _⟩ := hline ls l tl hsplit hsk hnl hlen hst f r hr
      rw [h1]
      exact parse_overflow_iff l
  · intro hsk hne hnl hlen hst
    constructor
    · exact loop_retry_last prompt fuel [] old lines last o hsk hne hnl hlen hst
    · intro f r hr
      unfold ci_read_long ci_prompt_numeric at hr
      obtain ⟨h1, _, _⟩ := hlast hsk hne hnl hlen hst f r hr
      rw [h1]
      exact parse_overflow_iff last

theorem nines_out_of_range : number_out_of_range (bytes "99999999999999999999x") :=
  ⟨[], [], bytes "99999999999999999999", bytes "x", by decide, by decide, Or.inl rfl,
    by decide, by decide, by decide, by decide⟩

theorem demo_numeric_lines_ok :
    ∀ x ∈ [] :: [bytes "abc", bytes "99999999999999999999x", bytes "7"],
      newline_free x ∧ (127 ≤ x.length → nul_free (x.take 127)) := by
  unfold newline_free nul_free
  decide

/-- Witness of C22 as amended: the lines `abc`, twenty times `9` followed by `x`, and
`7`. The first is skipped, the read returns `CI_OVERFLOW` at the second and leaves the
third. -/
theorem overflow_is_range_witness :
    ci_read_long none 2 (some 5)
        ⟨lines_text [bytes "abc", bytes "99999999999999999999x", bytes "7"] ++ [], false⟩ [] =
      some ⟨CI_OVERFLOW, some 5, ⟨bytes "7\n", false⟩, invalid_notice⟩ ∧
    ((∃ ls l tl, [bytes "abc", bytes "99999999999999999999x", bytes "7"] = ls ++ l :: tl ∧
        (∀ x ∈ ls, skipped_line x) ∧ l.length ≤ 126 ∧ number_out_of_range l ∧
        (⟨bytes "7\n", false⟩ : FILE) = ⟨lines_text tl ++ [], false⟩) ∨
      ((∀ x ∈ [bytes "abc", bytes "99999999999999999999x", bytes "7"], skipped_line x) ∧
        ([] : List Nat) ≠ [] ∧ ([] : List Nat).length ≤ 126 ∧ number_out_of_range [] ∧
        (⟨bytes "7\n", false⟩ : FILE) = ⟨[], true⟩)) ∧
    (∀ f r, ci_read_long none f (some 5)
        ⟨lines_text [bytes "abc", bytes "99999999999999999999x", bytes "7"] ++ [], false⟩ [] =
          some r →
      (r.status = CI_OVERFLOW ↔ number_out_of_range (bytes "99999999999999999999x"))) :=
  ⟨by decide,
    ((overflow_is_range none 2 5 [bytes "abc", bytes "99999999999999999999x", bytes "7"] []
      []).1 demo_numeric_lines_ok ⟨CI_OVERFLOW, some 5, ⟨bytes "7\n", false⟩, invalid_notice⟩
      (by decide) rfl).2,
    ((overflow_is_range none 0 5 [bytes "abc", bytes "99999999999999999999x", bytes "7"] []
      []).2.1 [bytes "abc"] (bytes "99999999999999999999x") [bytes "7"] rfl
      (fun x hx => by
        rw [List.mem_singleton] at hx
        rw [hx]
        exact skipped_abc)
      (by unfold newline_free; decide) (by decide) (by decide)).2⟩

/-! ## Registry changes made by a callback -/

/-- The scan depends on the name through its C string only. -/
theorem scan_name_congr {a b : List Nat} (s : State) (h : cstr a = cstr b) :
    scan a s = scan b s :=
  scan_from_name_congr s.ci_commands s.ci_command_count 0 h

/-- The worker reads a line that fits and dispatches it: the iteration as a whole. -/
theorem worker_iter_line (h : Handlers) (s : State) (l rest : List Nat)
    (hin : s.stdin.data = l ++ NL :: rest) (heof : s.stdin.eof = false)
    (hl : newline_free l) (hnf : nul_free l) (hlen : l.length ≤ 254) :
    cstr (worker_read s).buffer = l ∧
    (after_read s (worker_read s)).stdin = ⟨rest, false⟩ ∧
    worker_iter h s =
      (if (dispatch h (after_read s (worker_read s))).ci_stop_requested then Ctl.brk
        else Ctl.cont,
       dispatch h (after_read s (worker_read s))) := by
  obtain ⟨hst, hstream, hbuf⟩ := worker_read_short s l rest hin heof hl hnf hlen
  exact ⟨hbuf, hstream, worker_iter_ok hst⟩

/-- After a name has been unregistered the scan does not find it. -/
theorem scan_after_unregister (s : State) (name : List Nat) (hinv : registry_inv s) :
    scan name (ci_unregister_command (some name) s).2 = none := by
  cases hs : scan name s with
  | none =>
    rw [unregister_missing_eq hs]
    exact hs
  | some i =>
    obtain ⟨hi, hm, _⟩ := scan_some hs
    have heq := unregister_found_eq hs
    have hcnt : (ci_unregister_command (some name) s).2.ci_command_count =
        s.ci_command_count - 1 := by rw [heq]
    apply scan_none_iff.2
    rintro ⟨j, hj, hmj⟩
    rw [hcnt] at hj
    have hread : (ci_unregister_command (some name) s).2.ci_commands.read j =
        s.ci_commands.read (if j = i then s.ci_command_count - 1 else j) := by
      rw [heq]
      exact read_after_unregister _ _ _ _ hi hinv.1 hj
    rw [hread] at hmj
    have := hinv.2 _ (by split <;> omega) i hi (strcmp_trans_zero (strcmp_comm_zero hmj) hm)
    split at this <;> omega

/-- The log after an iteration that reads a line that fits, in terms of the callback the
dispatch chooses. -/
theorem worker_iter_line_calls (h : Handlers) (s : State) (l rest : List Nat) (cb ud : Nat)
    (hin : s.stdin.data = l ++ NL :: rest) (heof : s.stdin.eof = false)
    (hl : newline_free l) (hnf : nul_free l) (hlen : l.length ≤ 254)
    (ht : dispatch_target (after_read s (worker_read s)) = some (cb, ud)) :
    (worker_iter h s).2.calls = s.calls ++ [⟨cb, (worker_read s).buffer, ud⟩] := by
  obtain ⟨_, _, hit⟩ := worker_iter_line h s l rest hin heof hl hnf hlen
  rw [hit, dispatch_eq_target, ht]
  simp only
  rw [invoke_calls]
  rfl

/-- The callback chosen for a line whose name the scan finds in slot `i`. -/
theorem dispatch_target_found {s : State} {i : Nat} (hs : scan s.buffer s = some i)
    (hcb : (s.ci_commands.read i).cb ≠ 0) :
    dispatch_target s = some ((s.ci_commands.read i).cb, (s.ci_commands.read i).user_data) := by
  unfold dispatch_target
  rw [lookup_eq_of_scan hs]
  simp only [if_pos hcb]

/-- The callback chosen for a line the scan does not find. -/
theorem dispatch_target_default {s : State} (hs : scan s.buffer s = none)
    (hcb : s.ci_cb ≠ 0) : dispatch_target s = some (s.ci_cb, s.ci_cb_data) := by
  unfold dispatch_target
  rw [lookup_none_of_scan hs]
  simp only [if_pos hcb]

/-- An iteration that reads a registered name whose callback re-registers the name:
the state it leaves. -/
theorem iter_reregister (h : Handlers) (s : State) (n nm rest : List Nat) (i cb2 ud2 : Nat)
    (hok : session_ok s) (hin : s.stdin.data = n ++ NL :: rest) (heof : s.stdin.eof = false)
    (hl : newline_free n) (hnf : nul_free n) (hi : scan n s = some i) (hnm : cstr nm = n)
    (hcb2 : cb2 ≠ 0) (hns : s.ci_stop_requested = false)
    (hbody : h (s.ci_commands.read i).cb (worker_read s).buffer (s.ci_commands.read i).user_data
      s.calls = Prog.register (some nm) cb2 ud2 (fun _ => Prog.done)) :
    cstr (worker_read s).buffer = n ∧
    worker_iter h s =
      (Ctl.cont,
        { s with
          stdin := ⟨rest, false⟩, stdout := (worker_read s).stdout,
          buffer := (worker_read s).buffer,
          calls := s.calls ++ [⟨(s.ci_commands.read i).cb, (worker_read s).buffer,
            (s.ci_commands.read i).user_data⟩],
          ci_commands := s.ci_commands.write i ⟨(s.ci_commands.read i).command, cb2, ud2⟩ }) := by
  obtain ⟨hinv, hwf, hcbs, _⟩ := hok
  obtain ⟨hilt, hm, _⟩ := scan_some hi
  have hcn : cstr n = n := cstr_nul_free hnf
  have hname : strlen n < CI_COMMAND_MAX_LEN := present_strlen hwf (present_iff_scan.2 ⟨i, hi⟩)
  have hlen : n.length ≤ 254 := by
    rw [← strlen_nul_free hnf]
    simp only [CI_COMMAND_MAX_LEN] at hname
    omega
  obtain ⟨hbuf, hstream, hit⟩ := worker_iter_line h s n rest hin heof hl hnf hlen
  have hscan1 : scan (after_read s (worker_read s)).buffer (after_read s (worker_read s)) =
      some i := by
    rw [scan_after_read]
    rw [← hi]
    exact scan_name_congr s (by rw [hcn]; exact hbuf)
  have hcb1 : ((after_read s (worker_read s)).ci_commands.read i).cb ≠ 0 := hcbs i hilt
  have hd := @dispatch_of_scan_some h _ _ hscan1 hcb1
  have hnmlen : strlen nm < CI_COMMAND_MAX_LEN := by
    rw [strlen_eq_length_cstr, hnm, ← strlen_nul_free hnf]
    exact hname
  have hscan2 : scan nm (logged (after_read s (worker_read s))
      ⟨(s.ci_commands.read i).cb, (worker_read s).buffer,
        (s.ci_commands.read i).user_data⟩) = some i := by
    rw [← hi]
    exact scan_name_congr s (by rw [hcn]; exact hnm)
  have hreg := register_found_eq ud2 hcb2 hnmlen hscan2
  refine ⟨hbuf, ?_⟩
  rw [hit, hd]
  have hinv2 : invoke h (s.ci_commands.read i).cb (worker_read s).buffer
      (s.ci_commands.read i).user_data (after_read s (worker_read s)) =
      (ci_register_command (some nm) cb2 ud2
        (logged (after_read s (worker_read s))
          ⟨(s.ci_commands.read i).cb, (worker_read s).buffer,
            (s.ci_commands.read i).user_data⟩)).2 := by
    unfold invoke
    have hc : (after_read s (worker_read s)).calls = s.calls := rfl
    rw [hc, hbody]
    rfl
  have hs1 : (after_read s (worker_read s)).buffer = (worker_read s).buffer := rfl
  have hs2 : (after_read s (worker_read s)).ci_commands = s.ci_commands := rfl
  rw [hs1, hs2, hinv2, hreg]
  simp only [logged, after_read, hns, Bool.false_eq_true, if_false]
  rw [show (worker_read s).stream = (⟨rest, false⟩ : FILE) from hstream]

/-- An iteration that reads a registered name whose callback unregisters the name: the
state it leaves. -/
theorem iter_unregister (h : Handlers) (s : State) (n nm rest : List Nat) (i : Nat)
    (hok : session_ok s) (hin : s.stdin.data = n ++ NL :: rest) (heof : s.stdin.eof = false)
    (hl : newline_free n) (hnf : nul_free n) (hi : scan n s = some i) (hnm : cstr nm = n)
    (hns : s.ci_stop_requested = false)
    (hbody : h (s.ci_commands.read i).cb (worker_read s).buffer (s.ci_commands.read i).user_data
      s.calls = Prog.unregister (some nm) (fun _ => Prog.done)) :
    cstr (worker_read s).buffer = n ∧
    ∃ t c, scan_from n t c 0 = none ∧
      worker_iter h s =
        (Ctl.cont,
          { s with
            stdin := ⟨rest, false⟩, stdout := (worker_read s).stdout,
            buffer := (worker_read s).buffer,
            calls := s.calls ++ [⟨(s.ci_commands.read i).cb, (worker_read s).buffer,
              (s.ci_commands.read i).user_data⟩],
            ci_commands := t, ci_command_count := c }) := by
  obtain ⟨hinv, hwf, hcbs, _⟩ := hok
  obtain ⟨hilt, hm, _⟩ := scan_some hi
  have hcn : cstr n = n := cstr_nul_free hnf
  have hname : strlen n < CI_COMMAND_MAX_LEN := present_strlen hwf (present_iff_scan.2 ⟨i, hi⟩)
  have hlen : n.length ≤ 254 := by
    rw [← strlen_nul_free hnf]
    simp only [CI_COMMAND_MAX_LEN] at hname
    omega
  obtain ⟨hbuf, hstream, hit⟩ := worker_iter_line h s n rest hin heof hl hnf hlen
  have hscan1 : scan (after_read s (worker_read s)).buffer (after_read s (worker_read s)) =
      some i := by
    rw [scan_after_read]
    rw [← hi]
    exact scan_name_congr s (by rw [hcn]; exact hbuf)
  have hcb1 : ((after_read s (worker_read s)).ci_commands.read i).cb ≠ 0 := hcbs i hilt
  have hd := @dispatch_of_scan_some h _ _ hscan1 hcb1
  have hinvl : registry_inv (logged (after_read s (worker_read s))
      ⟨(s.ci_commands.read i).cb, (worker_read s).buffer,
        (s.ci_commands.read i).user_data⟩) := hinv
  have hnone := scan_after_unregister _ nm hinvl
  obtain ⟨t, c, hshape⟩ := unregister_shape (some nm)
    (logged (after_read s (worker_read s))
      ⟨(s.ci_commands.read i).cb, (worker_read s).buffer, (s.ci_commands.read i).user_data⟩)
  rw [hshape] at hnone
  refine ⟨hbuf, t, c, ?_, ?_⟩
  · have hc : scan_from n t c 0 = scan_from nm t c 0 :=
      scan_from_name_congr t c 0 (by rw [hcn]; exact hnm.symm)
    rw [hc]
    exact hnone
  · rw [hit, hd]
    have hinv2 : invoke h (s.ci_commands.read i).cb (worker_read s).buffer
        (s.ci_commands.read i).user_data (after_read s (worker_read s)) =
        (ci_unregister_command (some nm)
          (logged (after_read s (worker_read s))
            ⟨(s.ci_commands.read i).cb, (worker_read s).buffer,
              (s.ci_commands.read i).user_data⟩)).2 := by
      unfold invoke
      have hc : (after_read s (worker_read s)).calls = s.calls := rfl
      rw [hc, hbody]
      rfl
    have hs1 : (after_read s (worker_read s)).buffer = (worker_read s).buffer := rfl
    have hs2 : (after_read s (worker_read s)).ci_commands = s.ci_commands := rfl
    rw [hs1, hs2, hinv2, hshape]
    simp only [logged, after_read, hns, Bool.false_eq_true, if_false]
    rw [show (worker_read s).stream = (⟨rest, false⟩ : FILE) from hstream]

/-- Counterexample to C23: the session of the tests on the input `ping`, `ping`, the
callback 7 of `ping` registering the name again (resp. unregistering it), with the
end-of-file indicator of the standard input set. The first iteration of the worker
leaves the loop without an invocation, and the complete run of the worker invokes no
callback for either line and leaves both lines unread. -/
theorem no_dispatch_at_eof_indicator :
    (worker_iter swap_handlers
        { demo_session ping_twice with stdin := ⟨ping_twice, true⟩ }).1 = Ctl.brk ∧
    (ci_async_thread swap_handlers 3
        { demo_session ping_twice with stdin := ⟨ping_twice, true⟩ }).map
      (fun s => (s.calls, s.stdin)) = some ([], ⟨ping_twice, true⟩) ∧
    (ci_async_thread drop_handlers 3
        { demo_session ping_twice with stdin := ⟨ping_twice, true⟩ }).map
      (fun s => (s.calls, s.stdin)) = some ([], ⟨ping_twice, true⟩) := by
  refine ⟨?_, ?_, ?_⟩ <;> rfl

/-- C23 as amended, registry changes made during a dispatch affect later lines only. In a
running session whose standard input has its end-of-file indicator clear and whose
registry holds the name `n` (slot `i`), let the next two input lines both be `n`. The
iteration that reads the first line invokes the callback registered in slot
`i` with its registered context. If the body of that callback registers the name again
with the callback `cb2` and the context `ud2`, the worker goes on to the loop test with
the session still running, and the iteration that reads the second line invokes `cb2`
with `ud2`. If instead the body unregisters the name, the iteration that reads the
second line invokes the default callback with the default context. In both cases the
log holds exactly these two new invocations, each with a line argument equal to `n`.
With the indicator set (the same session otherwise), the iteration reads `CI_EOF`,
leaves the loop and invokes nothing. -/
theorem dispatch_after_registry_change (h : Handlers) (s : State) (n nm rest : List Nat)
    (i cb2 ud2 : Nat)
    (hok : session_ok s) (hrun : s.ci_running = true) (hns : s.ci_stop_requested = false)
    (hin : s.stdin.data = n ++ NL :: (n ++ NL :: rest)) (heof : s.stdin.eof = false)
    (hl : newline_free n) (hnf : nul_free n) (hi : scan n s = some i) (hnm : cstr nm = n) :
    (cb2 ≠ 0 →
      h (s.ci_commands.read i).cb (worker_read s).buffer (s.ci_commands.read i).user_data
        s.calls = Prog.register (some nm) cb2 ud2 (fun _ => Prog.done) →
      loop_head_after h 1 s = some (worker_iter h s).2 ∧
      (worker_iter h s).2.ci_running = true ∧
      (worker_iter h s).2.ci_stop_requested = false ∧
      cstr (worker_read s).buffer = n ∧
      cstr (worker_read (worker_iter h s).2).buffer = n ∧
      (worker_iter h s).2.calls = s.calls ++
        [⟨(s.ci_commands.read i).cb, (worker_read s).buffer,
          (s.ci_commands.read i).user_data⟩] ∧
      (worker_iter h (worker_iter h s).2).2.calls = s.calls ++
        [⟨(s.ci_commands.read i).cb, (worker_read s).buffer,
          (s.ci_commands.read i).user_data⟩,
         ⟨cb2, (worker_read (worker_iter h s).2).buffer, ud2⟩]) ∧
    (h (s.ci_commands.read i).cb (worker_read s).buffer (s.ci_commands.read i).user_data
        s.calls = Prog.unregister (some nm) (fun _ => Prog.done) →
      loop_head_after h 1 s = some (worker_iter h s).2 ∧
      (worker_iter h s).2.ci_running = true ∧
      (worker_iter h s).2.ci_stop_requested = false ∧
      cstr (worker_read s).buffer = n ∧
      cstr (worker_read (worker_iter h s).2).buffer = n ∧
      (worker_iter h s).2.calls = s.calls ++
        [⟨(s.ci_commands.read i).cb, (worker_read s).buffer,
          (s.ci_commands.read i).user_data⟩] ∧
      (worker_iter h (worker_iter h s).2).2.calls = s.calls ++
        [⟨(s.ci_commands.read i).cb, (worker_read s).buffer,
          (s.ci_commands.read i).user_data⟩,
         ⟨s.ci_cb, (worker_read (worker_iter h s).2).buffer, s.ci_cb_data⟩]) ∧
    ((worker_iter h { s with stdin := ⟨s.stdin.data, true⟩ }).1 = Ctl.brk ∧
      (worker_iter h { s with stdin := ⟨s.stdin.data, true⟩ }).2.calls = s.calls ∧
      (worker_iter h { s with stdin := ⟨s.stdin.data, true⟩ }).2.stdin =
        ⟨s.stdin.data, true⟩) := by
  have hcn : cstr n = n := cstr_nul_free hnf
  have hname : strlen n < CI_COMMAND_MAX_LEN :=
    present_strlen hok.2.1 (present_iff_scan.2 ⟨i, hi⟩)
  have hlen : n.length ≤ 254 := by
    rw [← strlen_nul_free hnf]
    simp only [CI_COMMAND_MAX_LEN] at hname
    omega
  obtain ⟨hilt, _, _⟩ := scan_some hi
  have hi32 : i < CI_MAX_COMMANDS := lt_of_lt_of_le hilt hok.1.1
  have hhead : ∀ s1, worker_iter h s = (Ctl.cont, s1) →
      loop_head_after h 1 s = some (worker_iter h s).2 := by
    intro s1 hit
    simp [loop_head_after, hrun, hns, hit]
  refine ⟨?_, ?_, ?_⟩
  · intro hcb2 hbody
    obtain ⟨hbuf, hit⟩ := iter_reregister h s n nm (n ++ NL :: rest) i cb2 ud2 hok hin heof
      hl hnf hi hnm hcb2 hns hbody
    have hh := hhead _ hit
    rw [hit] at hh ⊢
    simp only at hh ⊢
    refine ⟨hh, hrun, hns, hbuf, ?_⟩
    generalize hs2 : ({ s with
      stdin := ⟨n ++ NL :: rest, false⟩, stdout := (worker_read s).stdout,
      buffer := (worker_read s).buffer,
      calls := s.calls ++ [⟨(s.ci_commands.read i).cb, (worker_read s).buffer,
        (s.ci_commands.read i).user_data⟩],
      ci_commands := s.ci_commands.write i ⟨(s.ci_commands.read i).command, cb2, ud2⟩ } :
        State) = s2
    have hin2 : s2.stdin.data = n ++ NL :: rest := by rw [← hs2]
    have heof2 : s2.stdin.eof = false := by rw [← hs2]
    have hcalls2 : s2.calls = s.calls ++ [⟨(s.ci_commands.read i).cb, (worker_read s).buffer,
        (s.ci_commands.read i).user_data⟩] := by rw [← hs2]
    have hcmd2 : s2.ci_commands =
        s.ci_commands.write i ⟨(s.ci_commands.read i).command, cb2, ud2⟩ := by rw [← hs2]
    have hcnt2 : s2.ci_command_count = s.ci_command_count := by rw [← hs2]
    obtain ⟨hbuf2, _, _⟩ := worker_iter_line h s2 n rest hin2 heof2 hl hnf hlen
    have hscan : scan (after_read s2 (worker_read s2)).buffer (after_read s2 (worker_read s2)) =
        some i := by
      rw [scan_after_read]
      unfold scan
      rw [hcmd2, hcnt2, scan_from_write_same_command _ s.ci_commands i
        ⟨(s.ci_commands.read i).command, cb2, ud2⟩ rfl]
      rw [← hi]
      exact scan_name_congr s (by rw [hcn]; exact hbuf2)
    have hread : (after_read s2 (worker_read s2)).ci_commands.read i =
        ⟨(s.ci_commands.read i).command, cb2, ud2⟩ := by
      have : (after_read s2 (worker_read s2)).ci_commands = s2.ci_commands := rfl
      rw [this, hcmd2]
      exact read_write_same _ _ _ hi32
    have ht := dispatch_target_found hscan (by rw [hread]; exact hcb2)
    rw [hread] at ht
    have hc := worker_iter_line_calls h s2 n rest cb2 ud2 hin2 heof2 hl hnf hlen ht
    refine ⟨hbuf2, trivial, ?_⟩
    rw [hc, hcalls2]
    simp
  · intro hbody
    obtain ⟨hbuf, t, c, hnone, hit⟩ := iter_unregister h s n nm (n ++ NL :: rest) i hok hin heof
      hl hnf hi hnm hns hbody
    have hh := hhead _ hit
    rw [hit] at hh ⊢
    simp only at hh ⊢
    refine ⟨hh, hrun, hns, hbuf, ?_⟩
    generalize hs2 : ({ s with
      stdin := ⟨n ++ NL :: rest, false⟩, stdout := (worker_read s).stdout,
      buffer := (worker_read s).buffer,
      calls := s.calls ++ [⟨(s.ci_commands.read i).cb, (worker_read s).buffer,
        (s.ci_commands.read i).user_data⟩],
      ci_commands := t, ci_command_count := c } : State) = s2
    have hin2 : s2.stdin.data = n ++ NL :: rest := by rw [← hs2]
    have heof2 : s2.stdin.eof = false := by rw [← hs2]
    have hcalls2 : s2.calls = s.calls ++ [⟨(s.ci_commands.read i).cb, (worker_read s).buffer,
        (s.ci_commands.read i).user_data⟩] := by rw [← hs2]
    have hcmd2 : s2.ci_commands = t := by rw [← hs2]
    have hcnt2 : s2.ci_command_count = c := by rw [← hs2]
    have hcb : s2.ci_cb = s.ci_cb := by rw [← hs2]
    have hcbd : s2.ci_cb_data = s.ci_cb_data := by rw [← hs2]
    obtain ⟨hbuf2, _, _⟩ := worker_iter_line h s2 n rest hin2 heof2 hl hnf hlen
    have hscan : scan (after_read s2 (worker_read s2)).buffer (after_read s2 (worker_read s2)) =
        none := by
      rw [scan_after_read]
      unfold scan
      rw [hcmd2, hcnt2, ← hnone]
      exact scan_from_name_congr t c 0 (by rw [hcn]; exact hbuf2)
    have hdef : (after_read s2 (worker_read s2)).ci_cb ≠ 0 := by
      have : (after_read s2 (worker_read s2)).ci_cb = s.ci_cb := hcb
      rw [this]
      exact hok.2.2.2 hrun
    have ht := dispatch_target_default hscan hdef
    have h1 : (after_read s2 (worker_read s2)).ci_cb = s.ci_cb := hcb
    have h2 : (after_read s2 (worker_read s2)).ci_cb_data = s.ci_cb_data := hcbd
    rw [h1, h2] at ht
    have hc := worker_iter_line_calls h s2 n rest s.ci_cb s.ci_cb_data hin2 heof2 hl hnf hlen
      ht
    refine ⟨hbuf2, trivial, ?_⟩
    rw [hc, hcalls2]
    simp
  · have hst := (worker_read_at_eof { s with stdin := ⟨s.stdin.data, true⟩ } rfl)
    rw [iter_at_end h _ hst.1]
    exact ⟨rfl, rfl, hst.2⟩

theorem demo_session_ok (input : List Nat) : session_ok (demo_session input) :=
  register_ok _ _ _ (register_ok _ _ _ (start_ok _ _ _ _ (init_ok input)))

/-- Witness of C23 as amended: the session of the tests on the input `ping`, `ping`. With the
callback 7 of `ping` registering `ping` again for the callback 8 (context 80), the
invocations are 7 with context 70, then 8 with context 80; with the callback 7
unregistering the name, they are 7 with context 70, then the default callback 1 with
context 10. -/
theorem dispatch_after_registry_change_witness :
    (worker_iter swap_handlers (worker_iter swap_handlers (demo_session ping_twice)).2).2.calls =
      (demo_session ping_twice).calls ++
        [⟨7, (worker_read (demo_session ping_twice)).buffer, 70⟩,
         ⟨8, (worker_read (worker_iter swap_handlers (demo_session ping_twice)).2).buffer,
           80⟩] ∧
    (worker_iter drop_handlers (worker_iter drop_handlers (demo_session ping_twice)).2).2.calls =
      (demo_session ping_twice).calls ++
        [⟨7, (worker_read (demo_session ping_twice)).buffer, 70⟩,
         ⟨1, (worker_read (worker_iter drop_handlers (demo_session ping_twice)).2).buffer,
           10⟩] :=
  ⟨((dispatch_after_registry_change swap_handlers (demo_session ping_twice) ping ping [] 0 8 80
      (demo_session_ok ping_twice) rfl rfl rfl rfl ping_newline_free ping_nul_free rfl rfl).1
      (by decide) rfl).2.2.2.2.2.2,
    ((dispatch_after_registry_change drop_handlers (demo_session ping_twice) ping
      (worker_read (demo_session ping_twice)).buffer [] 0 0 0
      (demo_session_ok ping_twice) rfl rfl rfl rfl ping_newline_free ping_nul_free rfl
      rfl).2.1 rfl).2.2.2.2.2.2⟩

/-- The complete run of the worker on `ping`, `ping` when the callback of `ping`
registers the name again: the second line goes to the new callback. -/
theorem run_reregister_in_callback :
    (ci_async_thread swap_handlers 3 (demo_session ping_twice)).map
      (fun s => s.calls.map (fun c => (c.cb, cstr c.line, c.user_data))) =
      some [(7, ping, 70), (8, ping, 80)] := by
  rfl

/-- The same when the callback of `ping` unregisters the name: the second line goes to
the default callback. -/
theorem run_unregister_in_callback :
    (ci_async_thread drop_handlers 3 (demo_session ping_twice)).map
      (fun s => s.calls.map (fun c => (c.cb, cstr c.line, c.user_data))) =
      some [(7, ping, 70), (1, ping, 10)] := by
  rfl

/-! ## The worker over a whole input -/

/-- The worker reads a line that fits, newline included. -/
theorem worker_read_fit (s : State) (l rest : List Nat)
    (hin : s.stdin.data = l ++ NL :: rest) (heof : s.stdin.eof = false)
    (hl : newline_free l) (hlen : l.length ≤ 254) :
    (worker_read s).status = CI_OK ∧ (worker_read s).stream = ⟨rest, false⟩ ∧
      cstr (worker_read s).buffer = cstr l := by
  unfold worker_read
  rw [stdin_clear hin heof]
  obtain ⟨h1, h2, h3, _⟩ := @read_short_line CI_ASYNC_BUFFER (by decide) l rest
    s.ci_prompt s.buffer s.stdout hl (by simp only [CI_ASYNC_BUFFER]; omega)
  exact ⟨h1, h2, h3⟩

/-- The worker reads a last line without newline that fits. -/
theorem worker_read_fit_end (s : State) (l : List Nat)
    (hin : s.stdin.data = l) (heof : s.stdin.eof = false) (hne : l ≠ [])
    (hl : newline_free l) (hlen : l.length ≤ 254) :
    (worker_read s).status = CI_OK ∧ (worker_read s).stream = ⟨[], true⟩ ∧
      (worker_read s).buffer = l := by
  unfold worker_read
  rw [stdin_clear hin heof,
    @read_short_end CI_ASYNC_BUFFER (by decide) l s.ci_prompt s.buffer s.stdout
      hne hl (by simp only [CI_ASYNC_BUFFER]; omega)]
  exact ⟨rfl, rfl, rfl⟩

/-- The worker reads a line that does not fit. -/
theorem worker_read_over (s : State) (l rest : List Nat)
    (hin : s.stdin.data = l ++ NL :: rest) (heof : s.stdin.eof = false)
    (hl : newline_free l) (hlen : 255 ≤ l.length) (hnf : nul_free (l.take 255)) :
    (worker_read s).status = CI_OVERFLOW ∧ (worker_read s).stream = ⟨rest, false⟩ := by
  have hp : newline_free (l.take 255) := fun c hc => hl c (List.mem_of_mem_take hc)
  have hm : newline_free (l.drop 255) := fun c hc => hl c (List.mem_of_mem_drop hc)
  have hlen2 : (l.take 255).length = 255 := by
    rw [List.length_take]
    omega
  have hin2 : s.stdin.data = l.take 255 ++ l.drop 255 ++ NL :: rest := by
    rw [List.take_append_drop]
    exact hin
  rw [worker_read_long s (l.take 255) (l.drop 255) rest hin2 heof hp hnf hlen2 hm]
  exact ⟨rfl, rfl⟩

/-- The worker reads a last line without newline that does not fit. -/
theorem worker_read_over_end (s : State) (l : List Nat)
    (hin : s.stdin.data = l) (heof : s.stdin.eof = false) (hl : newline_free l)
    (hlen : 255 ≤ l.length) (hnf : nul_free (l.take 255)) :
    (worker_read s).status = CI_OVERFLOW ∧ (worker_read s).stream = ⟨[], true⟩ := by
  have hp : newline_free (l.take 255) := fun c hc => hl c (List.mem_of_mem_take hc)
  have hm : newline_free (l.drop 255) := fun c hc => hl c (List.mem_of_mem_drop hc)
  have hlen2 : (l.take 255).length + 1 = CI_ASYNC_BUFFER := by
    rw [List.length_take]
    simp only [CI_ASYNC_BUFFER]
    omega
  have hr := @read_long_line CI_ASYNC_BUFFER (by decide) (by decide) (l.take 255) (l.drop 255)
    s.ci_prompt s.buffer s.stdout hp hnf hlen2
  rw [List.take_append_drop, discard_line_end _ hm] at hr
  unfold worker_read
  rw [stdin_clear hin heof, hr]
  exact ⟨rfl, rfl⟩

/-- The worker reads at the end of the input. -/
theorem worker_read_eof (s : State) (hin : s.stdin.data = []) :
    (worker_read s).status = CI_EOF ∧ (worker_read s).stream = ⟨[], true⟩ := by
  unfold worker_read
  rw [file_eta s.stdin, hin,
    @read_at_end CI_ASYNC_BUFFER (by decide) (by decide) s.stdin.eof s.ci_prompt s.buffer
      s.stdout]
  exact ⟨rfl, rfl⟩

/-- In a running session the dispatch always finds a callback to call. -/
theorem dispatch_target_some {s : State} (hok : session_ok s) (hrun : s.ci_running = true) :
    ∃ cb ud, cb ≠ 0 ∧ dispatch_target s = some (cb, ud) := by
  obtain ⟨_, _, hcbs, hdef⟩ := hok
  cases hs : scan s.buffer s with
  | none => exact ⟨_, _, hdef hrun, dispatch_target_default hs (hdef hrun)⟩
  | some i =>
    obtain ⟨hi, _, _⟩ := scan_some hs
    exact ⟨_, _, hcbs i hi, dispatch_target_found hs (hcbs i hi)⟩

/-- An iteration of the worker on a line read with `CI_OK`, when callbacks request no
stop: one invocation, and on to the loop test. -/
theorem iter_dispatched (h : Handlers) (s : State) (hns : never_stops h) (hok : session_ok s)
    (hrun : s.ci_running = true) (hstop : s.ci_stop_requested = false)
    (hst : (worker_read s).status = CI_OK) :
    ∃ cb ud, cb ≠ 0 ∧ (worker_iter h s).1 = Ctl.cont ∧
      (worker_iter h s).2.calls = s.calls ++ [⟨cb, (worker_read s).buffer, ud⟩] ∧
      (worker_iter h s).2.stdin = (worker_read s).stream ∧
      (worker_iter h s).2.ci_stop_requested = false := by
  have hok1 : session_ok (after_read s (worker_read s)) :=
    session_ok_of_eq hok rfl rfl rfl rfl
  obtain ⟨cb, ud, hcb, ht⟩ := dispatch_target_some hok1 hrun
  have hd : dispatch h (after_read s (worker_read s)) =
      invoke h cb (worker_read s).buffer ud (after_read s (worker_read s)) := by
    rw [dispatch_eq_target, ht]
    rfl
  have hstop2 : (dispatch h (after_read s (worker_read s))).ci_stop_requested = false := by
    rw [hd, invoke_stop, hns]
    simpa using hstop
  refine ⟨cb, ud, hcb, ?_, ?_, ?_, ?_⟩
  · rw [worker_iter_ok hst, hstop2]
    rfl
  · rw [worker_iter_ok hst]
    simp only
    rw [hd, invoke_calls]
    rfl
  · rw [worker_iter_ok hst]
    simp only
    rw [hd, invoke_stdin]
    rfl
  · rw [worker_iter_ok hst]
    exact hstop2

/-- An iteration of the worker on a line read with `CI_OVERFLOW`: no invocation. -/
theorem iter_skipped (h : Handlers) (s : State)
    (hst : (worker_read s).status = CI_OVERFLOW) :
    (worker_iter h s).1 = Ctl.cont ∧ (worker_iter h s).2.calls = s.calls ∧
      (worker_iter h s).2.stdin = (worker_read s).stream ∧
      (worker_iter h s).2.ci_stop_requested = s.ci_stop_requested := by
  rw [worker_iter_overflow hst]
  exact ⟨rfl, rfl, rfl, rfl⟩

theorem line_args_append (a b : List Call) : line_args (a ++ b) = line_args a ++ line_args b := by
  simp [line_args]

theorem line_args_length (a : List Call) : (line_args a).length = a.length := by
  simp [line_args]

/-- The loop test and one iteration that goes on. -/
theorem loop_head_step (h : Handlers) (k : Nat) (s : State) (hrun : s.ci_running = true)
    (hstop : s.ci_stop_requested = false) (hc : (worker_iter h s).1 = Ctl.cont) :
    loop_head_after h (k + 1) s = loop_head_after h k (worker_iter h s).2 := by
  have hp : worker_iter h s = (Ctl.cont, (worker_iter h s).2) := Prod.ext hc rfl
  rw [loop_head_after]
  simp only [hrun, hstop, Bool.not_false, Bool.and_self, if_true]
  rw [hp]

/-- One iteration of the worker on a complete line: it goes on, the input left is what
follows the line, and the line is logged when it fits. -/
theorem iter_line (h : Handlers) (s : State) (l rest : List Nat) (hns : never_stops h)
    (hok : session_ok s) (hrun : s.ci_running = true) (hstop : s.ci_stop_requested = false)
    (hin : s.stdin.data = l ++ NL :: rest) (heof : s.stdin.eof = false)
    (hw : worker_line l) :
    (worker_iter h s).1 = Ctl.cont ∧ (worker_iter h s).2.stdin = ⟨rest, false⟩ ∧
      (worker_iter h s).2.ci_stop_requested = false ∧
      line_args (worker_iter h s).2.calls =
        line_args s.calls ++ ([l].filter fits_worker).map cstr := by
  by_cases hfit : l.length ≤ 254
  · obtain ⟨hst, hstream, hbuf⟩ := worker_read_fit s l rest hin heof hw.1 hfit
    obtain ⟨cb, ud, _, hc, hcalls, hstdin, hs2⟩ := iter_dispatched h s hns hok hrun hstop hst
    refine ⟨hc, by rw [hstdin, hstream], hs2, ?_⟩
    rw [hcalls, line_args_append]
    simp [line_args, fits_worker, hfit, hbuf]
  · obtain ⟨hst, hstream⟩ := worker_read_over s l rest hin heof hw.1 (by omega)
      (hw.2 (by omega))
    obtain ⟨hc, hcalls, hstdin, hs2⟩ := iter_skipped h s hst
    refine ⟨hc, by rw [hstdin, hstream], by rw [hs2, hstop], ?_⟩
    rw [hcalls]
    simp [fits_worker, hfit]

/-- The worker over complete lines: after as many iterations as there are lines it is
back at the loop test, the fitting lines logged in order. -/
theorem loop_over_lines (h : Handlers) (hns : never_stops h) :
    ∀ (ls : List (List Nat)) (s : State) (rest : List Nat),
      session_ok s → s.ci_running = true → s.ci_stop_requested = false →
      s.stdin.data = lines_text ls ++ rest → s.stdin.eof = false →
      (∀ l ∈ ls, worker_line l) →
      ∃ s1, loop_head_after h ls.length s = some s1 ∧ s1.stdin = ⟨rest, false⟩ ∧
        session_ok s1 ∧ s1.ci_running = true ∧ s1.ci_stop_requested = false ∧
        line_args s1.calls = line_args s.calls ++ (ls.filter fits_worker).map cstr := by
  intro ls
  induction ls with
  | nil =>
    intro s rest hok hrun hstop hin heof _
    refine ⟨s, rfl, ?_, hok, hrun, hstop, by simp⟩
    rw [stdin_clear hin heof]
    simp [lines_text]
  | cons l ls ih =>
    intro s rest hok hrun hstop hin heof hall
    rw [lines_text_cons] at hin
    have hw := hall l (List.mem_cons_self _ _)
    obtain ⟨hc, hstdin, hs2, hargs⟩ := iter_line h s l _ hns hok hrun hstop hin heof hw
    have hok2 := worker_iter_session_ok h hok
    have hrun2 : (worker_iter h s).2.ci_running = true := by
      rw [(worker_iter_session h s).2.2.2]
      exact hrun
    obtain ⟨s1, h1, h2, h3, h4, h5, h6⟩ := ih (worker_iter h s).2 rest hok2 hrun2 hs2
      (by rw [hstdin]) (by rw [hstdin]) (fun x hx => hall x (List.mem_cons_of_mem _ hx))
    refine ⟨s1, ?_, h2, h3, h4, h5, ?_⟩
    · rw [List.length_cons, loop_head_step h _ s hrun hstop hc]
      exact h1
    · rw [h6, hargs, List.append_assoc, ← List.map_append, ← List.filter_append]
      rfl

/-- The worker at the end of the input: the thread function returns with both flags
cleared and the log as it was. -/
theorem thread_at_end (h : Handlers) (fuel : Nat) (s : State) (hrun : s.ci_running = true)
    (hstop : s.ci_stop_requested = false) (hin : s.stdin.data = []) :
    ∃ sf, worker_loop h (fuel + 1) s = some sf ∧ sf.stdin = ⟨[], true⟩ ∧
      sf.calls = s.calls := by
  obtain ⟨hst, hstream⟩ := worker_read_eof s hin
  refine ⟨after_read s (worker_read s), ?_, hstream, rfl⟩
  rw [worker_loop]
  simp only [hrun, hstop, Bool.not_false, Bool.and_self, if_true]
  rw [iter_at_end h s hst]

/-- The loop test and one iteration that goes on, for the bounded loop. -/
theorem worker_loop_step (h : Handlers) (n : Nat) (s : State) (hrun : s.ci_running = true)
    (hstop : s.ci_stop_requested = false) (hc : (worker_iter h s).1 = Ctl.cont) :
    worker_loop h (n + 1) s = worker_loop h n (worker_iter h s).2 := by
  have hp : worker_iter h s = (Ctl.cont, (worker_iter h s).2) := Prod.ext hc rfl
  rw [worker_loop]
  simp only [hrun, hstop, Bool.not_false, Bool.and_self, if_true]
  rw [hp]

/-- One iteration of the worker on a last line without newline. -/
theorem iter_last (h : Handlers) (s : State) (l : List Nat) (hns : never_stops h)
    (hok : session_ok s) (hrun : s.ci_running = true) (hstop : s.ci_stop_requested = false)
    (hin : s.stdin.data = l) (heof : s.stdin.eof = false) (hne : l ≠ [])
    (hw : worker_line l) :
    (worker_iter h s).1 = Ctl.cont ∧ (worker_iter h s).2.stdin = ⟨[], true⟩ ∧
      (worker_iter h s).2.ci_stop_requested = false ∧
      line_args (worker_iter h s).2.calls =
        line_args s.calls ++ ([l].filter fits_worker).map cstr := by
  by_cases hfit : l.length ≤ 254
  · obtain ⟨hst, hstream, hbuf⟩ := worker_read_fit_end s l hin heof hne hw.1 hfit
    obtain ⟨cb, ud, _, hc, hcalls, hstdin, hs2⟩ := iter_dispatched h s hns hok hrun hstop hst
    refine ⟨hc, by rw [hstdin, hstream], hs2, ?_⟩
    rw [hcalls, line_args_append]
    simp [line_args, fits_worker, hfit, hbuf]
  · obtain ⟨hst, hstream⟩ := worker_read_over_end s l hin heof hw.1 (by omega)
      (hw.2 (by omega))
    obtain ⟨hc, hcalls, hstdin, hs2⟩ := iter_skipped h s hst
    refine ⟨hc, by rw [hstdin, hstream], by rw [hs2, hstop], ?_⟩
    rw [hcalls]
    simp [fits_worker, hfit]

/-- The worker with the end-of-file indicator of the standard input set: the thread
function returns at once, with both flags cleared, the log and the input as they were. -/
theorem thread_at_eof_indicator (h : Handlers) (fuel : Nat) (s : State)
    (hrun : s.ci_running = true) (hstop : s.ci_stop_requested = false)
    (heof : s.stdin.eof = true) :
    ∃ sf, ci_async_thread h (fuel + 1) s = some sf ∧ ci_async_is_running sf = false ∧
      sf.ci_stop_requested = false ∧ sf.stdin = s.stdin ∧ sf.calls = s.calls := by
  obtain ⟨hst, hstream⟩ := worker_read_at_eof s heof
  refine ⟨thread_exit (after_read s (worker_read s)), ?_, rfl, rfl, hstream, rfl⟩
  unfold ci_async_thread
  rw [worker_loop]
  simp only [hrun, hstop, Bool.not_false, Bool.and_self, if_true]
  rw [iter_at_end h s hst]

/-- The C strings of lines without NUL are the lines. -/
theorem map_cstr_nul_free (ls : List (List Nat)) (h : ∀ l ∈ ls, nul_free l) :
    ls.map cstr = ls := by
  induction ls with
  | nil => rfl
  | cons l ls ih =>
    rw [List.map_cons, cstr_nul_free (h l (List.mem_cons_self _ _)),
      ih (fun x hx => h x (List.mem_cons_of_mem _ hx))]

set_option maxRecDepth 100000 in
/-- Counterexample to C24: (1) the input has the line `hi` and a line made of a NUL and
300 times `x`, which overflows the buffer of the worker. The complete run of the worker
makes three invocations: for `hi`, for the empty text in front of the NUL, and for the
46 characters that the first read of the long line had left. (2) On the input `hi` with
the end-of-file indicator of the standard input set, the run makes no invocation and
leaves the line unread. -/
theorem worker_run_splits_line_with_nul :
    (ci_async_thread test_handlers 4
      (test_session (bytes "hi\n" ++ [0] ++ List.replicate 300 120 ++ [NL]))).map
        (fun s => line_args s.calls) =
      some [bytes "hi", [], List.replicate 46 120] ∧
    (ci_async_thread test_handlers 4
      { test_session (bytes "hi\n") with stdin := ⟨bytes "hi\n", true⟩ }).map
        (fun s => (line_args s.calls, s.stdin)) =
      some ([], ⟨bytes "hi\n", true⟩) := by
  constructor <;> rfl

/-- C24 as amended, worker loop over a whole input. Let the end-of-file indicator of the
standard input be clear, let the input consist of lines without NUL among the first 255
characters of any line of 255 characters or more, let the session run with no stop
requested, and let no callback request a stop. Then the thread function returns (a bound
of one more than the number of lines is enough), at the end of the input, with the
running flag and the stop-request flag both false, and it has made one invocation for
each line of at most 254 characters and none for a longer line: the line arguments of
these invocations, read as C strings, are in order the C strings of the lines of at most
254 characters, which are those lines themselves when the lines contain no NUL. The same
holds when the last line has no newline. With the indicator set, the thread function
returns at once with both flags false, no invocation made and the input unread. -/
theorem worker_over_whole_input (h : Handlers) (s : State) (ls : List (List Nat))
    (last : List Nat) (fuel : Nat)
    (hns : never_stops h) (hok : session_ok s) (hrun : s.ci_running = true)
    (hstop : s.ci_stop_requested = false) (hall : ∀ l ∈ ls, worker_line l) :
    (s.stdin = ⟨lines_text ls, false⟩ →
      ∃ sf, ci_async_thread h (ls.length + (fuel + 1)) s = some sf ∧
        ci_async_is_running sf = false ∧ sf.ci_stop_requested = false ∧
        sf.stdin = ⟨[], true⟩ ∧
        line_args sf.calls = line_args s.calls ++ (ls.filter fits_worker).map cstr ∧
        ((∀ l ∈ ls, nul_free l) →
          line_args sf.calls = line_args s.calls ++ ls.filter fits_worker) ∧
        sf.calls.length = s.calls.length + (ls.filter fits_worker).length) ∧
    (last ≠ [] → worker_line last → s.stdin = ⟨lines_text ls ++ last, false⟩ →
      ∃ sf, ci_async_thread h (ls.length + (fuel + 2)) s = some sf ∧
        ci_async_is_running sf = false ∧ sf.ci_stop_requested = false ∧
        sf.stdin = ⟨[], true⟩ ∧
        line_args sf.calls =
          line_args s.calls ++ ((ls ++ [last]).filter fits_worker).map cstr ∧
        ((∀ l ∈ ls ++ [last], nul_free l) →
          line_args sf.calls = line_args s.calls ++ (ls ++ [last]).filter fits_worker) ∧
        sf.calls.length = s.calls.length + ((ls ++ [last]).filter fits_worker).length) ∧
    (s.stdin.eof = true →
      ∃ sf, ci_async_thread h (fuel + 1) s = some sf ∧
        ci_async_is_running sf = false ∧ sf.ci_stop_requested = false ∧
        sf.stdin = s.stdin ∧ sf.calls = s.calls) := by
  have hnul : ∀ (sf : State) (xs : List (List Nat)),
      line_args sf.calls = line_args s.calls ++ (xs.filter fits_worker).map cstr →
      (∀ l ∈ xs, nul_free l) →
      line_args sf.calls = line_args s.calls ++ xs.filter fits_worker := by
    intro sf xs hargs hnf
    rw [hargs, map_cstr_nul_free _ (fun l hl => hnf l (List.mem_of_mem_filter hl))]
  have hlenof : ∀ (sf : State) (xs : List (List Nat)),
      line_args sf.calls = line_args s.calls ++ (xs.filter fits_worker).map cstr →
      sf.calls.length = s.calls.length + (xs.filter fits_worker).length := by
    intro sf xs hargs
    have := congrArg List.length hargs
    rw [line_args_length, List.length_append, line_args_length, List.length_map] at this
    exact this
  refine ⟨?_, ?_, fun heof => thread_at_eof_indicator h fuel s hrun hstop heof⟩
  · intro hin
    obtain ⟨s1, h1, h2, _, h4, h5, h6⟩ := loop_over_lines h hns ls s [] hok hrun hstop
      (by rw [hin, List.append_nil]) (by rw [hin]) hall
    have hdata : s1.stdin.data = [] := by rw [h2]
    obtain ⟨sf, hf, hfs, hfc⟩ := thread_at_end h fuel s1 h4 h5 hdata
    have hargs : line_args (thread_exit sf).calls =
        line_args s.calls ++ (ls.filter fits_worker).map cstr := by
      have : (thread_exit sf).calls = sf.calls := rfl
      rw [this, hfc, h6]
    refine ⟨thread_exit sf, ?_, rfl, rfl, hfs, hargs, hnul _ _ hargs, hlenof _ _ hargs⟩
    unfold ci_async_thread
    rw [loop_head_after_loop h ls.length (fuel + 1) s s1 h1, hf]
  · intro hne hw hin
    obtain ⟨s1, h1, h2, h3, h4, h5, h6⟩ := loop_over_lines h hns ls s last hok hrun hstop
      (by rw [hin]) (by rw [hin]) hall
    have hdata : s1.stdin.data = last := by rw [h2]
    have heof1 : s1.stdin.eof = false := by rw [h2]
    obtain ⟨hc, hstdin, hs2, hargs2⟩ := iter_last h s1 last hns h3 h4 h5 hdata heof1 hne hw
    have hrun2 : (worker_iter h s1).2.ci_running = true := by
      rw [(worker_iter_session h s1).2.2.2]
      exact h4
    have hdata2 : (worker_iter h s1).2.stdin.data = [] := by rw [hstdin]
    obtain ⟨sf, hf, hfs, hfc⟩ := thread_at_end h fuel (worker_iter h s1).2 hrun2 hs2 hdata2
    have hargs : line_args (thread_exit sf).calls =
        line_args s.calls ++ ((ls ++ [last]).filter fits_worker).map cstr := by
      have : (thread_exit sf).calls = sf.calls := rfl
      rw [this, hfc, hargs2, h6, List.append_assoc, ← List.map_append, ← List.filter_append]
    refine ⟨thread_exit sf, ?_, rfl, rfl, hfs, hargs, hnul _ _ hargs, hlenof _ _ hargs⟩
    unfold ci_async_thread
    rw [loop_head_after_loop h ls.length (fuel + 2) s s1 h1,
      worker_loop_step h (fuel + 1) s1 h4 h5 hc, hf]

theorem swap_never_stops : never_stops swap_handlers := by
  intro cb line ud calls s
  unfold swap_handlers
  split <;> rfl

theorem demo_lines_ok : ∀ l ∈ [ping, List.replicate 300 120], worker_line l := by
  intro l hl
  rcases List.mem_cons.1 hl with h | h
  · rw [h]
    exact ⟨ping_newline_free, fun hlen => absurd hlen (by decide)⟩
  · rw [List.mem_singleton] at h
    rw [h]
    refine ⟨replicate_newline_free 300, fun _ => ?_⟩
    rw [List.take_replicate]
    exact replicate_nul_free _

/-- Witness of C24 as amended: the session of the tests on the two lines `ping` and
300 times `x`; the run ends with the flags cleared and one invocation, for `ping`. -/
theorem worker_over_whole_input_witness :
    ∃ sf, ci_async_thread swap_handlers (2 + (0 + 1))
        (demo_session (lines_text [ping, List.replicate 300 120])) = some sf ∧
      ci_async_is_running sf = false ∧ sf.ci_stop_requested = false ∧
      sf.stdin = ⟨[], true⟩ ∧
      line_args sf.calls =
        line_args (demo_session (lines_text [ping, List.replicate 300 120])).calls ++
          ([ping, List.replicate 300 120].filter fits_worker).map cstr ∧
      ((∀ l ∈ [ping, List.replicate 300 120], nul_free l) →
        line_args sf.calls =
          line_args (demo_session (lines_text [ping, List.replicate 300 120])).calls ++
            [ping, List.replicate 300 120].filter fits_worker) ∧
      sf.calls.length =
        (demo_session (lines_text [ping, List.replicate 300 120])).calls.length +
          ([ping, List.replicate 300 120].filter fits_worker).length :=
  (worker_over_whole_input swap_handlers
    (demo_session (lines_text [ping, List.replicate 300 120])) [ping, List.replicate 300 120]
    [] 0 swap_never_stops (demo_session_ok _) rfl rfl demo_lines_ok).1 rfl

/-! ## The locking discipline -/

/-- The check of a sequence of steps goes through its two parts in turn. -/
theorem held_after_append (es fs : List Ev) : ∀ b : Bool,
    held_after b (es ++ fs) = (held_after b es).bind (fun b2 => held_after b2 fs) := by
  induction es with
  | nil =>
    intro b
    simp [held_after]
  | cons e es ih =>
    intro b
    cases e <;> cases b <;> simp [held_after, ih]

/-- Two parts that keep the rule, the second starting as the first ends. -/
theorem held_after_seq {es fs : List Ev} {b b2 : Bool} {r : Option Bool}
    (h1 : held_after b es = some b2) (h2 : held_after b2 fs = r) :
    held_after b (es ++ fs) = r := by
  rw [held_after_append, h1]
  exact h2

/-- The scan keeps the mutex held. -/
theorem scan_events_held (name : List Nat) (t : Table) : ∀ n i : Nat,
    held_after true (scan_events name t n i) = some true := by
  intro n
  induction n with
  | zero =>
    intro i
    simp [scan_events, held_after]
  | succ n ih =>
    intro i
    by_cases hm : strcmp name (t.read i).command = 0
    · simp [scan_events, held_after, hm]
    · simp [scan_events, held_after, hm, ih]

/-- The steps of `ci_register_command` keep the locking discipline. -/
theorem register_disciplined (c : Option (List Nat)) (cb : Nat) (s : State) :
    disciplined (register_events c cb s) := by
  unfold disciplined register_events
  cases c with
  | none => rfl
  | some name =>
    simp only
    by_cases h1 : cb = 0
    · rw [if_pos h1]
      rfl
    · rw [if_neg h1]
      by_cases h2 : strlen name ≥ CI_COMMAND_MAX_LEN
      · rw [if_pos h2]
        rfl
      · rw [if_neg h2]
        simp only [held_after, Bool.false_eq_true, if_false]
        apply held_after_seq (scan_events_held name s.ci_commands s.ci_command_count 0)
        cases scan name s with
        | some i => simp [held_after]
        | none =>
          by_cases h3 : s.ci_command_count ≥ CI_MAX_COMMANDS
          · simp [held_after, h3]
          · simp [held_after, h3]

/-- The steps of `ci_unregister_command` keep the locking discipline. -/
theorem unregister_disciplined (c : Option (List Nat)) (s : State) :
    disciplined (unregister_events c s) := by
  unfold disciplined unregister_events
  cases c with
  | none => rfl
  | some name =>
    simp only [held_after, Bool.false_eq_true, if_false]
    apply held_after_seq (scan_events_held name s.ci_commands s.ci_command_count 0)
    cases scan name s with
    | some i =>
      by_cases h3 : i ≠ s.ci_command_count - 1
      · simp [held_after, h3]
      · simp [held_after, h3]
    | none => simp [held_after]

/-- The steps of `ci_lookup_command` keep the locking discipline. -/
theorem lookup_disciplined (l : Option (List Nat)) (s : State) :
    disciplined (lookup_events l s) := by
  unfold disciplined lookup_events
  cases l with
  | none => rfl
  | some name =>
    simp only [held_after, Bool.false_eq_true, if_false]
    apply held_after_seq (scan_events_held name s.ci_commands s.ci_command_count 0)
    cases scan name s with
    | some i => simp [held_after]
    | none => simp [held_after]

/-- The steps of a callback body keep the locking discipline. -/
theorem prog_disciplined (p : Prog) : ∀ s : State, disciplined (p.events s) := by
  induction p with
  | done =>
    intro s
    rfl
  | register c cb ud k ih =>
    intro s
    exact held_after_seq (register_disciplined c cb s) (ih _ _)
  | unregister c k ih =>
    intro s
    exact held_after_seq (unregister_disciplined c s) (ih _ _)
  | request_stop k ih =>
    intro s
    exact ih _
  | is_running k ih =>
    intro s
    exact ih _ _

/-- The steps of the dispatch keep the locking discipline: the mutex is free when the
callback is entered and while it runs. -/
theorem dispatch_disciplined (h : Handlers) (s : State) : disciplined (dispatch_events h s) := by
  unfold dispatch_events
  apply held_after_seq (lookup_disciplined (some s.buffer) s)
  cases dispatch_target s with
  | none => rfl
  | some p =>
    obtain ⟨cb, ud⟩ := p
    simp only [held_after, Bool.false_eq_true, if_false]
    apply held_after_seq (prog_disciplined _ _)
    rfl

/-- The steps of an iteration of the worker keep the locking discipline. -/
theorem worker_iter_disciplined (h : Handlers) (s : State) :
    disciplined (worker_iter_events h s) := by
  unfold disciplined worker_iter_events
  simp only [held_after, Bool.false_eq_true, if_false]
  by_cases hst : (worker_read s).status = CI_OK
  · rw [if_pos hst]
    exact dispatch_disciplined h _
  · rw [if_neg hst]
    rfl

/-- C21, registry locking discipline, settled on the steps of each function in program
order. The steps of `ci_register_command`, `ci_unregister_command` and
`ci_lookup_command` keep the discipline in every state and for all arguments: every
registry access lies between the lock and the unlock. So do the steps of an iteration of
the worker, whatever the callbacks do: the mutex is free during the blocking read, when
a callback is entered and while it runs. The code breaks the discipline in the two
resets: a call of `ci_start_async_input` that passes its guards, and a call of
`ci_stop_async_input` on a running session, write `ci_command_count` (to 0) as their
only registry step, without the mutex. -/
theorem registry_locking (h : Handlers) (s : State) :
    (∀ (c : Option (List Nat)) (cb : Nat), disciplined (register_events c cb s)) ∧
    (∀ c : Option (List Nat), disciplined (unregister_events c s)) ∧
    (∀ l : Option (List Nat), disciplined (lookup_events l s)) ∧
    disciplined (worker_iter_events h s) ∧
    (∀ (p : Option (List Nat)) (cb ud : Nat) (rc : Int), cb ≠ 0 → s.ci_running = false →
      start_events cb s = [Ev.reg_write] ∧ ¬ disciplined (start_events cb s) ∧
      (ci_start_async_input p cb ud rc s).2.ci_command_count = 0) ∧
    (∀ join : State → State, s.ci_running = true →
      stop_events s = [Ev.reg_write] ∧ ¬ disciplined (stop_events s) ∧
      (ci_stop_async_input join s).ci_command_count = 0) := by
  refine ⟨fun c cb => register_disciplined c cb s, fun c => unregister_disciplined c s,
    fun l => lookup_disciplined l s, worker_iter_disciplined h s, ?_, ?_⟩
  · intro p cb ud rc hcb hrun
    have hev : start_events cb s = [Ev.reg_write] := by
      unfold start_events
      rw [if_neg hcb, hrun]
      rfl
    refine ⟨hev, ?_, ?_⟩
    · rw [hev]
      unfold disciplined
      decide
    · unfold ci_start_async_input
      rw [if_neg hcb, hrun]
      simp only [Bool.false_eq_true, if_false]
      split <;> rfl
  · intro join hrun
    have hev : stop_events s = [Ev.reg_write] := by
      unfold stop_events
      rw [hrun]
      rfl
    refine ⟨hev, ?_, ?_⟩
    · rw [hev]
      unfold disciplined
      decide
    · unfold ci_stop_async_input
      rw [hrun]
      rfl

/-- Witness of C21: the steps at the first call of the tests, `ci_start_async_input("",
default_cb, NULL)` with no session running, and at the stop of that session: in both
the registry is written without the mutex. -/
theorem registry_locking_witness :
    (start_events 1 (init_state []) = [Ev.reg_write] ∧
      ¬ disciplined (start_events 1 (init_state [])) ∧
      (ci_start_async_input (some []) 1 0 0 (init_state [])).2.ci_command_count = 0) ∧
    (stop_events (test_session []) = [Ev.reg_write] ∧
      ¬ disciplined (stop_events (test_session [])) ∧
      (ci_stop_async_input id (test_session [])).ci_command_count = 0) :=
  ⟨(registry_locking test_handlers (init_state [])).2.2.2.2.1 (some []) 1 0 0 (by decide) rfl,
    (registry_locking test_handlers (test_session [])).2.2.2.2.2 id rfl⟩

/-- The steps of a registration of `ping` on an empty registry, and of the worker
iteration that reads `ping` in the session of the tests. -/
theorem events_of_the_tests :
    register_events (some ping) 7 (init_state []) =
      [Ev.lock, Ev.reg_read, Ev.reg_read, Ev.reg_read, Ev.reg_write, Ev.reg_write,
        Ev.reg_write, Ev.reg_write, Ev.reg_write, Ev.unlock] ∧
    worker_iter_events test_handlers (demo_session demo_input) =
      [Ev.read_line, Ev.lock, Ev.reg_read, Ev.reg_read, Ev.reg_read, Ev.unlock,
        Ev.call_begin, Ev.call_end] := by
  constructor <;> rfl

end ConsoleInput
